import Mathlib

/-!
# Undirected graph model (`Graph.h`, `Graph/Graph.cpp`)

Shallow embedding of the class `Graph`: a vertex count, an adjacency list
(`std::vector<std::vector<int>>`) and an edge list
(`std::vector<std::pair<int, int>>`).  C++ `int` values are integers; the
places where the source converts a container size to `int` go through
`toInt32`.  Out-of-bounds indexing (undefined behaviour in C++) and running
out of loop fuel are both reported as `none`.

The second half embeds the force-directed layout of
`GraphVisualizerRaylib.cpp`.  Its `float` quantities live in an ordered field
`F` with exact arithmetic, and `std::sqrt` is a parameter `sqrt : F → F`
(likewise `std::cos`, `std::sin` and `M_PI` in `initializePositions`); the
statements about distances and magnitudes are made over the real numbers with
`Real.sqrt`, `Real.cos`, `Real.sin` and `Real.pi`.
-/

set_option linter.dupNamespace false
set_option linter.unusedVariables false

namespace GraphLab

/-- Conversion of an integer value to a 32-bit two's complement `int`
(what `static_cast<int>` and the implicit `size_t`-to-`int` return do). -/
def toInt32 (z : Int) : Int := (z + 2147483648) % 4294967296 - 2147483648

/-- Fields of `class Graph` (Graph.h, lines 18-20). -/
structure Graph where
  numVertices : Int
  adjList : List (List Int)
  edges : List (Int × Int)
deriving DecidableEq

/-- Constructor `Graph::Graph(int vertices)` (Graph.cpp, lines 10-14):
`adjList.resize(vertices)` gives one empty list per vertex.  For a negative
argument the C++ `resize` throws; the model then has no adjacency rows. -/
def Graph.Graph (vertices : Int) : Graph :=
  { numVertices := vertices, adjList := List.replicate vertices.toNat [], edges := [] }

/-- Accessor `Graph::getAdjList(int vertex)` (lines 47-50): `adjList[vertex]`. -/
def getAdjList (g : Graph) (vertex : Int) : List Int :=
  g.adjList.getD vertex.toNat []

/-- Accessor `Graph::getEdges()` (lines 53-56). -/
def getEdges (g : Graph) : List (Int × Int) := g.edges

/-- Accessor `Graph::getNumVertices()` (lines 40-43). -/
def getNumVertices (g : Graph) : Int := g.numVertices

/-- Method `Graph::addEdge(int u, int v)` (lines 17-36).  The range check
returns early (the message on `std::cerr` is not part of the state); the
`std::find` test guards the two `push_back`s on the adjacency rows and the
one on `edges`. -/
def addEdge (g : Graph) (u v : Int) : Graph :=
  if u < 0 ∨ u ≥ g.numVertices ∨ v < 0 ∨ v ≥ g.numVertices then g
  else if v ∉ getAdjList g u then
    { g with
      adjList := List.modify (· ++ [u]) v.toNat (List.modify (· ++ [v]) u.toNat g.adjList)
      edges := g.edges ++ [(u, v)] }
  else g

/-- Method `Graph::getDegree(int vertex)` (lines 59-67): `-1` for an index out
of range, otherwise `adjList[vertex].size()` returned as `int`. -/
def getDegree (g : Graph) (vertex : Int) : Int :=
  if vertex < 0 ∨ vertex ≥ g.numVertices then -1
  else toInt32 (getAdjList g vertex).length

/-- A graph obtained from `Graph(n)` by a finite sequence of `addEdge` calls,
given as the list of argument pairs in call order. -/
def buildGraph (n : Int) (calls : List (Int × Int)) : Graph :=
  calls.foldl (fun g c => addEdge g c.1 c.2) (Graph.Graph n)

/-- Body of the range-`for` over `adjList[vertex]` in the breadth-first loops
(lines 139-147 and 199-207): every neighbour not yet visited is marked and
pushed to the back of the queue.  Indexing `visited` outside its bounds gives
`none`. -/
def visitNeighbors : List Int → List Bool → List Int → Option (List Bool × List Int)
  | [], visited, queue => some (visited, queue)
  | neighbor :: rest, visited, queue =>
    if neighbor < 0 then none
    else match visited[neighbor.toNat]? with
      | none => none
      | some true => visitNeighbors rest visited queue
      | some false =>
        visitNeighbors rest (visited.set neighbor.toNat true) (queue ++ [neighbor])

/-- The loop `while (!queue.empty())` of `breadthFirstSearch` (lines 130-148)
and, with the same text, of `getConnectedComponents` (lines 191-208).  One unit
of fuel is spent per dequeued vertex; `none` when the fuel runs out with a
non-empty queue or when an index is out of bounds. -/
def bfsLoop (adjList : List (List Int)) :
    Nat → List Int → List Bool → List Int → Option (List Int × List Bool)
  | _, result, visited, [] => some (result, visited)
  | 0, _, _, _ :: _ => none
  | fuel + 1, result, visited, vertex :: queue =>
    if vertex < 0 then none
    else match adjList[vertex.toNat]? with
      | none => none
      | some neighbors =>
        match visitNeighbors neighbors visited queue with
        | none => none
        | some (visited1, queue1) =>
          bfsLoop adjList fuel (result ++ [vertex]) visited1 queue1

/-- Method `Graph::breadthFirstSearch(int start)` (lines 115-152).
`visited[start] = true` on an index out of range is undefined in C++
(`none` here). -/
def breadthFirstSearch (fuel : Nat) (g : Graph) (start : Int) : Option (List Int) :=
  let visited := List.replicate g.numVertices.toNat false
  if start < 0 ∨ start ≥ (visited.length : Int) then none
  else (bfsLoop g.adjList fuel [] (visited.set start.toNat true) [start]).map Prod.fst

/-- Method `Graph::isConnected()` (lines 156-165). -/
def isConnected (fuel : Nat) (g : Graph) : Option Bool :=
  if g.numVertices = 0 then some true
  else (breadthFirstSearch fuel g 0).map
    fun reachable => decide (toInt32 reachable.length = g.numVertices)

/-- The loop `for (int i = 0; i < numVertices; i++)` of
`getConnectedComponents` (lines 177-213), over the remaining values of `i`. -/
def componentsLoop (adjList : List (List Int)) (fuel : Nat) :
    List Int → List (List Int) → List Bool → Option (List (List Int))
  | [], components, _ => some components
  | i :: rest, components, visited =>
    if i < 0 then none
    else match visited[i.toNat]? with
      | none => none
      | some true => componentsLoop adjList fuel rest components visited
      | some false =>
        match bfsLoop adjList fuel [] (visited.set i.toNat true) [i] with
        | none => none
        | some (component, visited1) =>
          componentsLoop adjList fuel rest (components ++ [component]) visited1

/-- Method `Graph::getConnectedComponents()` (lines 170-217). -/
def getConnectedComponents (fuel : Nat) (g : Graph) : Option (List (List Int)) :=
  componentsLoop g.adjList fuel
    ((List.range g.numVertices.toNat).map Int.ofNat) []
    (List.replicate g.numVertices.toNat false)

/-- Two edge-list entries denote the same unordered pair. -/
def sameEdge (e f : Int × Int) : Prop := e = f ∨ e = (f.2, f.1)

instance (e f : Int × Int) : Decidable (sameEdge e f) := by
  unfold sameEdge; infer_instance

/-- One step along an entry of `edgeList`, in either direction. -/
def EdgeStep (g : Graph) (a b : Int) : Prop := (a, b) ∈ g.edges ∨ (b, a) ∈ g.edges

/-- A path of edges of `edgeList` joins `a` and `b` (the empty path included). -/
def Joined (g : Graph) (a b : Int) : Prop := Relation.ReflTransGen (EdgeStep g) a b


/-- The flag `visited[v]` is set. -/
def Marked (visited : List Bool) (v : Int) : Prop :=
  0 ≤ v ∧ visited[v.toNat]? = some true

/-- The vertex `b` occurs in the adjacency row `adjList[a]`. -/
def AdjStep (adjList : List (List Int)) (a b : Int) : Prop :=
  0 ≤ a ∧ ∃ row, adjList[a.toNat]? = some row ∧ b ∈ row

/-- Every adjacency row exists and holds vertex ids of `[0, n)` only. -/
structure AdjWF (adjList : List (List Int)) (n : Nat) : Prop where
  size : adjList.length = n
  range : ∀ row ∈ adjList, ∀ w ∈ row, 0 ≤ w ∧ w.toNat < n

/-- Loop invariant of the scan in `getConnectedComponents` when the counter
has reached `i`: the flags cover exactly the vertices of the components
harvested so far, which are disjoint classes of `AdjStep`-reachability, each
headed by its least vertex, with heads increasing and below `i`. -/
structure CompInv (adjList : List (List Int)) (n : Nat) (i : Int)
    (comps : List (List Int)) (vis : List Bool) : Prop where
  len : vis.length = n
  cover : ∀ v, Marked vis v ↔ ∃ c ∈ comps, v ∈ c
  nodup : comps.flatten.Nodup
  closed : ∀ v w, Marked vis v → AdjStep adjList v w → Marked vis w
  cls : ∀ c ∈ comps, ∀ a ∈ c, ∀ b,
    b ∈ c ↔ Relation.ReflTransGen (AdjStep adjList) a b
  head : ∀ c ∈ comps, ∃ x t, c = x :: t ∧ x < i ∧ ∀ y ∈ t, x < y
  sorted : (comps.map List.headI).Pairwise (· < ·)
  below : ∀ v, 0 ≤ v → v < i → Marked vis v

/-- Class invariant of `Graph` together with the agreement between the
adjacency rows and the edge list. -/
structure GraphInv (g : Graph) : Prop where
  nonneg : 0 ≤ g.numVertices
  size : g.adjList.length = g.numVertices.toNat
  edges_range : ∀ e ∈ g.edges,
    0 ≤ e.1 ∧ e.1 < g.numVertices ∧ 0 ≤ e.2 ∧ e.2 < g.numVertices
  adj_iff : ∀ a b, 0 ≤ a → (b ∈ getAdjList g a ↔ EdgeStep g a b)
  edges_unique : g.edges.Pairwise (fun e f => ¬ sameEdge e f)

/-- The loop over `edges` of `Graph::saveToFile` (lines 270-273): one
`first second` pair of integers per entry, in order. -/
def writeEdges : List (Int × Int) → List Int
  | [] => []
  | edge :: rest => edge.1 :: edge.2 :: writeEdges rest

/-- Method `Graph::saveToFile` (lines 256-277), as the sequence of integers
written to the opened file: the vertex count, then the edge pairs.  (When the
file cannot be opened nothing is written.) -/
def saveToFile (g : Graph) : List Int :=
  g.numVertices :: writeEdges g.edges

/-- The loop `while (file >> u >> v)` of `Graph::loadFromFile` (lines 244-247)
on the remaining integers of the file: it stops when no two further integers
can be read. -/
def readEdges (graph : Graph) : List Int → Graph
  | u :: v :: rest => readEdges (addEdge graph u v) rest
  | _ => graph

/-- Method `Graph::loadFromFile` (lines 222-253) on the content of the file as
a sequence of integers, `none` when the file cannot be opened.  A failed
extraction of the vertex count leaves `0` in `numVertices`. -/
def loadFromFile (file : Option (List Int)) : Graph :=
  match file with
  | none => Graph.Graph 0
  | some [] => Graph.Graph 0
  | some (numVertices :: rest) => readEdges (Graph.Graph numVertices) rest

/-- Body of the loop `for (int i = adjList[vertex].size() - 1; i >= 0; i--)` of
`depthFirstSearch` (lines 98-105), over the neighbours in the order the loop
meets them (last entry of the row first): every neighbour not yet visited is
pushed on the stack, whose top is the head of the list.  (The counter `i` is
an `int`; a row of a graph built by `addEdge` has at most `numVertices + 1`
entries, so `size() - 1` is representable, and it is `-1` for an empty row.)
Indexing `visited` outside its bounds gives `none`. -/
def pushNeighbors : List Int → List Bool → List Int → Option (List Int)
  | [], _, stack => some stack
  | neighbor :: rest, visited, stack =>
    if neighbor < 0 then none
    else match visited[neighbor.toNat]? with
      | none => none
      | some true => pushNeighbors rest visited stack
      | some false => pushNeighbors rest visited (neighbor :: stack)

/-- The loop `while (!stack.empty())` of `depthFirstSearch` (lines 83-107).
One unit of fuel is spent per popped vertex; `none` when the fuel runs out with
a non-empty stack or when an index is out of bounds. -/
def dfsLoop (adjList : List (List Int)) :
    Nat → List Int → List Bool → List Int → Option (List Int × List Bool)
  | _, result, visited, [] => some (result, visited)
  | 0, _, _, _ :: _ => none
  | fuel + 1, result, visited, vertex :: stack =>
    if vertex < 0 then none
    else match visited[vertex.toNat]? with
      | none => none
      | some true => dfsLoop adjList fuel result visited stack
      | some false =>
        match adjList[vertex.toNat]? with
        | none => none
        | some neighbors =>
          match pushNeighbors neighbors.reverse (visited.set vertex.toNat true) stack with
          | none => none
          | some stack1 =>
            dfsLoop adjList fuel (result ++ [vertex]) (visited.set vertex.toNat true) stack1

/-- Method `Graph::depthFirstSearch(int start)` (lines 71-111). -/
def depthFirstSearch (fuel : Nat) (g : Graph) (start : Int) : Option (List Int) :=
  (dfsLoop g.adjList fuel [] (List.replicate g.numVertices.toNat false) [start]).map Prod.fst

/-- Number of pops that suffice for `depthFirstSearch`: one for the start vertex
and one for every entry of every adjacency row. -/
def dfsFuel (g : Graph) : Nat := 1 + (g.adjList.map List.length).sum

/-- Total length of the adjacency rows of the vertices not yet visited. -/
def pendingWork : List (List Int) → List Bool → Nat
  | row :: adjList, b :: visited => (if b then 0 else row.length) + pendingWork adjList visited
  | _, _ => 0

/-- A walk of exactly `k` steps of the relation `R` from `a` to `b`. -/
def walk (R : Int → Int → Prop) : Nat → Int → Int → Prop
  | 0, a, b => a = b
  | k + 1, a, b => ∃ c, walk R k a c ∧ R c b

/-- The shortest-path distance from `a` to `b` is `k`: some path of edges of
`edgeList` has `k` edges and none has fewer. -/
def IsDist (g : Graph) (a b : Int) (k : Nat) : Prop :=
  walk (EdgeStep g) k a b ∧ ∀ j, j < k → ¬ walk (EdgeStep g) j a b

/-- A level function for the search from `start` along `R`: one step raises
the level by at most one, every vertex of positive level has a neighbour one
level below, and only `start` has level `0`. -/
structure Levels (R : Int → Int → Prop) (start : Int) (lev : Int → Nat) : Prop where
  step : ∀ v w, Relation.ReflTransGen R start v → R v w → lev w ≤ lev v + 1
  pred : ∀ w k, Relation.ReflTransGen R start w → lev w = k + 1 →
    ∃ p, Relation.ReflTransGen R start p ∧ lev p = k ∧ R p w
  zero : ∀ w, Relation.ReflTransGen R start w → (lev w = 0 ↔ w = start)

/-- The calls `addEdge(0,1), addEdge(1,2), ..., addEdge(k-1,k)` in that order. -/
def pathCalls (k : Nat) : List (Int × Int) :=
  (List.range k).map fun (i : Nat) => ((i : Int), (i : Int) + 1)

/-- Scenario A: `Graph(n)` followed by `addEdge(0,1)`, ..., `addEdge(n-2,n-1)`. -/
def pathGraph (n : Nat) : Graph := buildGraph n (pathCalls (n - 1))

/-- Record `struct VertexRaylib` (GraphVisualizerRaylib.h, lines 11-17): a
position and a velocity.  The `float` fields are modelled in an ordered field
`F` with exact arithmetic. -/
structure VertexRaylib (F : Type) where
  x : F
  y : F
  vx : F
  vy : F

/-- State of `class GraphVisualizerRaylib` (GraphVisualizerRaylib.h, lines
25-43) without the colours, which the layout never reads: the graph, the vertex
array, the window size and the tunable parameters. -/
structure GraphVisualizerRaylib (F : Type) where
  graph : Graph
  vertices : List (VertexRaylib F)
  windowWidth : Int
  windowHeight : Int
  vertexRadius : F
  repulsionForce : F
  attractionForce : F
  damping : F
  optimalDistance : F

/-- Element `vertices[i]` for reading.  The class keeps
`vertices.size() == graph.getNumVertices()`, so every index the methods form
is in range; outside the range (undefined in C++) the zero vertex is read. -/
def vertexAt {F : Type} [LinearOrderedField F] (vertices : List (VertexRaylib F)) (i : Int) :
    VertexRaylib F :=
  vertices.getD i.toNat ⟨0, 0, 0, 0⟩

/-- Method `calculateRepulsion(int i, int j)` (GraphVisualizerRaylib.cpp, lines
71-90); `sqrt` stands for `std::sqrt`. -/
def calculateRepulsion {F : Type} [LinearOrderedField F] (sqrt : F → F)
    (s : GraphVisualizerRaylib F) (i j : Int) : GraphVisualizerRaylib F :=
  let dx := (vertexAt s.vertices j).x - (vertexAt s.vertices i).x
  let dy := (vertexAt s.vertices j).y - (vertexAt s.vertices i).y
  let distSq := dx * dx + dy * dy
  let distSq := if distSq < 1 then 1 else distSq
  let dist := sqrt distSq
  let force := s.repulsionForce / distSq
  { s with
    vertices := List.modify
      (fun v => { v with vx := v.vx - (dx / dist) * force, vy := v.vy - (dy / dist) * force })
      i.toNat s.vertices }

/-- Method `calculateAttraction(int i, int j)` (lines 94-112). -/
def calculateAttraction {F : Type} [LinearOrderedField F] (sqrt : F → F)
    (s : GraphVisualizerRaylib F) (i j : Int) : GraphVisualizerRaylib F :=
  let dx := (vertexAt s.vertices j).x - (vertexAt s.vertices i).x
  let dy := (vertexAt s.vertices j).y - (vertexAt s.vertices i).y
  let dist := sqrt (dx * dx + dy * dy)
  let dist := if dist < 1 then 1 else dist
  let force := s.attractionForce * (dist - s.optimalDistance)
  { s with
    vertices := List.modify
      (fun v => { v with vx := v.vx + (dx / dist) * force, vy := v.vy + (dy / dist) * force })
      i.toNat s.vertices }

/-- First loop of `applyForceDirectedStep` (lines 121-124): every velocity is
set to zero. -/
def zeroVelocities {F : Type} [LinearOrderedField F] (s : GraphVisualizerRaylib F) :
    GraphVisualizerRaylib F :=
  (List.range s.graph.numVertices.toNat).foldl
    (fun s (i : Nat) =>
      { s with vertices := List.modify (fun v => { v with vx := 0, vy := 0 }) i s.vertices })
    s

/-- Nested loops of `applyForceDirectedStep` (lines 128-135): for `i < j < n`,
`calculateRepulsion(i, j)` then `calculateRepulsion(j, i)`. -/
def repulsionLoop {F : Type} [LinearOrderedField F] (sqrt : F → F)
    (s : GraphVisualizerRaylib F) : GraphVisualizerRaylib F :=
  let n := s.graph.numVertices.toNat
  (List.range n).foldl
    (fun s (i : Nat) =>
      (List.range' (i + 1) (n - (i + 1))).foldl
        (fun s (j : Nat) => calculateRepulsion sqrt (calculateRepulsion sqrt s i j) j i) s)
    s

/-- Loop over `graph.getEdges()` of `applyForceDirectedStep` (lines 139-147):
`calculateAttraction(u, v)` then `calculateAttraction(v, u)` per entry. -/
def attractionLoop {F : Type} [LinearOrderedField F] (sqrt : F → F)
    (s : GraphVisualizerRaylib F) : GraphVisualizerRaylib F :=
  s.graph.edges.foldl
    (fun s (edge : Int × Int) =>
      calculateAttraction sqrt (calculateAttraction sqrt s edge.1 edge.2) edge.2 edge.1)
    s

/-- Body of the loop of `updatePositions` for one vertex (lines 164-175): damp
the velocity, add it to the position, clamp the position to the window. -/
def updateVertex {F : Type} [LinearOrderedField F] (s : GraphVisualizerRaylib F)
    (v : VertexRaylib F) : VertexRaylib F :=
  let margin := s.vertexRadius * 2
  let vx := v.vx * s.damping
  let vy := v.vy * s.damping
  let x := v.x + vx
  let y := v.y + vy
  { x := max margin (min ((s.windowWidth : F) - margin) x)
    y := max margin (min ((s.windowHeight : F) - margin) y)
    vx := vx
    vy := vy }

/-- Method `updatePositions()` (lines 154-177). -/
def updatePositions {F : Type} [LinearOrderedField F] (s : GraphVisualizerRaylib F) :
    GraphVisualizerRaylib F :=
  { s with
    vertices := (List.range s.graph.numVertices.toNat).foldl
      (fun vertices (i : Nat) => List.modify (updateVertex s) i vertices) s.vertices }

/-- Method `applyForceDirectedStep()` (lines 116-151), the `step()` of the
specification. -/
def applyForceDirectedStep {F : Type} [LinearOrderedField F] (sqrt : F → F)
    (s : GraphVisualizerRaylib F) : GraphVisualizerRaylib F :=
  updatePositions (attractionLoop sqrt (repulsionLoop sqrt (zeroVelocities s)))

/-- Method `centerGraph()` (lines 181-205). -/
def centerGraph {F : Type} [LinearOrderedField F] (s : GraphVisualizerRaylib F) :
    GraphVisualizerRaylib F :=
  let n := s.graph.numVertices
  if n = 0 then s
  else
    let centerX :=
      (List.range n.toNat).foldl (fun c (i : Nat) => c + (vertexAt s.vertices i).x) 0
    let centerY :=
      (List.range n.toNat).foldl (fun c (i : Nat) => c + (vertexAt s.vertices i).y) 0
    let centerX := centerX / (n : F)
    let centerY := centerY / (n : F)
    let offsetX := (s.windowWidth : F) / 2 - centerX
    let offsetY := (s.windowHeight : F) / 2 - centerY
    { s with
      vertices := (List.range n.toNat).foldl
        (fun vertices (i : Nat) =>
          List.modify (fun v => { v with x := v.x + offsetX, y := v.y + offsetY }) i vertices)
        s.vertices }

/-- Method `optimize(int iterations)` (lines 209-228): the loop
`for (int i = 0; i < iterations; i++)` of steps, then `centerGraph()`; the
progress messages are not part of the state. -/
def optimize {F : Type} [LinearOrderedField F] (sqrt : F → F)
    (s : GraphVisualizerRaylib F) (iterations : Int) : GraphVisualizerRaylib F :=
  centerGraph
    ((List.range iterations.toNat).foldl (fun s _ => applyForceDirectedStep sqrt s) s)

/-- Class invariant of the engine: one vertex record per graph vertex, and
the endpoints of every edge are vertex ids. -/
structure EngineWF {F : Type} (s : GraphVisualizerRaylib F) : Prop where
  size : s.vertices.length = s.graph.numVertices.toNat
  edges_range : ∀ e ∈ s.graph.edges,
    0 ≤ e.1 ∧ e.1 < s.graph.numVertices ∧ 0 ≤ e.2 ∧ e.2 < s.graph.numVertices

/-- Position `(x, y)` of `vertices[i]`. -/
def positionAt {F : Type} [LinearOrderedField F] (vertices : List (VertexRaylib F)) (i : Int) :
    F × F :=
  ((vertexAt vertices i).x, (vertexAt vertices i).y)

/-- Add the vector `t` to the velocity of `vertices[k]`. -/
def addVelocity {F : Type} [LinearOrderedField F] (vertices : List (VertexRaylib F)) (k : Nat)
    (t : F × F) : List (VertexRaylib F) :=
  List.modify (fun v => { v with vx := v.vx + t.1, vy := v.vy + t.2 }) k vertices

/-- Repulsion term of the specification (step 2): on a vertex at `p` from a
vertex at `q`, with `distSq = max(|q - p|², 1)` and `force = repulsionForce /
distSq`, the vector of size `force` along the direction from `q` to `p`. -/
def repulsionTerm {F : Type} [LinearOrderedField F] (sqrt : F → F) (repulsionForce : F)
    (p q : F × F) : F × F :=
  let dx := q.1 - p.1
  let dy := q.2 - p.2
  let distSq := if dx * dx + dy * dy < 1 then 1 else dx * dx + dy * dy
  let dist := sqrt distSq
  let force := repulsionForce / distSq
  (-((dx / dist) * force), -((dy / dist) * force))

/-- Attraction term of the specification (step 3): on a vertex at `p` from the
other endpoint at `q`, with `dist = max(|q - p|, 1)` and
`force = attractionForce × (dist − optimalDistance)`, the vector of size
`force` along the direction from `p` to `q`. -/
def attractionTerm {F : Type} [LinearOrderedField F] (sqrt : F → F)
    (attractionForce optimalDistance : F) (p q : F × F) : F × F :=
  let dx := q.1 - p.1
  let dy := q.2 - p.2
  let dist := if sqrt (dx * dx + dy * dy) < 1 then 1 else sqrt (dx * dx + dy * dy)
  let force := attractionForce * (dist - optimalDistance)
  ((dx / dist) * force, (dy / dist) * force)

/-- The unordered pairs `i < j < n` of vertex ids, in the order of the nested
loops. -/
def vertexPairs (n : Nat) : List (Nat × Nat) :=
  (List.range n).flatMap fun (i : Nat) =>
    (List.range' (i + 1) (n - (i + 1))).map fun (j : Nat) => (i, j)

/-- Net force `F_k` of the specification on vertex `k`: the sum of all
repulsion terms over the pairs and of all attraction terms over the entries of
`edgeList`, each evaluated on the positions held in `s`. -/
def netForce {F : Type} [LinearOrderedField F] (sqrt : F → F) (s : GraphVisualizerRaylib F)
    (k : Nat) : F × F :=
  ((vertexPairs s.graph.numVertices.toNat).map fun p =>
      (if p.1 = k then repulsionTerm sqrt s.repulsionForce
          (positionAt s.vertices p.1) (positionAt s.vertices p.2) else 0)
      + (if p.2 = k then repulsionTerm sqrt s.repulsionForce
          (positionAt s.vertices p.2) (positionAt s.vertices p.1) else 0)).sum
  + (s.graph.edges.map fun e =>
      (if e.1 = (k : Int) then attractionTerm sqrt s.attractionForce s.optimalDistance
          (positionAt s.vertices e.1) (positionAt s.vertices e.2) else 0)
      + (if e.2 = (k : Int) then attractionTerm sqrt s.attractionForce s.optimalDistance
          (positionAt s.vertices e.2) (positionAt s.vertices e.1) else 0)).sum

/-- Clamp of one coordinate into `[margin, dimension − margin]` with
`margin = 2 × vertexRadius`, as `max(margin, min(dimension − margin, x))`. -/
def clampCoord {F : Type} [LinearOrderedField F] (vertexRadius : F) (dimension : Int) (x : F) :
    F :=
  max (vertexRadius * 2) (min ((dimension : F) - vertexRadius * 2) x)

/-- One tick as the specification words it: from the positions held before the
step, vertex `k` gets the velocity `damping × F_k` and the position
`clamp(p_k + damping × F_k)`. -/
def stepSpec {F : Type} [LinearOrderedField F] (sqrt : F → F) (s : GraphVisualizerRaylib F) :
    GraphVisualizerRaylib F :=
  { s with
    vertices := s.vertices.mapIdx fun k v =>
      { x := clampCoord s.vertexRadius s.windowWidth (v.x + s.damping * (netForce sqrt s k).1)
        y := clampCoord s.vertexRadius s.windowHeight (v.y + s.damping * (netForce sqrt s k).2)
        vx := s.damping * (netForce sqrt s k).1
        vy := s.damping * (netForce sqrt s k).2 } }

/-- Phase 4 of the specification over all vertices: multiply every velocity by
`damping`. -/
def dampPhase {F : Type} [LinearOrderedField F] (s : GraphVisualizerRaylib F) :
    GraphVisualizerRaylib F :=
  { s with
    vertices := s.vertices.map fun v => { v with vx := v.vx * s.damping, vy := v.vy * s.damping } }

/-- Phase 5 of the specification over all vertices: `position += velocity`. -/
def integratePhase {F : Type} [LinearOrderedField F] (s : GraphVisualizerRaylib F) :
    GraphVisualizerRaylib F :=
  { s with vertices := s.vertices.map fun v => { v with x := v.x + v.vx, y := v.y + v.vy } }

/-- Phase 6 of the specification over all vertices: clamp each coordinate. -/
def clampPhase {F : Type} [LinearOrderedField F] (s : GraphVisualizerRaylib F) :
    GraphVisualizerRaylib F :=
  { s with
    vertices := s.vertices.map fun v =>
      { v with
        x := clampCoord s.vertexRadius s.windowWidth v.x
        y := clampCoord s.vertexRadius s.windowHeight v.y } }

/-- A run of velocity updates: for each `(i, j)` of `ops` in turn, add to the
velocity of vertex `i` the term computed from the current positions of `i`
and `j`. -/
def accumulate {F : Type} [LinearOrderedField F] (term : F × F → F × F → F × F)
    (vertices : List (VertexRaylib F)) (ops : List (Int × Int)) : List (VertexRaylib F) :=
  ops.foldl
    (fun vs op => addVelocity vs op.1.toNat (term (positionAt vs op.1) (positionAt vs op.2)))
    vertices

/-- Sum of the terms that a run of velocity updates adds to vertex `k`. -/
def contribution {F : Type} [LinearOrderedField F] (term : F × F → F × F → F × F)
    (vertices : List (VertexRaylib F)) (ops : List (Int × Int)) (k : Nat) : F × F :=
  (ops.map fun op =>
    if op.1.toNat = k then term (positionAt vertices op.1) (positionAt vertices op.2) else 0).sum

/-- The vertex `v` with `t` added to its velocity. -/
def bump {F : Type} [LinearOrderedField F] (t : F × F) (v : VertexRaylib F) : VertexRaylib F :=
  { v with vx := v.vx + t.1, vy := v.vy + t.2 }

/-- Change of velocity between two records of the same vertex. -/
def velocityGain {F : Type} [LinearOrderedField F] (before after : VertexRaylib F) : F × F :=
  (after.vx - before.vx, after.vy - before.vy)

/-- Euclidean length of a vector, `sqrt` standing for the square root. -/
def magnitude {F : Type} [LinearOrderedField F] (sqrt : F → F) (t : F × F) : F :=
  sqrt (t.1 * t.1 + t.2 * t.2)

/-- Distance between two positions. -/
def distanceBetween {F : Type} [LinearOrderedField F] (sqrt : F → F) (p q : F × F) : F :=
  magnitude sqrt (q.1 - p.1, q.2 - p.2)

/-- The state set up by the constructor `GraphVisualizerRaylib(g, width,
height)` (lines 15-37) with its default parameters, the vertex records being
given. -/
def engineWith (F : Type) [LinearOrderedField F] (g : Graph) (width height : Int)
    (vertices : List (VertexRaylib F)) : GraphVisualizerRaylib F :=
  { graph := g
    vertices := vertices
    windowWidth := width
    windowHeight := height
    vertexRadius := 25
    repulsionForce := 50000
    attractionForce := 1 / 100
    damping := 85 / 100
    optimalDistance := 150 }

/-- Setter `setRepulsionForce(float force)` (lines 389-391). -/
def setRepulsionForce {F : Type} (s : GraphVisualizerRaylib F) (force : F) :
    GraphVisualizerRaylib F :=
  { s with repulsionForce := force }

/-- Setter `setAttractionForce(float force)` (lines 395-397). -/
def setAttractionForce {F : Type} (s : GraphVisualizerRaylib F) (force : F) :
    GraphVisualizerRaylib F :=
  { s with attractionForce := force }

/-- A two-vertex engine with one edge and default parameters, the endpoints
placed at distance 300 from each other, symmetrically about the centre of the
1200 x 800 window. -/
def twoBody (F : Type) [LinearOrderedField F] : GraphVisualizerRaylib F :=
  engineWith F (buildGraph 2 [(0, 1)]) 1200 800 [⟨450, 400, 0, 0⟩, ⟨750, 400, 0, 0⟩]

/-- A one-vertex engine in an 80 x 80 window with default parameters, the
vertex standing where `initializePositions` puts it. -/
def smallWindow (F : Type) [LinearOrderedField F] : GraphVisualizerRaylib F :=
  engineWith F (Graph.Graph 1) 80 80 [⟨68, 40, 0, 0⟩]

/-- Two `visited` arrays of the same size that hold the same flag at every
vertex outside the set `D`. -/
def AgreeOff (D : Int → Prop) (va vb : List Bool) : Prop :=
  va.length = vb.length ∧ ∀ v, 0 ≤ v → ¬ D v → va[v.toNat]? = vb[v.toNat]?

/-- Reference definition, not in the source: the loop of the textbook
recursive depth-first search over the neighbours of the vertex just entered,
in adjacency insertion order.  A neighbour already visited is passed over; an
unvisited one is entered by `visit`. -/
def recursiveVisitRow (visit : Int → List Int × List Bool → Option (List Int × List Bool)) :
    List Int → List Int × List Bool → Option (List Int × List Bool)
  | [], st => some st
  | neighbor :: rest, st =>
    if neighbor < 0 then none
    else match st.2[neighbor.toNat]? with
      | none => none
      | some true => recursiveVisitRow visit rest st
      | some false =>
        match visit neighbor st with
        | none => none
        | some st1 => recursiveVisitRow visit rest st1

/-- Reference definition, not in the source: the textbook recursive
depth-first search entering the unvisited vertex `vertex`.  The vertex is
marked and emitted on entry, then its neighbours are scanned in adjacency
insertion order and every one still unvisited is entered recursively.  The
state is the pair of the sequence emitted so far and the `visited` flags;
`depth` bounds the nesting of the recursion (`none` when it is exhausted). -/
def recursiveVisit (adjList : List (List Int)) :
    Nat → Int → List Int × List Bool → Option (List Int × List Bool)
  | 0, _, _ => none
  | depth + 1, vertex, st =>
    if vertex < 0 then none
    else match adjList[vertex.toNat]? with
      | none => none
      | some neighbors =>
        recursiveVisitRow (recursiveVisit adjList depth) neighbors
          (st.1 ++ [vertex], st.2.set vertex.toNat true)

/-- Reference definition, not in the source: the preorder sequence of the
textbook recursive depth-first search from `start`, all flags initially
clear. -/
def recursiveDFS (depth : Nat) (g : Graph) (start : Int) : Option (List Int) :=
  if start < 0 ∨ start ≥ g.numVertices then none
  else (recursiveVisit g.adjList depth start
    ([], List.replicate g.numVertices.toNat false)).map Prod.fst

/-- The loop of `depthFirstSearch` started with `stack` in state `st` runs to
completion, with some amount of fuel, and ends in state `r`. -/
def DfsRuns (adjList : List (List Int)) (stack : List Int) (st r : List Int × List Bool) : Prop :=
  ∃ fuel, dfsLoop adjList fuel st.1 st.2 stack = some r

/-- Method `initializePositions()` (GraphVisualizerRaylib.cpp, lines 41-67);
`cos` and `sin` stand for `std::cos` and `std::sin`, `pi` for the constant
`M_PI`, and `0.35f` is read as the fraction 35/100. -/
def initializePositions {F : Type} [LinearOrderedField F] (cos sin : F → F) (pi : F)
    (s : GraphVisualizerRaylib F) : GraphVisualizerRaylib F :=
  let n := s.graph.numVertices
  if n = 0 then s
  else
    let centerX := (s.windowWidth : F) / 2
    let centerY := (s.windowHeight : F) / 2
    let radius := ((min s.windowWidth s.windowHeight : Int) : F) * (35 / 100)
    { s with
      vertices := (List.range n.toNat).foldl
        (fun vertices (i : Nat) =>
          let angle := 2 * pi * (i : F) / (n : F)
          List.modify
            (fun v =>
              { v with
                x := centerX + radius * cos angle
                y := centerY + radius * sin angle
                vx := 0
                vy := 0 })
            i vertices)
        s.vertices }

/-- Constructor `GraphVisualizerRaylib(g, width, height)`
(GraphVisualizerRaylib.cpp, lines 15-37): one zero record per graph vertex
(`vertices.resize`), the default parameters, then `initializePositions()`. -/
def GraphVisualizerRaylib.GraphVisualizerRaylib {F : Type} [LinearOrderedField F]
    (cos sin : F → F) (pi : F) (g : Graph) (width height : Int) : GraphVisualizerRaylib F :=
  initializePositions cos sin pi
    (engineWith F g width height (List.replicate g.numVertices.toNat ⟨0, 0, 0, 0⟩))

/-- Arithmetic mean of the positions of a vertex array. -/
def centroid {F : Type} [LinearOrderedField F] (vertices : List (VertexRaylib F)) : F × F :=
  ((vertices.map fun v => v.x).sum / (vertices.length : F),
    (vertices.map fun v => v.y).sum / (vertices.length : F))

/-- The vertex `v` with its position moved by `offset`, its velocity kept. -/
def translate {F : Type} [LinearOrderedField F] (offset : F × F) (v : VertexRaylib F) :
    VertexRaylib F :=
  { v with x := v.x + offset.1, y := v.y + offset.2 }

/-- Centre of the window, `(windowWidth / 2, windowHeight / 2)`. -/
def windowCenter {F : Type} [LinearOrderedField F] (s : GraphVisualizerRaylib F) : F × F :=
  ((s.windowWidth : F) / 2, (s.windowHeight : F) / 2)

/-- Radius `0.35 × min(windowWidth, windowHeight)` of the initial circle. -/
def layoutRadius {F : Type} [LinearOrderedField F] (s : GraphVisualizerRaylib F) : F :=
  ((min s.windowWidth s.windowHeight : Int) : F) * (35 / 100)

/-- A two-vertex engine without edges, default parameters, both vertices
moving and standing left of and above the centre of the 1200 x 800 window. -/
def offCentre (F : Type) [LinearOrderedField F] : GraphVisualizerRaylib F :=
  engineWith F (Graph.Graph 2) 1200 800 [⟨100, 100, 1, 2⟩, ⟨300, 200, 3, 4⟩]

/-- The state of the constructor called for a one-vertex graph with the window
size `-100 x -100`, which it accepts like any other pair of `int`s, at the
point where it calls `initializePositions()`. -/
def negativeWindow (F : Type) [LinearOrderedField F] : GraphVisualizerRaylib F :=
  engineWith F (Graph.Graph 1) (-100) (-100) [⟨0, 0, 0, 0⟩]

/-- Sum of the velocities of a vertex array. -/
def totalVelocity {F : Type} [LinearOrderedField F] (vertices : List (VertexRaylib F)) : F × F :=
  ((vertices.map fun v => v.vx).sum, (vertices.map fun v => v.vy).sum)

/-- A three-vertex engine without edges and with default parameters in the
1200 x 800 window, the vertices standing on the horizontal line `y = 400`:
one at the left bound of the clamp interval, two near the right bound. -/
def lopsided (F : Type) [LinearOrderedField F] : GraphVisualizerRaylib F :=
  engineWith F (Graph.Graph 3) 1200 800
    [⟨50, 400, 0, 0⟩, ⟨1100, 400, 0, 0⟩, ⟨1150, 400, 0, 0⟩]

/-- A three-vertex engine without edges and with default parameters in a
200 x 200 window, the vertices standing at the abscissas `170`, `65`, `65`
where `initializePositions` puts them, at any ordinates. -/
def smallSquare (F : Type) [LinearOrderedField F] (y0 y1 y2 : F) : GraphVisualizerRaylib F :=
  engineWith F (Graph.Graph 3) 200 200 [⟨170, y0, 0, 0⟩, ⟨65, y1, 0, 0⟩, ⟨65, y2, 0, 0⟩]

/-- The engine the constructor builds for the graph of three vertices without
edges in a 200 x 200 window. -/
def squareEngine {F : Type} [LinearOrderedField F] (cos sin : F → F) (pi : F) :
    GraphVisualizerRaylib F :=
  GraphVisualizerRaylib.GraphVisualizerRaylib cos sin pi (Graph.Graph 3) 200 200

/-! ## Invariants of graphs built by `addEdge` -/

theorem getAdjList_addEdge_new (g : Graph) (u v a : Int)
    (hsize : g.adjList.length = g.numVertices.toNat)
    (hu0 : 0 ≤ u) (hu : u < g.numVertices) (hv0 : 0 ≤ v) (hv : v < g.numVertices)
    (hnew : v ∉ getAdjList g u) (ha : 0 ≤ a) :
    getAdjList (addEdge g u v) a
      = getAdjList g a ++ (if a = u then [v] else []) ++ (if a = v then [u] else []) := by
  have hcond : ¬ (u < 0 ∨ u ≥ g.numVertices ∨ v < 0 ∨ v ≥ g.numVertices) := by omega
  simp only [addEdge, hcond, hnew, if_false, not_false_eq_true, if_true]
  simp only [getAdjList, List.getD_eq_getElem?_getD, List.getElem?_modify]
  have e1 : (v.toNat = a.toNat) ↔ a = v := by omega
  have e2 : (u.toNat = a.toNat) ↔ a = u := by omega
  cases hget : g.adjList[a.toNat]? with
  | none =>
    have : g.adjList.length ≤ a.toNat := List.getElem?_eq_none_iff.mp hget
    have h1 : a ≠ u := by omega
    have h2 : a ≠ v := by omega
    simp [h1, h2]
  | some row =>
    by_cases h1 : a = u
    · subst h1
      by_cases h2 : a = v
      · subst h2; simp
      · have h3 : ¬ v.toNat = a.toNat := by omega
        simp [h2, h3]
    · by_cases h2 : a = v
      · subst h2
        have h3 : ¬ u.toNat = a.toNat := by omega
        simp [h1, h3]
      · have h3 : ¬ u.toNat = a.toNat := by omega
        have h4 : ¬ v.toNat = a.toNat := by omega
        simp [h1, h2, h3, h4]

theorem graphInv_init (n : Int) (hn : 0 ≤ n) : GraphInv (Graph.Graph n) := by
  refine ⟨hn, by simp [Graph.Graph], by simp [Graph.Graph], ?_, by simp [Graph.Graph]⟩
  intro a b ha
  simp [getAdjList, Graph.Graph, EdgeStep, List.getD_eq_getElem?_getD, List.getElem?_replicate]
  split <;> simp

theorem addEdge_numVertices (g : Graph) (u v : Int) :
    (addEdge g u v).numVertices = g.numVertices := by
  unfold addEdge; split
  · rfl
  · split <;> rfl

theorem addEdge_length (g : Graph) (u v : Int) :
    (addEdge g u v).adjList.length = g.adjList.length := by
  unfold addEdge; split
  · rfl
  · split
    · simp [List.length_modify]
    · rfl

theorem addEdge_edges_new (g : Graph) (u v : Int)
    (hu0 : 0 ≤ u) (hu : u < g.numVertices) (hv0 : 0 ≤ v) (hv : v < g.numVertices)
    (hnew : v ∉ getAdjList g u) : (addEdge g u v).edges = g.edges ++ [(u, v)] := by
  have hcond : ¬ (u < 0 ∨ u ≥ g.numVertices ∨ v < 0 ∨ v ≥ g.numVertices) := by omega
  simp [addEdge, hcond, hnew]

theorem addEdge_eq_self_of_mem (g : Graph) (u v : Int) (h : v ∈ getAdjList g u) :
    addEdge g u v = g := by
  unfold addEdge; split
  · rfl
  · simp [h]

theorem addEdge_eq_self_of_invalid (g : Graph) (u v : Int)
    (h : u < 0 ∨ u ≥ g.numVertices ∨ v < 0 ∨ v ≥ g.numVertices) : addEdge g u v = g := by
  simp [addEdge, h]

theorem graphInv_addEdge (g : Graph) (u v : Int) (h : GraphInv g) :
    GraphInv (addEdge g u v) := by
  by_cases hcond : u < 0 ∨ u ≥ g.numVertices ∨ v < 0 ∨ v ≥ g.numVertices
  · rw [addEdge_eq_self_of_invalid g u v hcond]; exact h
  by_cases hmem : v ∈ getAdjList g u
  · rw [addEdge_eq_self_of_mem g u v hmem]; exact h
  have hu0 : 0 ≤ u := by omega
  have hu : u < g.numVertices := by omega
  have hv0 : 0 ≤ v := by omega
  have hv : v < g.numVertices := by omega
  have hedges := addEdge_edges_new g u v hu0 hu hv0 hv hmem
  have hstep : ¬ EdgeStep g u v := fun hs => hmem ((h.adj_iff u v hu0).mpr hs)
  refine ⟨?_, ?_, ?_, ?_, ?_⟩
  · rw [addEdge_numVertices]; exact h.nonneg
  · rw [addEdge_numVertices, addEdge_length]; exact h.size
  · intro e he
    rw [addEdge_numVertices]
    rw [hedges, List.mem_append, List.mem_singleton] at he
    rcases he with he | he
    · exact h.edges_range e he
    · subst he; exact ⟨hu0, hu, hv0, hv⟩
  · intro a b ha
    rw [getAdjList_addEdge_new g u v a h.size hu0 hu hv0 hv hmem ha]
    have m1 : b ∈ (if a = u then [v] else []) ↔ (a = u ∧ b = v) := by
      split <;> simp [*]
    have m2 : b ∈ (if a = v then [u] else []) ↔ (a = v ∧ b = u) := by
      split <;> simp [*]
    have hold := h.adj_iff a b ha
    simp only [EdgeStep] at hold
    simp only [EdgeStep, hedges, List.mem_append, List.mem_singleton, Prod.mk.injEq, m1, m2,
      hold]
    constructor
    · rintro ((h1 | h1) | h1)
      · rcases h1 with h1 | h1
        · exact Or.inl (Or.inl h1)
        · exact Or.inr (Or.inl h1)
      · exact Or.inl (Or.inr h1)
      · exact Or.inr (Or.inr ⟨h1.2, h1.1⟩)
    · rintro ((h1 | h1) | (h1 | h1))
      · exact Or.inl (Or.inl (Or.inl h1))
      · exact Or.inl (Or.inr h1)
      · exact Or.inl (Or.inl (Or.inr h1))
      · exact Or.inr ⟨h1.2, h1.1⟩
  · rw [hedges, List.pairwise_append]
    refine ⟨h.edges_unique, by simp, ?_⟩
    intro e he f hf
    rw [List.mem_singleton] at hf
    subst hf
    intro hsame
    apply hstep
    rcases hsame with hs | hs
    · left; rw [← hs]; exact he
    · right; simp only at hs; rw [← hs]; exact he

theorem graphInv_foldl (calls : List (Int × Int)) (g : Graph) (h : GraphInv g) :
    GraphInv (calls.foldl (fun g c => addEdge g c.1 c.2) g) := by
  induction calls generalizing g with
  | nil => exact h
  | cons c cs ih => exact ih _ (graphInv_addEdge g c.1 c.2 h)

theorem graphInv_buildGraph (n : Int) (calls : List (Int × Int)) (hn : 0 ≤ n) :
    GraphInv (buildGraph n calls) :=
  graphInv_foldl calls _ (graphInv_init n hn)

theorem buildGraph_numVertices (n : Int) (calls : List (Int × Int)) :
    (buildGraph n calls).numVertices = n := by
  unfold buildGraph
  suffices h : ∀ g : Graph, (calls.foldl (fun g c => addEdge g c.1 c.2) g).numVertices
      = g.numVertices from h _
  induction calls with
  | nil => intro g; rfl
  | cons c cs ih => intro g; rw [List.foldl_cons, ih, addEdge_numVertices]

theorem edgeStep_symm (g : Graph) (a b : Int) (h : EdgeStep g a b) : EdgeStep g b a :=
  Or.symm h

theorem GraphInv.adj_symm {g : Graph} (h : GraphInv g) (a b : Int) (ha : 0 ≤ a) (hb : 0 ≤ b) :
    b ∈ getAdjList g a ↔ a ∈ getAdjList g b := by
  rw [h.adj_iff a b ha, h.adj_iff b a hb]
  exact ⟨edgeStep_symm g a b, edgeStep_symm g b a⟩


/-! ## The breadth-first loop -/

theorem marked_set (vis : List Bool) (v w : Int) (hv0 : 0 ≤ v) (hv : v.toNat < vis.length) :
    Marked (vis.set v.toNat true) w ↔ Marked vis w ∨ w = v := by
  unfold Marked
  rw [List.getElem?_set]
  by_cases h : w = v
  · subst h; simp [hv, hv0]
  · constructor
    · rintro ⟨h0, h1⟩
      have hne : ¬ v.toNat = w.toNat := by omega
      rw [if_neg hne] at h1
      exact Or.inl ⟨h0, h1⟩
    · rintro (⟨h0, h1⟩ | h1)
      · have hne : ¬ v.toNat = w.toNat := by omega
        rw [if_neg hne]
        exact ⟨h0, h1⟩
      · exact absurd h1 h

theorem count_false_set (vis : List Bool) (i : Nat) (h : vis[i]? = some false) :
    (vis.set i true).count false + 1 = vis.count false := by
  obtain ⟨hi, hget⟩ := List.getElem?_eq_some_iff.mp h
  have hmem : false ∈ vis := by rw [← hget]; exact List.getElem_mem hi
  have hpos : 0 < vis.count false := List.count_pos_iff.mpr hmem
  rw [List.count_set _ _ _ _ hi, hget]
  simp
  omega

theorem marked_lt_length {vis : List Bool} {v : Int} (h : Marked vis v) :
    v.toNat < vis.length := by
  obtain ⟨_, h1⟩ := h
  exact (List.getElem?_eq_some_iff.mp h1).1

theorem visitNeighbors_spec (nbrs : List Int) :
    ∀ (vis : List Bool) (queue : List Int),
      (∀ w ∈ nbrs, 0 ≤ w ∧ w.toNat < vis.length) →
      ∃ vis1 fresh, visitNeighbors nbrs vis queue = some (vis1, queue ++ fresh) ∧
        vis1.length = vis.length ∧
        (∀ w, Marked vis1 w ↔ Marked vis w ∨ w ∈ nbrs) ∧
        fresh.Nodup ∧
        (∀ w, w ∈ fresh ↔ w ∈ nbrs ∧ ¬ Marked vis w) ∧
        vis1.count false + fresh.length = vis.count false := by
  induction nbrs with
  | nil =>
    intro vis queue _
    exact ⟨vis, [], by simp [visitNeighbors], rfl, by simp, List.nodup_nil, by simp, by simp⟩
  | cons nb rest ih =>
    intro vis queue hr
    have hnb := hr nb (List.mem_cons_self _ _)
    have hrest : ∀ w ∈ rest, 0 ≤ w ∧ w.toNat < vis.length :=
      fun w hw => hr w (List.mem_cons_of_mem _ hw)
    have hneg : ¬ nb < 0 := by omega
    obtain ⟨b, hb⟩ : ∃ b, vis[nb.toNat]? = some b :=
      ⟨vis[nb.toNat], List.getElem?_eq_getElem hnb.2⟩
    cases b with
    | true =>
      have hm : Marked vis nb := ⟨hnb.1, hb⟩
      obtain ⟨vis1, fresh, h1, h2, h3, h4, h5, h6⟩ := ih vis queue hrest
      refine ⟨vis1, fresh, ?_, h2, ?_, h4, ?_, h6⟩
      · simp only [visitNeighbors, hneg, if_false, hb]; exact h1
      · intro w; rw [h3 w, List.mem_cons]
        constructor
        · rintro (h | h)
          · exact Or.inl h
          · exact Or.inr (Or.inr h)
        · rintro (h | h | h)
          · exact Or.inl h
          · subst h; exact Or.inl hm
          · exact Or.inr h
      · intro w; rw [h5 w, List.mem_cons]
        constructor
        · rintro ⟨h, h'⟩; exact ⟨Or.inr h, h'⟩
        · rintro ⟨h | h, h'⟩
          · subst h; exact absurd hm h'
          · exact ⟨h, h'⟩
    | false =>
      have hnm : ¬ Marked vis nb := by
        rintro ⟨_, h⟩; rw [hb] at h; cases h
      have hlen : (vis.set nb.toNat true).length = vis.length := List.length_set _ _ _
      have hrest1 : ∀ w ∈ rest, 0 ≤ w ∧ w.toNat < (vis.set nb.toNat true).length := by
        intro w hw; rw [hlen]; exact hrest w hw
      obtain ⟨vis1, fresh, h1, h2, h3, h4, h5, h6⟩ :=
        ih (vis.set nb.toNat true) (queue ++ [nb]) hrest1
      have hms := fun w => marked_set vis nb w hnb.1 hnb.2
      refine ⟨vis1, nb :: fresh, ?_, ?_, ?_, ?_, ?_, ?_⟩
      · simp only [visitNeighbors, hneg, if_false, hb]
        rw [h1]; simp
      · rw [h2, hlen]
      · intro w; rw [h3 w, hms w, List.mem_cons]
        constructor
        · rintro ((h | h) | h)
          · exact Or.inl h
          · exact Or.inr (Or.inl h)
          · exact Or.inr (Or.inr h)
        · rintro (h | h | h)
          · exact Or.inl (Or.inl h)
          · exact Or.inl (Or.inr h)
          · exact Or.inr h
      · rw [List.nodup_cons]
        refine ⟨?_, h4⟩
        intro hmem
        exact ((h5 nb).mp hmem).2 ((hms nb).mpr (Or.inr rfl))
      · intro w; rw [List.mem_cons, h5 w, hms w, List.mem_cons]
        constructor
        · rintro (h | ⟨h, h'⟩)
          · subst h; exact ⟨Or.inl rfl, hnm⟩
          · exact ⟨Or.inr h, fun hm => h' (Or.inl hm)⟩
        · rintro ⟨h | h, h'⟩
          · exact Or.inl h
          · by_cases hw : w = nb
            · exact Or.inl hw
            · refine Or.inr ⟨h, ?_⟩
              rintro (hm | hm)
              · exact h' hm
              · exact hw hm
      · have := count_false_set vis nb.toNat hb
        simp only [List.length_cons]
        omega


theorem adjStep_of_row {adjList : List (List Int)} {a : Int} {row : List Int}
    (ha : 0 ≤ a) (hrow : adjList[a.toNat]? = some row) (b : Int) :
    AdjStep adjList a b ↔ b ∈ row := by
  unfold AdjStep
  constructor
  · rintro ⟨_, row1, h1, h2⟩
    rw [hrow] at h1
    cases h1
    exact h2
  · intro h
    exact ⟨ha, row, hrow, h⟩

theorem bfsLoop_spec (adjList : List (List Int)) (n : Nat) (hwf : AdjWF adjList n) :
    ∀ (fuel : Nat) (result : List Int) (vis : List Bool) (queue : List Int),
      vis.length = n →
      (∀ q ∈ queue, Marked vis q) →
      queue.Nodup →
      queue.length + vis.count false ≤ fuel →
      ∃ out vis1, bfsLoop adjList fuel result vis queue = some (result ++ out, vis1) ∧
        vis1.length = n ∧
        (∀ v, Marked vis v → Marked vis1 v) ∧
        (∀ v, v ∈ out ↔ v ∈ queue ∨ (Marked vis1 v ∧ ¬ Marked vis v)) ∧
        out.Nodup ∧
        (∀ v ∈ out, ∀ w, AdjStep adjList v w → Marked vis1 w) ∧
        (∀ v, Marked vis1 v → ¬ Marked vis v →
          ∃ q ∈ queue, Relation.ReflTransGen (AdjStep adjList) q v) ∧
        queue <+: out := by
  intro fuel
  induction fuel with
  | zero =>
    intro result vis queue hlen hq hnd hfuel
    cases queue with
    | nil =>
      refine ⟨[], vis, by simp [bfsLoop], hlen, fun _ h => h, ?_, List.nodup_nil, ?_, ?_,
        List.prefix_refl _⟩
      · intro v; simp
      · intro v hv; simp at hv
      · intro v h1 h2; exact absurd h1 h2
    | cons x xs => simp at hfuel
  | succ fuel ih =>
    intro result vis queue hlen hq hnd hfuel
    cases queue with
    | nil =>
      refine ⟨[], vis, by simp [bfsLoop], hlen, fun _ h => h, ?_, List.nodup_nil, ?_, ?_,
        List.prefix_refl _⟩
      · intro v; simp
      · intro v hv; simp at hv
      · intro v h1 h2; exact absurd h1 h2
    | cons x xs =>
      have hx : Marked vis x := hq x (List.mem_cons_self _ _)
      have hx0 : 0 ≤ x := hx.1
      have hxlt : x.toNat < adjList.length := by
        rw [hwf.size, ← hlen]; exact marked_lt_length hx
      have hrow : adjList[x.toNat]? = some adjList[x.toNat] := List.getElem?_eq_getElem hxlt
      have hrange : ∀ w ∈ adjList[x.toNat], 0 ≤ w ∧ w.toNat < vis.length := by
        intro w hw
        rw [hlen]
        exact hwf.range _ (List.getElem_mem hxlt) w hw
      obtain ⟨vis1, fresh, e1, e2, e3, e4, e5, e6⟩ :=
        visitNeighbors_spec adjList[x.toNat] vis xs hrange
      rw [List.nodup_cons] at hnd
      have hq1 : ∀ q ∈ xs ++ fresh, Marked vis1 q := by
        intro q hq'
        rw [List.mem_append] at hq'
        rcases hq' with h | h
        · exact (e3 q).mpr (Or.inl (hq q (List.mem_cons_of_mem _ h)))
        · exact (e3 q).mpr (Or.inr ((e5 q).mp h).1)
      have hnd1 : (xs ++ fresh).Nodup := by
        refine List.Nodup.append hnd.2 e4 ?_
        intro q h1 h2
        exact ((e5 q).mp h2).2 (hq q (List.mem_cons_of_mem _ h1))
      have hfuel1 : (xs ++ fresh).length + vis1.count false ≤ fuel := by
        simp only [List.length_append, List.length_cons] at hfuel ⊢
        omega
      obtain ⟨out, vis2, f1, f2, f3, f4, f5, f6, f7, f8⟩ :=
        ih (result ++ [x]) vis1 (xs ++ fresh) (e2.trans hlen) hq1 hnd1 hfuel1
      have hmono : ∀ v, Marked vis v → Marked vis1 v := fun v h => (e3 v).mpr (Or.inl h)
      have hneg : ¬ x < 0 := by omega
      refine ⟨x :: out, vis2, ?_, f2, fun v h => f3 v (hmono v h), ?_, ?_, ?_, ?_, ?_⟩
      · simp only [bfsLoop, hneg, if_false, hrow, e1]
        rw [f1]; simp
      · intro v
        rw [List.mem_cons, f4 v, List.mem_append, (e5 v), List.mem_cons]
        constructor
        · rintro (h | (h | ⟨h, h'⟩) | ⟨h, h'⟩)
          · exact Or.inl (Or.inl h)
          · exact Or.inl (Or.inr h)
          · exact Or.inr ⟨f3 v ((e3 v).mpr (Or.inr h)), h'⟩
          · exact Or.inr ⟨h, fun hm => h' (hmono v hm)⟩
        · rintro ((h | h) | ⟨h, h'⟩)
          · exact Or.inl h
          · exact Or.inr (Or.inl (Or.inl h))
          · by_cases hm : Marked vis1 v
            · rcases (e3 v).mp hm with h1 | h1
              · exact absurd h1 h'
              · exact Or.inr (Or.inl (Or.inr ⟨h1, h'⟩))
            · exact Or.inr (Or.inr ⟨h, hm⟩)
      · rw [List.nodup_cons]
        refine ⟨?_, f5⟩
        intro hmem
        rcases (f4 x).mp hmem with h | ⟨_, h⟩
        · rw [List.mem_append] at h
          rcases h with h | h
          · exact hnd.1 h
          · exact ((e5 x).mp h).2 hx
        · exact h (hmono x hx)
      · intro v hv w hvw
        rw [List.mem_cons] at hv
        rcases hv with h | h
        · subst h
          exact f3 w ((e3 w).mpr (Or.inr ((adjStep_of_row hx0 hrow w).mp hvw)))
        · exact f6 v h w hvw
      · intro v hv2 hv
        by_cases hm : Marked vis1 v
        · rcases (e3 v).mp hm with h1 | h1
          · exact absurd h1 hv
          · exact ⟨x, List.mem_cons_self _ _,
              Relation.ReflTransGen.single ((adjStep_of_row hx0 hrow v).mpr h1)⟩
        · obtain ⟨q, hq', hpath⟩ := f7 v hv2 hm
          rw [List.mem_append] at hq'
          rcases hq' with h | h
          · exact ⟨q, List.mem_cons_of_mem _ h, hpath⟩
          · exact ⟨x, List.mem_cons_self _ _,
              Relation.ReflTransGen.head
                ((adjStep_of_row hx0 hrow q).mpr ((e5 q).mp h).1) hpath⟩
      · obtain ⟨t, ht⟩ := f8
        exact ⟨fresh ++ t, by rw [← ht]; simp⟩


theorem not_marked_replicate (n : Nat) (v : Int) : ¬ Marked (List.replicate n false) v := by
  rintro ⟨_, h⟩
  rw [List.getElem?_replicate] at h
  split at h <;> simp at h

theorem breadthFirstSearch_spec (g : Graph) (hwf : AdjWF g.adjList g.numVertices.toNat)
    (start : Int) (hs0 : 0 ≤ start) (hs : start < g.numVertices)
    (fuel : Nat) (hfuel : g.numVertices.toNat ≤ fuel) :
    ∃ r, breadthFirstSearch fuel g start = some r ∧ r.Nodup ∧
      (∀ v, v ∈ r ↔ Relation.ReflTransGen (AdjStep g.adjList) start v) ∧
      [start] <+: r ∧ ∀ v ∈ r, 0 ≤ v ∧ v < g.numVertices := by
  set n := g.numVertices.toNat with hn
  set vis0 := List.replicate n false with hvis0
  have hltn : start.toNat < n := by omega
  have hlt : start.toNat < vis0.length := by
    rw [hvis0, List.length_replicate]
    exact hltn
  have hget : vis0[start.toNat]? = some false := by
    rw [hvis0, List.getElem?_replicate, if_pos hltn]
  have hms := fun w => marked_set vis0 start w hs0 hlt
  have hcount : (vis0.set start.toNat true).count false + 1 = n := by
    rw [count_false_set vis0 start.toNat hget, hvis0]; simp
  obtain ⟨out, vis1, f1, f2, f3, f4, f5, f6, f7, f8⟩ :=
    bfsLoop_spec g.adjList n hwf fuel [] (vis0.set start.toNat true) [start]
      (by simp [hvis0])
      (by intro q hq; rw [List.mem_singleton] at hq; subst hq; exact (hms q).mpr (Or.inr rfl))
      (List.nodup_singleton _)
      (by simp only [List.length_singleton]; omega)
  have hstart : Marked vis1 start := f3 start ((hms start).mpr (Or.inr rfl))
  have hmem : ∀ v, v ∈ out ↔ Marked vis1 v := by
    intro v
    rw [f4 v, List.mem_singleton]
    constructor
    · rintro (h | ⟨h, _⟩)
      · subst h; exact hstart
      · exact h
    · intro h
      by_cases hv : v = start
      · exact Or.inl hv
      · refine Or.inr ⟨h, ?_⟩
        intro hm
        rcases (hms v).mp hm with h1 | h1
        · exact not_marked_replicate n v h1
        · exact hv h1
  refine ⟨out, ?_, f5, ?_, f8, ?_⟩
  · have hcond : ¬ (start < 0 ∨
        start ≥ ((List.replicate g.numVertices.toNat false).length : Int)) := by
      simp; omega
    simp only [breadthFirstSearch, hcond, if_false]
    rw [← hn, ← hvis0, f1]; simp
  · intro v
    constructor
    · intro hv
      by_cases hvs : v = start
      · subst hvs; exact Relation.ReflTransGen.refl
      · have hnm : ¬ Marked (vis0.set start.toNat true) v := by
          intro hm
          rcases (hms v).mp hm with h1 | h1
          · exact not_marked_replicate n v h1
          · exact hvs h1
        obtain ⟨q, hq, hpath⟩ := f7 v ((hmem v).mp hv) hnm
        rw [List.mem_singleton] at hq
        subst hq
        exact hpath
    · intro hpath
      induction hpath with
      | refl => exact (hmem start).mpr hstart
      | tail _ hstep ih => exact (hmem _).mpr (f6 _ ih _ hstep)
  · intro v hv
    have hm := (hmem v).mp hv
    have := marked_lt_length hm
    rw [f2] at this
    exact ⟨hm.1, by omega⟩


theorem compInv_init (adjList : List (List Int)) (n : Nat) :
    CompInv adjList n 0 [] (List.replicate n false) := by
  refine ⟨by simp, ?_, by simp, ?_, by simp, by simp, by simp, ?_⟩
  · intro v
    constructor
    · intro h; exact absurd h (not_marked_replicate n v)
    · rintro ⟨c, hc, _⟩; simp at hc
  · intro v w h; exact absurd h (not_marked_replicate n v)
  · intro v h0 h1; omega

theorem compInv_skip {adjList : List (List Int)} {n : Nat} {i : Int}
    {comps : List (List Int)} {vis : List Bool}
    (h : CompInv adjList n i comps vis) (hi : Marked vis i) :
    CompInv adjList n (i + 1) comps vis := by
  refine ⟨h.len, h.cover, h.nodup, h.closed, h.cls, ?_, h.sorted, ?_⟩
  · intro c hc
    obtain ⟨x, t, e, hx, ht⟩ := h.head c hc
    exact ⟨x, t, e, by omega, ht⟩
  · intro v h0 h1
    by_cases hv : v = i
    · subst hv; exact hi
    · exact h.below v h0 (by omega)

theorem compInv_step {adjList : List (List Int)} {n : Nat} (hwf : AdjWF adjList n)
    (hsymm : ∀ a b, AdjStep adjList a b → AdjStep adjList b a)
    {i : Int} {comps : List (List Int)} {vis : List Bool}
    (h : CompInv adjList n i comps vis) (hi0 : 0 ≤ i) (hin : i.toNat < n)
    (hi : ¬ Marked vis i) (fuel : Nat) (hfuel : n ≤ fuel) :
    ∃ out vis1, bfsLoop adjList fuel [] (vis.set i.toNat true) [i] = some (out, vis1) ∧
      CompInv adjList n (i + 1) (comps ++ [out]) vis1 := by
  have hlt : i.toNat < vis.length := by rw [h.len]; exact hin
  have hget : vis[i.toNat]? = some false := by
    rw [List.getElem?_eq_getElem hlt]
    cases hb : vis[i.toNat] with
    | false => rfl
    | true =>
      exfalso; apply hi
      exact ⟨hi0, by rw [List.getElem?_eq_getElem hlt, hb]⟩
  have hms := fun w => marked_set vis i w hi0 hlt
  have hcount := count_false_set vis i.toNat hget
  have hle : vis.count false ≤ n := by rw [← h.len]; exact List.count_le_length _ _
  obtain ⟨out, vis1, f1, f2, f3, f4, f5, f6, f7, f8⟩ :=
    bfsLoop_spec adjList n hwf fuel [] (vis.set i.toNat true) [i]
      (by rw [List.length_set]; exact h.len)
      (by intro q hq; rw [List.mem_singleton] at hq; subst hq; exact (hms q).mpr (Or.inr rfl))
      (List.nodup_singleton _)
      (by simp only [List.length_singleton]; omega)
  have hmono : ∀ v, Marked vis v → Marked vis1 v := fun v hv => f3 v ((hms v).mpr (Or.inl hv))
  have hi1 : Marked vis1 i := f3 i ((hms i).mpr (Or.inr rfl))
  have hmem : ∀ v, v ∈ out ↔ Marked vis1 v ∧ ¬ Marked vis v := by
    intro v
    rw [f4 v, List.mem_singleton]
    constructor
    · rintro (hv | ⟨hv, hv'⟩)
      · subst hv; exact ⟨hi1, hi⟩
      · exact ⟨hv, fun hm => hv' ((hms v).mpr (Or.inl hm))⟩
    · rintro ⟨hv, hv'⟩
      by_cases hvi : v = i
      · exact Or.inl hvi
      · refine Or.inr ⟨hv, fun hm => ?_⟩
        rcases (hms v).mp hm with h1 | h1
        · exact hv' h1
        · exact hvi h1
  have hfrom : ∀ v ∈ out, Relation.ReflTransGen (AdjStep adjList) i v := by
    intro v hv
    by_cases hvi : v = i
    · subst hvi; exact Relation.ReflTransGen.refl
    · have hv1 := (hmem v).mp hv
      have hnm : ¬ Marked (vis.set i.toNat true) v := by
        intro hm
        rcases (hms v).mp hm with h1 | h1
        · exact hv1.2 h1
        · exact hvi h1
      obtain ⟨q, hq, hpath⟩ := f7 v hv1.1 hnm
      rw [List.mem_singleton] at hq
      subst hq
      exact hpath
  have hclosed_out : ∀ v ∈ out, ∀ w, AdjStep adjList v w → w ∈ out := by
    intro v hv w hvw
    refine (hmem w).mpr ⟨f6 v hv w hvw, fun hm => ?_⟩
    exact ((hmem v).mp hv).2 (h.closed w v hm (hsymm v w hvw))
  have hsymmR : Symmetric (Relation.ReflTransGen (AdjStep adjList)) :=
    Relation.ReflTransGen.symmetric (fun a b hab => hsymm a b hab)
  have hcomps_marked : ∀ c ∈ comps, ∀ v ∈ c, Marked vis v :=
    fun c hc v hv => (h.cover v).mpr ⟨c, hc, hv⟩
  obtain ⟨t, ht⟩ := f8
  simp only [List.singleton_append] at ht
  refine ⟨out, vis1, by simpa using f1, f2, ?_, ?_, ?_, ?_, ?_, ?_, ?_⟩
  · intro v
    constructor
    · intro hv
      by_cases hm : Marked vis v
      · obtain ⟨c, hc, hvc⟩ := (h.cover v).mp hm
        exact ⟨c, List.mem_append_left _ hc, hvc⟩
      · exact ⟨out, by simp, (hmem v).mpr ⟨hv, hm⟩⟩
    · rintro ⟨c, hc, hvc⟩
      rw [List.mem_append, List.mem_singleton] at hc
      rcases hc with hc | hc
      · exact hmono v (hcomps_marked c hc v hvc)
      · subst hc; exact ((hmem v).mp hvc).1
  · rw [List.flatten_append, List.nodup_append]
    refine ⟨h.nodup, by simpa using f5, ?_⟩
    intro v hv1 hv2
    simp only [List.flatten_cons, List.flatten_nil, List.append_nil] at hv2
    obtain ⟨c, hc, hvc⟩ := List.mem_flatten.mp hv1
    exact ((hmem v).mp hv2).2 (hcomps_marked c hc v hvc)
  · intro v w hv hvw
    by_cases hm : Marked vis v
    · exact hmono w (h.closed v w hm hvw)
    · exact ((hmem w).mp (hclosed_out v ((hmem v).mpr ⟨hv, hm⟩) w hvw)).1
  · intro c hc a ha b
    rw [List.mem_append, List.mem_singleton] at hc
    rcases hc with hc | hc
    · exact h.cls c hc a ha b
    · subst hc
      constructor
      · intro hb
        exact Relation.ReflTransGen.trans (hsymmR (hfrom a ha)) (hfrom b hb)
      · intro hpath
        induction hpath with
        | refl => exact ha
        | tail _ hstep ih => exact hclosed_out _ ih _ hstep
  · intro c hc
    rw [List.mem_append, List.mem_singleton] at hc
    rcases hc with hc | hc
    · obtain ⟨x, t', e, hx, ht'⟩ := h.head c hc
      exact ⟨x, t', e, by omega, ht'⟩
    · subst hc
      refine ⟨i, t, ht.symm, by omega, ?_⟩
      intro x hx
      have hxo : x ∈ c := by rw [← ht]; exact List.mem_cons_of_mem _ hx
      have hxm := (hmem x).mp hxo
      have hne : x ≠ i := by
        rintro rfl
        rw [← ht, List.nodup_cons] at f5
        exact f5.1 hx
      by_contra hlt'
      exact hxm.2 (h.below x hxm.1.1 (by omega))
  · rw [List.map_append, List.pairwise_append]
    refine ⟨h.sorted, by simp, ?_⟩
    intro a ha b hb
    rw [List.map_singleton, List.mem_singleton] at hb
    rw [hb, ← ht]
    obtain ⟨c, hc, rfl⟩ := List.mem_map.mp ha
    obtain ⟨x, t', e, hx, _⟩ := h.head c hc
    rw [e]
    exact hx
  · intro v h0 h1
    by_cases hv : v = i
    · subst hv; exact hi1
    · exact hmono v (h.below v h0 (by omega))


theorem componentsLoop_spec {adjList : List (List Int)} {n : Nat} (hwf : AdjWF adjList n)
    (hsymm : ∀ a b, AdjStep adjList a b → AdjStep adjList b a)
    (fuel : Nat) (hfuel : n ≤ fuel) :
    ∀ (k i : Nat) (comps : List (List Int)) (vis : List Bool),
      i + k = n → CompInv adjList n (i : Int) comps vis →
      ∃ comps1 vis1,
        componentsLoop adjList fuel ((List.range' i k).map Int.ofNat) comps vis = some comps1 ∧
        CompInv adjList n (n : Int) comps1 vis1 := by
  intro k
  induction k with
  | zero =>
    intro i comps vis hik h
    have : i = n := by omega
    subst this
    exact ⟨comps, vis, by simp [componentsLoop], h⟩
  | succ k ih =>
    intro i comps vis hik h
    have hin : i < n := by omega
    have hlt : i < vis.length := by rw [h.len]; exact hin
    have hneg : ¬ ((i : Int) < 0) := by omega
    have hcast : ((i : Nat) : Int) + 1 = ((i + 1 : Nat) : Int) := by push_cast; rfl
    rw [List.range'_succ, List.map_cons]
    simp only [componentsLoop, Int.ofNat_eq_coe, hneg, if_false, Int.toNat_ofNat]
    cases hb : vis[i] with
    | true =>
      have hm : Marked vis (i : Int) :=
        ⟨by omega, by rw [Int.toNat_ofNat, List.getElem?_eq_getElem hlt, hb]⟩
      have h1 := compInv_skip h hm
      rw [hcast] at h1
      rw [List.getElem?_eq_getElem hlt, hb]
      exact ih (i + 1) comps vis (by omega) h1
    | false =>
      have hnm : ¬ Marked vis (i : Int) := by
        rintro ⟨_, hm⟩
        rw [Int.toNat_ofNat, List.getElem?_eq_getElem hlt, hb] at hm
        cases hm
      obtain ⟨out, vis1, e1, e2⟩ :=
        compInv_step hwf hsymm h (by omega) (by rw [Int.toNat_ofNat]; exact hin) hnm fuel hfuel
      rw [Int.toNat_ofNat] at e1
      rw [hcast] at e2
      rw [List.getElem?_eq_getElem hlt, hb]
      simp only [e1]
      exact ih (i + 1) (comps ++ [out]) vis1 (by omega) e2

theorem mem_getAdjList_iff (g : Graph) (a b : Int) (ha : 0 ≤ a) :
    b ∈ getAdjList g a ↔ AdjStep g.adjList a b := by
  unfold getAdjList AdjStep
  rw [List.getD_eq_getElem?_getD]
  cases h : g.adjList[a.toNat]? with
  | none => simp
  | some row => simp [ha]

theorem GraphInv.adjStep_iff {g : Graph} (h : GraphInv g) (a b : Int) :
    AdjStep g.adjList a b ↔ EdgeStep g a b := by
  constructor
  · intro hs
    exact (h.adj_iff a b hs.1).mp ((mem_getAdjList_iff g a b hs.1).mpr hs)
  · intro hs
    have ha : 0 ≤ a := by
      rcases hs with hs | hs
      · exact (h.edges_range _ hs).1
      · exact (h.edges_range _ hs).2.2.1
    exact (mem_getAdjList_iff g a b ha).mp ((h.adj_iff a b ha).mpr hs)

theorem GraphInv.adjStep_eq {g : Graph} (h : GraphInv g) :
    AdjStep g.adjList = EdgeStep g := by
  funext a b
  exact propext (h.adjStep_iff a b)

theorem GraphInv.edgeStep_range {g : Graph} (h : GraphInv g) {a b : Int}
    (hs : EdgeStep g a b) : 0 ≤ b ∧ b < g.numVertices := by
  rcases hs with hs | hs
  · exact (h.edges_range _ hs).2.2
  · exact ⟨(h.edges_range _ hs).1, (h.edges_range _ hs).2.1⟩

theorem GraphInv.adjWF {g : Graph} (h : GraphInv g) : AdjWF g.adjList g.numVertices.toNat := by
  refine ⟨h.size, ?_⟩
  intro row hrow w hw
  obtain ⟨k, hk, hget⟩ := List.mem_iff_getElem.mp hrow
  have hs : AdjStep g.adjList (k : Int) w :=
    ⟨by omega, row, by rw [Int.toNat_ofNat, List.getElem?_eq_getElem hk, hget], hw⟩
  have := h.edgeStep_range ((h.adjStep_iff _ _).mp hs)
  omega

theorem GraphInv.adjStep_symm {g : Graph} (h : GraphInv g) (a b : Int)
    (hs : AdjStep g.adjList a b) : AdjStep g.adjList b a := by
  rw [h.adjStep_iff] at hs ⊢
  exact edgeStep_symm g a b hs

theorem getConnectedComponents_spec (g : Graph) (h : GraphInv g) (fuel : Nat)
    (hfuel : g.numVertices.toNat ≤ fuel) :
    ∃ comps vis, getConnectedComponents fuel g = some comps ∧
      CompInv g.adjList g.numVertices.toNat g.numVertices comps vis := by
  obtain ⟨comps, vis, e1, e2⟩ :=
    componentsLoop_spec h.adjWF h.adjStep_symm fuel hfuel g.numVertices.toNat 0 []
      (List.replicate g.numVertices.toNat false) (by omega)
      (by simpa using compInv_init g.adjList g.numVertices.toNat)
  refine ⟨comps, vis, ?_, ?_⟩
  · unfold getConnectedComponents
    rw [List.range_eq_range']
    exact e1
  · have hcast : ((g.numVertices.toNat : Nat) : Int) = g.numVertices :=
      Int.toNat_of_nonneg h.nonneg
    rw [hcast] at e2
    exact e2

theorem joined_symm (g : Graph) (a b : Int) (h : Joined g a b) : Joined g b a :=
  Relation.ReflTransGen.symmetric (fun x y hxy => edgeStep_symm g x y hxy) h

theorem length_le_of_nodup_range (r : List Int) (n : Int) (hnd : r.Nodup)
    (hr : ∀ v ∈ r, 0 ≤ v ∧ v < n) :
    (r.length : Int) ≤ max n 0 ∧
      ((r.length : Int) = n → ∀ v, 0 ≤ v → v < n → v ∈ r) := by
  have hsub : r.toFinset ⊆ Finset.Ico 0 n := by
    intro v hv
    rw [List.mem_toFinset] at hv
    rw [Finset.mem_Ico]
    exact hr v hv
  have hcard : r.toFinset.card = r.length := List.toFinset_card_of_nodup hnd
  have hIco : (Finset.Ico (0 : Int) n).card = n.toNat := by simp
  have hle := Finset.card_le_card hsub
  rw [hcard, hIco] at hle
  refine ⟨by omega, ?_⟩
  intro hlen v hv0 hv
  have heq : r.toFinset = Finset.Ico 0 n :=
    Finset.eq_of_subset_of_card_le hsub (by rw [hcard, hIco]; omega)
  have : v ∈ Finset.Ico 0 n := Finset.mem_Ico.mpr ⟨hv0, hv⟩
  rw [← heq, List.mem_toFinset] at this
  exact this


theorem bfsLoop_fuel_mono (adjList : List (List Int)) :
    ∀ (fuel extra : Nat) (result : List Int) (vis : List Bool) (queue : List Int)
      (r : List Int × List Bool),
      bfsLoop adjList fuel result vis queue = some r →
      bfsLoop adjList (fuel + extra) result vis queue = some r := by
  intro fuel
  induction fuel with
  | zero =>
    intro extra result vis queue r h
    cases queue with
    | nil =>
      cases extra <;> simpa [bfsLoop] using h
    | cons x xs => simp [bfsLoop] at h
  | succ fuel ih =>
    intro extra result vis queue r h
    cases queue with
    | nil => simpa [bfsLoop] using h
    | cons x xs =>
      have hadd : fuel + 1 + extra = (fuel + extra) + 1 := by omega
      rw [hadd]
      simp only [bfsLoop] at h ⊢
      split at h
      · cases h
      · rename_i hneg
        rw [if_neg hneg]
        cases hrow : adjList[x.toNat]? with
        | none => rw [hrow] at h; cases h
        | some row =>
          rw [hrow] at h
          simp only at h ⊢
          cases hvn : visitNeighbors row vis xs with
          | none => rw [hvn] at h; cases h
          | some p =>
            rw [hvn] at h
            simp only at h ⊢
            exact ih extra _ _ _ r h

theorem breadthFirstSearch_fuel_mono (g : Graph) (start : Int) (fuel extra : Nat)
    (r : List Int) (h : breadthFirstSearch fuel g start = some r) :
    breadthFirstSearch (fuel + extra) g start = some r := by
  unfold breadthFirstSearch at h ⊢
  simp only at h ⊢
  split at h
  · cases h
  · rename_i hc
    rw [if_neg hc]
    cases hb : bfsLoop g.adjList fuel []
        ((List.replicate g.numVertices.toNat false).set start.toNat true) [start] with
    | none => rw [hb] at h; cases h
    | some p =>
      rw [hb] at h
      rw [bfsLoop_fuel_mono g.adjList fuel extra _ _ _ p hb]
      exact h

theorem componentsLoop_fuel_mono (adjList : List (List Int)) (fuel extra : Nat) :
    ∀ (idx : List Int) (comps : List (List Int)) (vis : List Bool) (r : List (List Int)),
      componentsLoop adjList fuel idx comps vis = some r →
      componentsLoop adjList (fuel + extra) idx comps vis = some r := by
  intro idx
  induction idx with
  | nil => intro comps vis r h; simpa [componentsLoop] using h
  | cons i rest ih =>
    intro comps vis r h
    simp only [componentsLoop] at h ⊢
    split at h
    · cases h
    · rename_i hneg
      rw [if_neg hneg]
      cases hv : vis[i.toNat]? with
      | none => rw [hv] at h; cases h
      | some b =>
        rw [hv] at h
        cases b with
        | true => exact ih comps vis r h
        | false =>
          simp only at h ⊢
          cases hb : bfsLoop adjList fuel [] (vis.set i.toNat true) [i] with
          | none => rw [hb] at h; cases h
          | some p =>
            rw [hb] at h
            rw [bfsLoop_fuel_mono adjList fuel extra _ _ _ p hb]
            exact ih _ _ r h

theorem getConnectedComponents_fuel_mono (g : Graph) (fuel extra : Nat)
    (r : List (List Int)) (h : getConnectedComponents fuel g = some r) :
    getConnectedComponents (fuel + extra) g = some r :=
  componentsLoop_fuel_mono g.adjList fuel extra _ _ _ r h

theorem toInt32_of_fits (z : Int) (h0 : 0 ≤ z) (h : z < 2147483648) : toInt32 z = z := by
  unfold toInt32
  omega

theorem sameEdge_symm (e f : Int × Int) (h : sameEdge e f) : sameEdge f e := by
  rcases h with h | h
  · exact Or.inl h.symm
  · right; rw [h]

theorem length_eq_of_nodup_cover (r : List Int) (n : Int) (hn : 0 ≤ n) (hnd : r.Nodup)
    (hr : ∀ v ∈ r, 0 ≤ v ∧ v < n) (hcov : ∀ v, 0 ≤ v → v < n → v ∈ r) :
    (r.length : Int) = n := by
  have hsub : Finset.Ico 0 n ⊆ r.toFinset := by
    intro v hv
    rw [Finset.mem_Ico] at hv
    rw [List.mem_toFinset]
    exact hcov v hv.1 hv.2
  have hcard : r.toFinset.card = r.length := List.toFinset_card_of_nodup hnd
  have hIco : (Finset.Ico (0 : Int) n).card = n.toNat := by simp
  have hle := Finset.card_le_card hsub
  rw [hcard, hIco] at hle
  have := (length_le_of_nodup_range r n hnd hr).1
  omega

/-! ## The claims -/

/-- C1. Symmetry invariant: in every graph obtained from `Graph(n)` by a finite
sequence of `addEdge` calls with arbitrary integer arguments, for all vertex
ids `u`, `v` of `[0, n)`, `v` occurs in `adjacency[u]` exactly when `u` occurs
in `adjacency[v]`. -/
theorem addEdge_symmetry (n : Int) (calls : List (Int × Int)) (u v : Int)
    (hn : 0 ≤ n) (hu0 : 0 ≤ u) (hu : u < n) (hv0 : 0 ≤ v) (hv : v < n) :
    v ∈ getAdjList (buildGraph n calls) u ↔ u ∈ getAdjList (buildGraph n calls) v :=
  (graphInv_buildGraph n calls hn).adj_symm u v hu0 hv0

theorem addEdge_symmetry_witness :
    (0 : Int) ≤ 3 ∧
      (1 ∈ getAdjList (buildGraph 3 [(0, 1), (1, 1), (7, 0), (2, 1)]) 2 ↔
        2 ∈ getAdjList (buildGraph 3 [(0, 1), (1, 1), (7, 0), (2, 1)]) 1) :=
  ⟨by decide, addEdge_symmetry 3 [(0, 1), (1, 1), (7, 0), (2, 1)] 2 1
    (by decide) (by decide) (by decide) (by decide) (by decide)⟩

/-- C2. Idempotence of `addEdge`: on a graph reachable from `Graph(n)` by
`addEdge` calls, after `addEdge(u, v)` (any integers, `u = v` included) a
further `addEdge(u, v)` or `addEdge(v, u)` leaves the whole state unchanged. -/
theorem addEdge_idempotent (n : Int) (calls : List (Int × Int)) (u v : Int) (hn : 0 ≤ n) :
    addEdge (addEdge (buildGraph n calls) u v) u v = addEdge (buildGraph n calls) u v ∧
      addEdge (addEdge (buildGraph n calls) u v) v u = addEdge (buildGraph n calls) u v := by
  have hinv := graphInv_buildGraph n calls hn
  have hinv1 := graphInv_addEdge (buildGraph n calls) u v hinv
  by_cases hcond : u < 0 ∨ u ≥ (buildGraph n calls).numVertices ∨ v < 0 ∨
      v ≥ (buildGraph n calls).numVertices
  · rw [addEdge_eq_self_of_invalid _ u v hcond]
    exact ⟨addEdge_eq_self_of_invalid _ u v hcond,
      addEdge_eq_self_of_invalid _ v u (by omega)⟩
  · have hu0 : 0 ≤ u := by omega
    have hv0 : 0 ≤ v := by omega
    have hmem : v ∈ getAdjList (addEdge (buildGraph n calls) u v) u := by
      by_cases hold : v ∈ getAdjList (buildGraph n calls) u
      · rw [addEdge_eq_self_of_mem _ u v hold]; exact hold
      · rw [getAdjList_addEdge_new _ u v u hinv.size hu0 (by omega) hv0 (by omega) hold hu0]
        simp
    exact ⟨addEdge_eq_self_of_mem _ u v hmem,
      addEdge_eq_self_of_mem _ v u ((hinv1.adj_symm u v hu0 hv0).mp hmem)⟩

theorem addEdge_idempotent_witness :
    (0 : Int) ≤ 4 ∧
      addEdge (addEdge (buildGraph 4 [(0, 1), (2, 2)]) 3 1) 3 1
          = addEdge (buildGraph 4 [(0, 1), (2, 2)]) 3 1 ∧
      addEdge (addEdge (buildGraph 4 [(0, 1), (2, 2)]) 3 1) 1 3
          = addEdge (buildGraph 4 [(0, 1), (2, 2)]) 3 1 :=
  ⟨by decide, addEdge_idempotent 4 [(0, 1), (2, 2)] 3 1 (by decide)⟩

/-- C3. `addEdge` rejects invalid indices atomically: if `u < 0`, `u >= n`,
`v < 0` or `v >= n` (with `n` the vertex count), then `addEdge(u, v)` leaves
the vertex count, every adjacency list and the edge list unchanged. -/
theorem addEdge_invalid_noop (g : Graph) (u v : Int)
    (h : u < 0 ∨ u ≥ g.numVertices ∨ v < 0 ∨ v ≥ g.numVertices) :
    addEdge g u v = g ∧ (addEdge g u v).numVertices = g.numVertices ∧
      (addEdge g u v).adjList = g.adjList ∧ (addEdge g u v).edges = g.edges := by
  rw [addEdge_eq_self_of_invalid g u v h]
  exact ⟨rfl, rfl, rfl, rfl⟩

theorem addEdge_invalid_noop_witness :
    ((1 : Int) < 0 ∨ (1 : Int) ≥ (buildGraph 3 [(0, 1)]).numVertices ∨ (3 : Int) < 0 ∨
        (3 : Int) ≥ (buildGraph 3 [(0, 1)]).numVertices) ∧
      addEdge (buildGraph 3 [(0, 1)]) 1 3 = buildGraph 3 [(0, 1)] ∧
      (addEdge (buildGraph 3 [(0, 1)]) 1 3).numVertices = (buildGraph 3 [(0, 1)]).numVertices ∧
      (addEdge (buildGraph 3 [(0, 1)]) 1 3).adjList = (buildGraph 3 [(0, 1)]).adjList ∧
      (addEdge (buildGraph 3 [(0, 1)]) 1 3).edges = (buildGraph 3 [(0, 1)]).edges :=
  ⟨by decide, addEdge_invalid_noop (buildGraph 3 [(0, 1)]) 1 3 (by decide)⟩

/-- C4. Postcondition of `addEdge` on a new edge: for valid `u`, `v` of
`[0, n)` with `u ≠ v` and `v` not yet in `adjacency[u]`, the call yields
`adjacency[u] = old adjacency[u] ++ [v]`, `adjacency[v] = old adjacency[v] ++ [u]`,
`edgeList = old edgeList ++ [(u, v)]`, and leaves the vertex count, the number
of adjacency rows and every other vertex's adjacency list unchanged. -/
theorem addEdge_new_edge (g : Graph) (u v : Int)
    (hsize : g.adjList.length = g.numVertices.toNat)
    (hu0 : 0 ≤ u) (hu : u < g.numVertices) (hv0 : 0 ≤ v) (hv : v < g.numVertices)
    (huv : u ≠ v) (hnew : v ∉ getAdjList g u) :
    getAdjList (addEdge g u v) u = getAdjList g u ++ [v] ∧
      getAdjList (addEdge g u v) v = getAdjList g v ++ [u] ∧
      (addEdge g u v).edges = g.edges ++ [(u, v)] ∧
      (addEdge g u v).numVertices = g.numVertices ∧
      (addEdge g u v).adjList.length = g.adjList.length ∧
      ∀ w, 0 ≤ w → w < g.numVertices → w ≠ u → w ≠ v →
        getAdjList (addEdge g u v) w = getAdjList g w := by
  refine ⟨?_, ?_, addEdge_edges_new g u v hu0 hu hv0 hv hnew, addEdge_numVertices g u v,
    addEdge_length g u v, ?_⟩
  · rw [getAdjList_addEdge_new g u v u hsize hu0 hu hv0 hv hnew hu0]
    simp [huv]
  · rw [getAdjList_addEdge_new g u v v hsize hu0 hu hv0 hv hnew hv0]
    simp [Ne.symm huv]
  · intro w hw0 _ hwu hwv
    rw [getAdjList_addEdge_new g u v w hsize hu0 hu hv0 hv hnew hw0]
    simp [hwu, hwv]

theorem addEdge_new_edge_witness :
    ((buildGraph 4 [(0, 1), (1, 2)]).adjList.length
        = (buildGraph 4 [(0, 1), (1, 2)]).numVertices.toNat ∧
      (0 : Int) ≤ 1 ∧ (1 : Int) < (buildGraph 4 [(0, 1), (1, 2)]).numVertices ∧
      (0 : Int) ≤ 3 ∧ (3 : Int) < (buildGraph 4 [(0, 1), (1, 2)]).numVertices ∧
      (1 : Int) ≠ 3 ∧ (3 : Int) ∉ getAdjList (buildGraph 4 [(0, 1), (1, 2)]) 1) ∧
      getAdjList (addEdge (buildGraph 4 [(0, 1), (1, 2)]) 1 3) 1
        = getAdjList (buildGraph 4 [(0, 1), (1, 2)]) 1 ++ [3] ∧
      getAdjList (addEdge (buildGraph 4 [(0, 1), (1, 2)]) 1 3) 3
        = getAdjList (buildGraph 4 [(0, 1), (1, 2)]) 3 ++ [1] ∧
      (addEdge (buildGraph 4 [(0, 1), (1, 2)]) 1 3).edges
        = (buildGraph 4 [(0, 1), (1, 2)]).edges ++ [(1, 3)] ∧
      (addEdge (buildGraph 4 [(0, 1), (1, 2)]) 1 3).numVertices
        = (buildGraph 4 [(0, 1), (1, 2)]).numVertices ∧
      (addEdge (buildGraph 4 [(0, 1), (1, 2)]) 1 3).adjList.length
        = (buildGraph 4 [(0, 1), (1, 2)]).adjList.length ∧
      ∀ w, 0 ≤ w → w < (buildGraph 4 [(0, 1), (1, 2)]).numVertices → w ≠ 1 → w ≠ 3 →
        getAdjList (addEdge (buildGraph 4 [(0, 1), (1, 2)]) 1 3) w
          = getAdjList (buildGraph 4 [(0, 1), (1, 2)]) w :=
  ⟨by decide,
    addEdge_new_edge (buildGraph 4 [(0, 1), (1, 2)]) 1 3 (by decide) (by decide) (by decide)
      (by decide) (by decide) (by decide) (by decide)⟩

/-- C5. `degree(vertex)` returns `-1` if and only if `vertex < 0` or
`vertex >= vertexCount`; for every valid vertex it returns the length of
`adjacency[vertex]`, which is `>= 0`.  The row length is taken to be
representable in the `int` return type. -/
theorem getDegree_spec (g : Graph) (vertex : Int)
    (hfit : (getAdjList g vertex).length < 2147483648) :
    (getDegree g vertex = -1 ↔ (vertex < 0 ∨ vertex ≥ g.numVertices)) ∧
      (0 ≤ vertex → vertex < g.numVertices →
        getDegree g vertex = ((getAdjList g vertex).length : Int) ∧ 0 ≤ getDegree g vertex) := by
  have hto : toInt32 ((getAdjList g vertex).length : Int) = ((getAdjList g vertex).length : Int) :=
    toInt32_of_fits _ (by omega) (by omega)
  by_cases hcond : vertex < 0 ∨ vertex ≥ g.numVertices
  · refine ⟨by simp [getDegree, hcond], ?_⟩
    intro h0 h1; omega
  · have hval : getDegree g vertex = ((getAdjList g vertex).length : Int) := by
      simp only [getDegree, hcond, if_false]; exact hto
    refine ⟨?_, fun _ _ => ⟨hval, by rw [hval]; omega⟩⟩
    rw [hval]
    constructor
    · intro h; omega
    · intro h; exact absurd h hcond

theorem getDegree_spec_witness :
    (getAdjList (buildGraph 3 [(0, 1), (1, 1), (1, 2)]) 1).length < 2147483648 ∧
      (getDegree (buildGraph 3 [(0, 1), (1, 1), (1, 2)]) 1 = -1 ↔
        ((1 : Int) < 0 ∨ (1 : Int) ≥ (buildGraph 3 [(0, 1), (1, 1), (1, 2)]).numVertices)) ∧
      ((0 : Int) ≤ 1 → (1 : Int) < (buildGraph 3 [(0, 1), (1, 1), (1, 2)]).numVertices →
        getDegree (buildGraph 3 [(0, 1), (1, 1), (1, 2)]) 1
            = ((getAdjList (buildGraph 3 [(0, 1), (1, 1), (1, 2)]) 1).length : Int) ∧
          0 ≤ getDegree (buildGraph 3 [(0, 1), (1, 1), (1, 2)]) 1) :=
  ⟨by decide, getDegree_spec (buildGraph 3 [(0, 1), (1, 1), (1, 2)]) 1 (by decide)⟩

/-- C6. Uniqueness invariant of `edgeList`: in every graph reachable from
`Graph(n)` by `addEdge` calls, no two distinct positions of the edge list hold
the same unordered pair (neither `(u, v)` twice nor both `(u, v)` and `(v, u)`),
and the endpoints of every entry lie in `[0, n)`. -/
theorem edges_unique (n : Int) (calls : List (Int × Int)) (hn : 0 ≤ n) :
    (∀ (i j : Nat) (hi : i < (buildGraph n calls).edges.length)
        (hj : j < (buildGraph n calls).edges.length), i ≠ j →
        ¬ sameEdge ((buildGraph n calls).edges.get ⟨i, hi⟩)
            ((buildGraph n calls).edges.get ⟨j, hj⟩)) ∧
      ∀ e ∈ (buildGraph n calls).edges, 0 ≤ e.1 ∧ e.1 < n ∧ 0 ≤ e.2 ∧ e.2 < n := by
  have hinv := graphInv_buildGraph n calls hn
  constructor
  · intro i j hi hj hij
    have hp := List.pairwise_iff_getElem.mp hinv.edges_unique
    simp only [List.get_eq_getElem]
    rcases Nat.lt_or_gt_of_ne hij with h | h
    · exact hp i j hi hj h
    · exact fun hs => hp j i hj hi h (sameEdge_symm _ _ hs)
  · intro e he
    have := hinv.edges_range e he
    rw [buildGraph_numVertices] at this
    exact this

theorem edges_unique_witness :
    (0 : Int) ≤ 3 ∧
      (∀ (i j : Nat) (hi : i < (buildGraph 3 [(0, 1), (1, 0), (2, 2), (2, 2)]).edges.length)
          (hj : j < (buildGraph 3 [(0, 1), (1, 0), (2, 2), (2, 2)]).edges.length), i ≠ j →
          ¬ sameEdge ((buildGraph 3 [(0, 1), (1, 0), (2, 2), (2, 2)]).edges.get ⟨i, hi⟩)
              ((buildGraph 3 [(0, 1), (1, 0), (2, 2), (2, 2)]).edges.get ⟨j, hj⟩)) ∧
        ∀ e ∈ (buildGraph 3 [(0, 1), (1, 0), (2, 2), (2, 2)]).edges,
          0 ≤ e.1 ∧ e.1 < 3 ∧ 0 ≤ e.2 ∧ e.2 < 3 :=
  ⟨by decide, edges_unique 3 [(0, 1), (1, 0), (2, 2), (2, 2)] (by decide)⟩

/-- C7. Partition property: on every graph reachable from `Graph(n)` by
`addEdge` calls, `connectedComponents()` returns (given fuel for `n` dequeues
per search) lists that are pairwise disjoint, each without repeated elements,
and whose union is exactly `{0, ..., n-1}`; for `n = 0` it returns the empty
list of components. -/
theorem connectedComponents_partition (n : Int) (calls : List (Int × Int)) (fuel : Nat)
    (hn : 0 ≤ n) (hfuel : n ≤ (fuel : Int)) :
    ∃ comps, getConnectedComponents fuel (buildGraph n calls) = some comps ∧
      comps.Pairwise List.Disjoint ∧
      (∀ c ∈ comps, c.Nodup) ∧
      (∀ v, (∃ c ∈ comps, v ∈ c) ↔ (0 ≤ v ∧ v < n)) ∧
      (n = 0 → comps = []) := by
  have hinv := graphInv_buildGraph n calls hn
  have hnv := buildGraph_numVertices n calls
  obtain ⟨comps, vis, e1, e2⟩ :=
    getConnectedComponents_spec (buildGraph n calls) hinv fuel (by rw [hnv]; omega)
  rw [hnv] at e2
  have hnd := List.nodup_flatten.mp e2.nodup
  have hcover : ∀ v, (∃ c ∈ comps, v ∈ c) ↔ (0 ≤ v ∧ v < n) := by
    intro v
    rw [← e2.cover v]
    constructor
    · intro hm
      have := marked_lt_length hm
      rw [e2.len] at this
      exact ⟨hm.1, by omega⟩
    · rintro ⟨h0, h1⟩
      exact e2.below v h0 h1
  refine ⟨comps, e1, hnd.2, hnd.1, hcover, ?_⟩
  intro hn0
  cases comps with
  | nil => rfl
  | cons c cs =>
    exfalso
    obtain ⟨x, t, hc, _, _⟩ := e2.head c (List.mem_cons_self _ _)
    have := (hcover x).mp ⟨c, List.mem_cons_self _ _, by rw [hc]; exact List.mem_cons_self _ _⟩
    omega

theorem connectedComponents_partition_witness :
    (0 : Int) ≤ 5 ∧ (5 : Int) ≤ ((5 : Nat) : Int) ∧
      ∃ comps, getConnectedComponents 5 (buildGraph 5 [(0, 1), (2, 3)]) = some comps ∧
        comps.Pairwise List.Disjoint ∧
        (∀ c ∈ comps, c.Nodup) ∧
        (∀ v, (∃ c ∈ comps, v ∈ c) ↔ (0 ≤ v ∧ v < 5)) ∧
        ((5 : Int) = 0 → comps = []) :=
  ⟨by decide, by decide,
    connectedComponents_partition 5 [(0, 1), (2, 3)] 5 (by decide) (by decide)⟩

/-- C8. Components are exactly the reachability classes: on every reachable
graph and for all vertices `a`, `b` of `[0, n)`, `a` and `b` occur in the same
list returned by `connectedComponents()` if and only if a path of edges of
`edgeList` joins `a` and `b`. -/
theorem connectedComponents_classes (n : Int) (calls : List (Int × Int)) (fuel : Nat)
    (hn : 0 ≤ n) (hfuel : n ≤ (fuel : Int)) :
    ∃ comps, getConnectedComponents fuel (buildGraph n calls) = some comps ∧
      ∀ a b, 0 ≤ a → a < n → 0 ≤ b → b < n →
        ((∃ c ∈ comps, a ∈ c ∧ b ∈ c) ↔ Joined (buildGraph n calls) a b) := by
  have hinv := graphInv_buildGraph n calls hn
  have hnv := buildGraph_numVertices n calls
  obtain ⟨comps, vis, e1, e2⟩ :=
    getConnectedComponents_spec (buildGraph n calls) hinv fuel (by rw [hnv]; omega)
  rw [hnv] at e2
  refine ⟨comps, e1, ?_⟩
  intro a b ha0 ha hb0 hb
  unfold Joined
  rw [← hinv.adjStep_eq]
  constructor
  · rintro ⟨c, hc, hac, hbc⟩
    exact (e2.cls c hc a hac b).mp hbc
  · intro hpath
    obtain ⟨c, hc, hac⟩ := (e2.cover a).mp (e2.below a ha0 ha)
    exact ⟨c, hc, hac, (e2.cls c hc a hac b).mpr hpath⟩

theorem connectedComponents_classes_witness :
    (0 : Int) ≤ 4 ∧ (4 : Int) ≤ ((6 : Nat) : Int) ∧
      ∃ comps, getConnectedComponents 6 (buildGraph 4 [(3, 1), (1, 0)]) = some comps ∧
        ∀ a b, 0 ≤ a → a < 4 → 0 ≤ b → b < 4 →
          ((∃ c ∈ comps, a ∈ c ∧ b ∈ c) ↔ Joined (buildGraph 4 [(3, 1), (1, 0)]) a b) :=
  ⟨by decide, by decide,
    connectedComponents_classes 4 [(3, 1), (1, 0)] 6 (by decide) (by decide)⟩

/-- C9. Component ordering: in the result of `connectedComponents()` on any
reachable graph, every component is non-empty and its first element is the
smallest vertex id of that component, and these first elements are strictly
increasing along the result list. -/
theorem connectedComponents_order (n : Int) (calls : List (Int × Int)) (fuel : Nat)
    (hn : 0 ≤ n) (hfuel : n ≤ (fuel : Int)) :
    ∃ comps, getConnectedComponents fuel (buildGraph n calls) = some comps ∧
      (∀ c ∈ comps, ∃ x t, c = x :: t ∧ ∀ y ∈ c, x ≤ y) ∧
      (comps.map List.headI).Pairwise (· < ·) := by
  have hinv := graphInv_buildGraph n calls hn
  have hnv := buildGraph_numVertices n calls
  obtain ⟨comps, vis, e1, e2⟩ :=
    getConnectedComponents_spec (buildGraph n calls) hinv fuel (by rw [hnv]; omega)
  refine ⟨comps, e1, ?_, e2.sorted⟩
  intro c hc
  obtain ⟨x, t, hxt, _, ht⟩ := e2.head c hc
  refine ⟨x, t, hxt, ?_⟩
  intro y hy
  rw [hxt, List.mem_cons] at hy
  rcases hy with hy | hy
  · omega
  · exact le_of_lt (ht y hy)

theorem connectedComponents_order_witness :
    (0 : Int) ≤ 6 ∧ (6 : Int) ≤ ((6 : Nat) : Int) ∧
      ∃ comps,
        getConnectedComponents 6 (buildGraph 6 [(5, 0), (0, 3), (4, 1), (3, 5)]) = some comps ∧
        (∀ c ∈ comps, ∃ x t, c = x :: t ∧ ∀ y ∈ c, x ≤ y) ∧
        (comps.map List.headI).Pairwise (· < ·) :=
  ⟨by decide, by decide,
    connectedComponents_order 6 [(5, 0), (0, 3), (4, 1), (3, 5)] 6 (by decide) (by decide)⟩

/-- C10. `isConnected()` against the path definition: on every reachable
graph (vertex count in `int` range, fuel for `n` dequeues) the call returns a
value, which is `true` if and only if `vertexCount = 0` or every vertex of
`[0, n)` is joined to every other by a path of edges; and for `n ≠ 0` it is
`true` if and only if `breadthFirstSearch(0)` has length `vertexCount`. -/
theorem isConnected_correct (n : Int) (calls : List (Int × Int)) (fuel : Nat)
    (hn : 0 ≤ n) (hint : n < 2147483648) (hfuel : n ≤ (fuel : Int)) :
    ∃ res, isConnected fuel (buildGraph n calls) = some res ∧
      (res = true ↔
        (n = 0 ∨ ∀ a b, 0 ≤ a → a < n → 0 ≤ b → b < n → Joined (buildGraph n calls) a b)) ∧
      (n ≠ 0 → ∃ r, breadthFirstSearch fuel (buildGraph n calls) 0 = some r ∧
        (res = true ↔ (r.length : Int) = n)) := by
  have hinv := graphInv_buildGraph n calls hn
  have hnv := buildGraph_numVertices n calls
  by_cases hn0 : n = 0
  · have hres : isConnected fuel (buildGraph n calls) = some true := by
      unfold isConnected
      rw [if_pos (hnv.trans hn0)]
    exact ⟨true, hres, by simp [hn0], fun h => absurd hn0 h⟩
  · obtain ⟨r, e1, e2, e3, _, e5⟩ :=
      breadthFirstSearch_spec (buildGraph n calls) hinv.adjWF 0 (le_refl 0)
        (by rw [hnv]; omega) fuel (by rw [hnv]; omega)
    rw [hnv] at e5
    rw [hinv.adjStep_eq] at e3
    have hle := (length_le_of_nodup_range r n e2 e5).1
    have hfit : toInt32 (r.length : Int) = (r.length : Int) :=
      toInt32_of_fits _ (by omega) (by omega)
    have hres : isConnected fuel (buildGraph n calls) = some (decide ((r.length : Int) = n)) := by
      simp only [isConnected, hnv, hn0, if_false, e1, Option.map_some', hfit]
    have hlen : (r.length : Int) = n ↔
        ∀ a b, 0 ≤ a → a < n → 0 ≤ b → b < n → Joined (buildGraph n calls) a b := by
      constructor
      · intro h a b ha0 ha hb0 hb
        have hcov := (length_le_of_nodup_range r n e2 e5).2 h
        have h0a : Joined (buildGraph n calls) 0 a := (e3 a).mp (hcov a ha0 ha)
        have h0b : Joined (buildGraph n calls) 0 b := (e3 b).mp (hcov b hb0 hb)
        exact Relation.ReflTransGen.trans (joined_symm _ _ _ h0a) h0b
      · intro h
        refine length_eq_of_nodup_cover r n hn e2 e5 ?_
        intro v hv0 hv
        exact (e3 v).mpr (h 0 v (le_refl 0) (by omega) hv0 hv)
    refine ⟨decide ((r.length : Int) = n), hres, ?_, fun _ => ⟨r, e1, by simp⟩⟩
    rw [decide_eq_true_iff, hlen]
    constructor
    · intro h; exact Or.inr h
    · rintro (h | h)
      · exact absurd h hn0
      · exact h

theorem isConnected_correct_witness :
    (0 : Int) ≤ 4 ∧ (4 : Int) < 2147483648 ∧ (4 : Int) ≤ ((4 : Nat) : Int) ∧
      ∃ res, isConnected 4 (buildGraph 4 [(0, 1), (1, 2), (2, 3)]) = some res ∧
        (res = true ↔
          ((4 : Int) = 0 ∨ ∀ a b, 0 ≤ a → a < 4 → 0 ≤ b → b < 4 →
            Joined (buildGraph 4 [(0, 1), (1, 2), (2, 3)]) a b)) ∧
        ((4 : Int) ≠ 0 →
          ∃ r, breadthFirstSearch 4 (buildGraph 4 [(0, 1), (1, 2), (2, 3)]) 0 = some r ∧
            (res = true ↔ (r.length : Int) = 4)) :=
  ⟨by decide, by decide, by decide,
    isConnected_correct 4 [(0, 1), (1, 2), (2, 3)] 4 (by decide) (by decide) (by decide)⟩

/-! ## Persistence, depth-first search and level order -/

theorem readEdges_writeEdges (es : List (Int × Int)) :
    ∀ g : Graph, readEdges g (writeEdges es) = es.foldl (fun g c => addEdge g c.1 c.2) g := by
  induction es with
  | nil => intro g; rfl
  | cons e rest ih => intro g; simp only [writeEdges, readEdges, List.foldl_cons]; exact ih _

theorem addEdge_edges_cases (g : Graph) (u v : Int) :
    addEdge g u v = g ∨ (addEdge g u v).edges = g.edges ++ [(u, v)] := by
  unfold addEdge
  split
  · exact Or.inl rfl
  · split
    · exact Or.inr rfl
    · exact Or.inl rfl

theorem replay_edges (n : Int) (calls : List (Int × Int)) :
    (buildGraph n calls).edges.foldl (fun g c => addEdge g c.1 c.2) (Graph.Graph n)
      = buildGraph n calls := by
  induction calls using List.reverseRecOn with
  | nil => rfl
  | append_singleton cs c ih =>
    have hstep : buildGraph n (cs ++ [c]) = addEdge (buildGraph n cs) c.1 c.2 := by
      simp [buildGraph, List.foldl_append]
    rw [hstep]
    rcases addEdge_edges_cases (buildGraph n cs) c.1 c.2 with h | h
    · rw [h]; exact ih
    · rw [h, List.foldl_append, ih]; rfl

theorem isConnected_fuel_mono (g : Graph) (fuel extra : Nat) (b : Bool)
    (h : isConnected fuel g = some b) : isConnected (fuel + extra) g = some b := by
  unfold isConnected at h ⊢
  split
  · rename_i h0; rw [if_pos h0] at h; exact h
  · rename_i h0
    rw [if_neg h0] at h
    cases hb : breadthFirstSearch fuel g 0 with
    | none => rw [hb] at h; cases h
    | some r =>
      rw [hb] at h
      rw [breadthFirstSearch_fuel_mono g 0 fuel extra r hb]
      exact h

/-- C14. Persistence round trip: for every graph `g` reachable from `Graph(n)`
(`n >= 0`) by `addEdge` calls, loading the integer sequence written by `save`
(vertex count, then one `u v` pair per edge-list entry in order) yields a graph
with the same vertex count and the same set of edges as unordered pairs; the
loaded graph is in fact the same state as `g`. -/
theorem load_save_roundtrip (n : Int) (calls : List (Int × Int)) (hn : 0 ≤ n) :
    (loadFromFile (some (saveToFile (buildGraph n calls)))).numVertices
        = (buildGraph n calls).numVertices ∧
      (∀ a b, EdgeStep (loadFromFile (some (saveToFile (buildGraph n calls)))) a b
        ↔ EdgeStep (buildGraph n calls) a b) ∧
      loadFromFile (some (saveToFile (buildGraph n calls))) = buildGraph n calls := by
  have h : loadFromFile (some (saveToFile (buildGraph n calls))) = buildGraph n calls := by
    simp only [loadFromFile, saveToFile]
    rw [buildGraph_numVertices, readEdges_writeEdges]
    exact replay_edges n calls
  rw [h]
  exact ⟨rfl, fun _ _ => Iff.rfl, rfl⟩

theorem load_save_roundtrip_witness :
    (0 : Int) ≤ 4 ∧
      (loadFromFile (some
          (saveToFile (buildGraph 4 [(2, 1), (1, 2), (0, 0), (9, 1), (3, 0)])))).numVertices
          = (buildGraph 4 [(2, 1), (1, 2), (0, 0), (9, 1), (3, 0)]).numVertices ∧
      (∀ a b,
        EdgeStep (loadFromFile (some
            (saveToFile (buildGraph 4 [(2, 1), (1, 2), (0, 0), (9, 1), (3, 0)])))) a b
          ↔ EdgeStep (buildGraph 4 [(2, 1), (1, 2), (0, 0), (9, 1), (3, 0)]) a b) ∧
      loadFromFile (some (saveToFile (buildGraph 4 [(2, 1), (1, 2), (0, 0), (9, 1), (3, 0)])))
        = buildGraph 4 [(2, 1), (1, 2), (0, 0), (9, 1), (3, 0)] :=
  ⟨by decide, load_save_roundtrip 4 [(2, 1), (1, 2), (0, 0), (9, 1), (3, 0)] (by decide)⟩

/-- C16. Scenario B: on `Graph(5)` after `addEdge(0,1)` and `addEdge(2,3)`,
`isConnected()` is `false` and `connectedComponents()` returns exactly
`[[0,1],[2,3],[4]]` (for any fuel of at least 5 dequeues per search). -/
theorem scenarioB (fuel : Nat) (hfuel : 5 ≤ fuel) :
    isConnected fuel (buildGraph 5 [(0, 1), (2, 3)]) = some false ∧
      getConnectedComponents fuel (buildGraph 5 [(0, 1), (2, 3)])
        = some [[0, 1], [2, 3], [4]] := by
  obtain ⟨k, rfl⟩ := Nat.exists_eq_add_of_le hfuel
  exact ⟨isConnected_fuel_mono _ 5 k false (by decide),
    getConnectedComponents_fuel_mono _ 5 k _ (by decide)⟩

theorem scenarioB_witness :
    5 ≤ 5 ∧ isConnected 5 (buildGraph 5 [(0, 1), (2, 3)]) = some false ∧
      getConnectedComponents 5 (buildGraph 5 [(0, 1), (2, 3)])
        = some [[0, 1], [2, 3], [4]] :=
  ⟨by decide, scenarioB 5 (by decide)⟩

theorem pendingWork_set (adjList : List (List Int)) :
    ∀ (vis : List Bool) (i : Nat) (row : List Int),
      vis[i]? = some false → adjList[i]? = some row →
      pendingWork adjList (vis.set i true) + row.length = pendingWork adjList vis := by
  induction adjList with
  | nil => intro vis i row _ h; simp at h
  | cons r rs ih =>
    intro vis i row hv ha
    cases vis with
    | nil => simp at hv
    | cons b bs =>
      cases i with
      | zero =>
        simp only [List.getElem?_cons_zero, Option.some.injEq] at hv ha
        subst hv; subst ha
        simp [pendingWork]
        omega
      | succ i =>
        simp only [List.getElem?_cons_succ] at hv ha
        have := ih bs i row hv ha
        simp only [List.set_cons_succ, pendingWork]
        omega

theorem pendingWork_replicate (adjList : List (List Int)) :
    pendingWork adjList (List.replicate adjList.length false)
      = (adjList.map List.length).sum := by
  induction adjList with
  | nil => rfl
  | cons r rs ih =>
    simp only [List.length_cons, List.replicate_succ, pendingWork, List.map_cons, List.sum_cons]
    rw [ih]
    simp

theorem pushNeighbors_spec (nbrs : List Int) (vis : List Bool) :
    ∀ (stack : List Int),
      (∀ w ∈ nbrs, 0 ≤ w ∧ w.toNat < vis.length) →
      ∃ pushed, pushNeighbors nbrs vis stack = some (pushed ++ stack) ∧
        (∀ w, w ∈ pushed ↔ w ∈ nbrs ∧ ¬ Marked vis w) ∧
        pushed.length ≤ nbrs.length := by
  induction nbrs with
  | nil =>
    intro stack _
    exact ⟨[], by simp [pushNeighbors], by simp, by simp⟩
  | cons nb rest ih =>
    intro stack hr
    have hnb := hr nb (List.mem_cons_self _ _)
    have hrest : ∀ w ∈ rest, 0 ≤ w ∧ w.toNat < vis.length :=
      fun w hw => hr w (List.mem_cons_of_mem _ hw)
    have hneg : ¬ nb < 0 := by omega
    obtain ⟨b, hb⟩ : ∃ b, vis[nb.toNat]? = some b :=
      ⟨vis[nb.toNat], List.getElem?_eq_getElem hnb.2⟩
    cases b with
    | true =>
      have hm : Marked vis nb := ⟨hnb.1, hb⟩
      obtain ⟨pushed, h1, h2, h3⟩ := ih stack hrest
      refine ⟨pushed, ?_, ?_, ?_⟩
      · simp only [pushNeighbors, hneg, if_false, hb]; exact h1
      · intro w; rw [h2 w, List.mem_cons]
        constructor
        · rintro ⟨h, h'⟩; exact ⟨Or.inr h, h'⟩
        · rintro ⟨h | h, h'⟩
          · subst h; exact absurd hm h'
          · exact ⟨h, h'⟩
      · simp only [List.length_cons]; omega
    | false =>
      have hnm : ¬ Marked vis nb := by
        rintro ⟨_, h⟩; rw [hb] at h; cases h
      obtain ⟨pushed, h1, h2, h3⟩ := ih (nb :: stack) hrest
      refine ⟨pushed ++ [nb], ?_, ?_, ?_⟩
      · simp only [pushNeighbors, hneg, if_false, hb]
        rw [h1]; simp
      · intro w; rw [List.mem_append, h2 w, List.mem_singleton, List.mem_cons]
        constructor
        · rintro (⟨h, h'⟩ | h)
          · exact ⟨Or.inr h, h'⟩
          · subst h; exact ⟨Or.inl rfl, hnm⟩
        · rintro ⟨h | h, h'⟩
          · exact Or.inr h
          · exact Or.inl ⟨h, h'⟩
      · simp only [List.length_append, List.length_cons, List.length_nil]; omega

theorem dfsLoop_spec (adjList : List (List Int)) (n : Nat) (hwf : AdjWF adjList n) :
    ∀ (fuel : Nat) (result : List Int) (vis : List Bool) (stack : List Int),
      vis.length = n →
      (∀ s ∈ stack, 0 ≤ s ∧ s.toNat < n) →
      stack.length + pendingWork adjList vis ≤ fuel →
      ∃ out vis1, dfsLoop adjList fuel result vis stack = some (result ++ out, vis1) ∧
        vis1.length = n ∧
        (∀ v, Marked vis v → Marked vis1 v) ∧
        (∀ v, v ∈ out ↔ (Marked vis1 v ∧ ¬ Marked vis v)) ∧
        out.Nodup ∧
        (∀ v ∈ out, ∀ w, AdjStep adjList v w → Marked vis1 w) ∧
        (∀ s ∈ stack, Marked vis1 s) ∧
        (∀ v ∈ out, ∃ s ∈ stack, Relation.ReflTransGen (AdjStep adjList) s v) ∧
        (∀ x xs, stack = x :: xs → ¬ Marked vis x → ∃ t, out = x :: t) := by
  intro fuel
  induction fuel with
  | zero =>
    intro result vis stack hlen hs hfuel
    cases stack with
    | nil =>
      refine ⟨[], vis, by simp [dfsLoop], hlen, fun _ h => h, ?_, List.nodup_nil,
        ?_, ?_, ?_, ?_⟩
      · intro v; simp
      · intro v hv; simp at hv
      · intro s hs'; simp at hs'
      · intro v hv; simp at hv
      · intro x xs h; cases h
    | cons x xs => simp at hfuel
  | succ fuel ih =>
    intro result vis stack hlen hs hfuel
    cases stack with
    | nil =>
      refine ⟨[], vis, by simp [dfsLoop], hlen, fun _ h => h, ?_, List.nodup_nil,
        ?_, ?_, ?_, ?_⟩
      · intro v; simp
      · intro v hv; simp at hv
      · intro s hs'; simp at hs'
      · intro v hv; simp at hv
      · intro x xs h; cases h
    | cons x xs =>
      have hx := hs x (List.mem_cons_self _ _)
      have hxs : ∀ s ∈ xs, 0 ≤ s ∧ s.toNat < n := fun s h => hs s (List.mem_cons_of_mem _ h)
      have hneg : ¬ x < 0 := by omega
      have hxv : x.toNat < vis.length := by rw [hlen]; exact hx.2
      obtain ⟨b, hb⟩ : ∃ b, vis[x.toNat]? = some b :=
        ⟨vis[x.toNat], List.getElem?_eq_getElem hxv⟩
      simp only [List.length_cons] at hfuel
      cases b with
      | true =>
        have hm : Marked vis x := ⟨hx.1, hb⟩
        obtain ⟨out, vis1, f1, f2, f3, f4, f5, f6, f7, f8, f9⟩ :=
          ih result vis xs hlen hxs (by omega)
        refine ⟨out, vis1, ?_, f2, f3, f4, f5, f6, ?_, ?_, ?_⟩
        · simp only [dfsLoop, hneg, if_false, hb]; exact f1
        · intro s hs'
          rw [List.mem_cons] at hs'
          rcases hs' with h | h
          · subst h; exact f3 _ hm
          · exact f7 s h
        · intro v hv
          obtain ⟨s, hs', hp⟩ := f8 v hv
          exact ⟨s, List.mem_cons_of_mem _ hs', hp⟩
        · intro y ys hy hny
          cases hy
          exact absurd hm hny
      | false =>
        have hnm : ¬ Marked vis x := by
          rintro ⟨_, h⟩; rw [hb] at h; cases h
        have hxa : x.toNat < adjList.length := by rw [hwf.size]; exact hx.2
        have hrow : adjList[x.toNat]? = some adjList[x.toNat] := List.getElem?_eq_getElem hxa
        have hlen1 : (vis.set x.toNat true).length = n := by rw [List.length_set]; exact hlen
        have hrange : ∀ w ∈ adjList[x.toNat].reverse,
            0 ≤ w ∧ w.toNat < (vis.set x.toNat true).length := by
          intro w hw
          rw [hlen1]
          exact hwf.range _ (List.getElem_mem hxa) w (List.mem_reverse.mp hw)
        obtain ⟨pushed, e1, e2, e3⟩ :=
          pushNeighbors_spec adjList[x.toNat].reverse (vis.set x.toNat true) xs hrange
        have hms := fun w => marked_set vis x w hx.1 hxv
        have hstack1 : ∀ s ∈ pushed ++ xs, 0 ≤ s ∧ s.toNat < n := by
          intro s hs'
          rw [List.mem_append] at hs'
          rcases hs' with h | h
          · have := hrange s ((e2 s).mp h).1
            rw [hlen1] at this
            exact this
          · exact hxs s h
        have hpend := pendingWork_set adjList vis x.toNat _ hb hrow
        have hfuel1 : (pushed ++ xs).length + pendingWork adjList (vis.set x.toNat true)
            ≤ fuel := by
          simp only [List.length_append, List.length_reverse] at e3 ⊢
          omega
        obtain ⟨out, vis1, f1, f2, f3, f4, f5, f6, f7, f8, f9⟩ :=
          ih (result ++ [x]) (vis.set x.toNat true) (pushed ++ xs) hlen1 hstack1 hfuel1
        have hx1 : Marked vis1 x := f3 x ((hms x).mpr (Or.inr rfl))
        have hmono : ∀ v, Marked vis v → Marked vis1 v :=
          fun v h => f3 v ((hms v).mpr (Or.inl h))
        refine ⟨x :: out, vis1, ?_, f2, hmono, ?_, ?_, ?_, ?_, ?_, ?_⟩
        · simp only [dfsLoop, hneg, if_false, hb, hrow, e1]
          rw [f1]; simp
        · intro v
          rw [List.mem_cons, f4 v, hms v]
          constructor
          · rintro (h | ⟨h, h'⟩)
            · subst h; exact ⟨hx1, hnm⟩
            · exact ⟨h, fun hm => h' (Or.inl hm)⟩
          · rintro ⟨h, h'⟩
            by_cases hvx : v = x
            · exact Or.inl hvx
            · refine Or.inr ⟨h, ?_⟩
              rintro (hm | hm)
              · exact h' hm
              · exact hvx hm
        · rw [List.nodup_cons]
          refine ⟨?_, f5⟩
          intro hmem
          exact ((f4 x).mp hmem).2 ((hms x).mpr (Or.inr rfl))
        · intro v hv w hvw
          rw [List.mem_cons] at hv
          rcases hv with h | h
          · subst h
            have hw : w ∈ adjList[v.toNat] := (adjStep_of_row hx.1 hrow w).mp hvw
            by_cases hm : Marked (vis.set v.toNat true) w
            · exact f3 w hm
            · exact f7 w (List.mem_append_left _
                ((e2 w).mpr ⟨List.mem_reverse.mpr hw, hm⟩))
          · exact f6 v h w hvw
        · intro s hs'
          rw [List.mem_cons] at hs'
          rcases hs' with h | h
          · subst h; exact hx1
          · exact f7 s (List.mem_append_right _ h)
        · intro v hv
          rw [List.mem_cons] at hv
          rcases hv with h | h
          · subst h; exact ⟨v, List.mem_cons_self _ _, Relation.ReflTransGen.refl⟩
          · obtain ⟨s, hs', hp⟩ := f8 v h
            rw [List.mem_append] at hs'
            rcases hs' with h1 | h1
            · have hw : s ∈ adjList[x.toNat] := List.mem_reverse.mp ((e2 s).mp h1).1
              exact ⟨x, List.mem_cons_self _ _,
                Relation.ReflTransGen.head ((adjStep_of_row hx.1 hrow s).mpr hw) hp⟩
            · exact ⟨s, List.mem_cons_of_mem _ h1, hp⟩
        · intro y ys hy _
          cases hy
          exact ⟨out, rfl⟩

theorem depthFirstSearch_spec (g : Graph) (hwf : AdjWF g.adjList g.numVertices.toNat)
    (start : Int) (hs0 : 0 ≤ start) (hs : start < g.numVertices)
    (fuel : Nat) (hfuel : dfsFuel g ≤ fuel) :
    ∃ r, depthFirstSearch fuel g start = some r ∧ r.Nodup ∧
      (∀ v, v ∈ r ↔ Relation.ReflTransGen (AdjStep g.adjList) start v) ∧
      (∃ t, r = start :: t) ∧ ∀ v ∈ r, 0 ≤ v ∧ v < g.numVertices := by
  have hpend : pendingWork g.adjList (List.replicate g.numVertices.toNat false)
      = (g.adjList.map List.length).sum := by
    rw [← hwf.size]; exact pendingWork_replicate g.adjList
  obtain ⟨out, vis1, f1, f2, f3, f4, f5, f6, f7, f8, f9⟩ :=
    dfsLoop_spec g.adjList g.numVertices.toNat hwf fuel []
      (List.replicate g.numVertices.toNat false) [start]
      (by simp)
      (by intro s hs'; rw [List.mem_singleton] at hs'; subst hs'; exact ⟨hs0, by omega⟩)
      (by rw [hpend]; simp only [List.length_singleton]; unfold dfsFuel at hfuel; omega)
  have hmem : ∀ v, v ∈ out ↔ Marked vis1 v := by
    intro v
    rw [f4 v]
    exact ⟨fun h => h.1, fun h => ⟨h, not_marked_replicate _ v⟩⟩
  refine ⟨out, ?_, f5, ?_, f9 start [] rfl (not_marked_replicate _ start), ?_⟩
  · simp only [depthFirstSearch, f1, Option.map_some', List.nil_append]
  · intro v
    constructor
    · intro hv
      obtain ⟨s, hs', hp⟩ := f8 v hv
      rw [List.mem_singleton] at hs'
      subst hs'
      exact hp
    · intro hp
      induction hp with
      | refl => exact (hmem start).mpr (f7 start (List.mem_singleton.mpr rfl))
      | tail _ hstep ih => exact (hmem _).mpr (f6 _ ih _ hstep)
  · intro v hv
    have hm := (hmem v).mp hv
    have := marked_lt_length hm
    rw [f2] at this
    exact ⟨hm.1, by omega⟩

theorem dfsLoop_fuel_mono (adjList : List (List Int)) :
    ∀ (fuel extra : Nat) (result : List Int) (vis : List Bool) (stack : List Int)
      (r : List Int × List Bool),
      dfsLoop adjList fuel result vis stack = some r →
      dfsLoop adjList (fuel + extra) result vis stack = some r := by
  intro fuel
  induction fuel with
  | zero =>
    intro extra result vis stack r h
    cases stack with
    | nil => cases extra <;> simpa [dfsLoop] using h
    | cons x xs => simp [dfsLoop] at h
  | succ fuel ih =>
    intro extra result vis stack r h
    cases stack with
    | nil => simpa [dfsLoop] using h
    | cons x xs =>
      have hadd : fuel + 1 + extra = (fuel + extra) + 1 := by omega
      rw [hadd]
      simp only [dfsLoop] at h ⊢
      split at h
      · cases h
      · rename_i hneg
        rw [if_neg hneg]
        cases hv : vis[x.toNat]? with
        | none => rw [hv] at h; cases h
        | some b =>
          rw [hv] at h
          cases b with
          | true => exact ih extra _ _ _ r h
          | false =>
            simp only at h ⊢
            cases hrow : adjList[x.toNat]? with
            | none => rw [hrow] at h; cases h
            | some row =>
              rw [hrow] at h
              simp only at h ⊢
              cases hp : pushNeighbors row.reverse (vis.set x.toNat true) xs with
              | none => rw [hp] at h; cases h
              | some st =>
                rw [hp] at h
                simp only at h ⊢
                exact ih extra _ _ _ r h

theorem depthFirstSearch_fuel_mono (g : Graph) (start : Int) (fuel extra : Nat)
    (r : List Int) (h : depthFirstSearch fuel g start = some r) :
    depthFirstSearch (fuel + extra) g start = some r := by
  unfold depthFirstSearch at h ⊢
  cases hb : dfsLoop g.adjList fuel [] (List.replicate g.numVertices.toNat false) [start] with
  | none => rw [hb] at h; cases h
  | some p =>
    rw [hb] at h
    rw [dfsLoop_fuel_mono g.adjList fuel extra _ _ _ p hb]
    exact h

/-- C12. Traversals visit exactly the reachable set, once each: on every
reachable graph (connected or not) and for every `start` of `[0, n)`,
`breadthFirstSearch(start)` and `depthFirstSearch(start)` both return (given
enough fuel), each begins with `start`, has no repeated vertex, and contains a
vertex `w` if and only if a path of edges joins `start` and `w`; hence the two
results are permutations of one another. -/
theorem traversals_visit_reachable (n : Int) (calls : List (Int × Int)) (start : Int)
    (fuelB fuelD : Nat) (hs0 : 0 ≤ start) (hs : start < n)
    (hB : n ≤ (fuelB : Int)) (hD : dfsFuel (buildGraph n calls) ≤ fuelD) :
    ∃ rb rd, breadthFirstSearch fuelB (buildGraph n calls) start = some rb ∧
      depthFirstSearch fuelD (buildGraph n calls) start = some rd ∧
      rb.head? = some start ∧ rd.head? = some start ∧
      rb.Nodup ∧ rd.Nodup ∧
      (∀ w, w ∈ rb ↔ Joined (buildGraph n calls) start w) ∧
      (∀ w, w ∈ rd ↔ Joined (buildGraph n calls) start w) ∧
      rb.Perm rd := by
  have hn : 0 ≤ n := by omega
  have hinv := graphInv_buildGraph n calls hn
  have hnv := buildGraph_numVertices n calls
  obtain ⟨rb, b1, b2, b3, b4, _⟩ :=
    breadthFirstSearch_spec (buildGraph n calls) hinv.adjWF start hs0 (by rw [hnv]; exact hs)
      fuelB (by rw [hnv]; omega)
  obtain ⟨rd, d1, d2, d3, d4, _⟩ :=
    depthFirstSearch_spec (buildGraph n calls) hinv.adjWF start hs0 (by rw [hnv]; exact hs)
      fuelD hD
  rw [hinv.adjStep_eq] at b3 d3
  refine ⟨rb, rd, b1, d1, ?_, ?_, b2, d2, b3, d3, ?_⟩
  · obtain ⟨t, ht⟩ := b4
    rw [← ht]; rfl
  · obtain ⟨t, ht⟩ := d4
    rw [ht]; rfl
  · rw [List.perm_ext_iff_of_nodup b2 d2]
    intro w
    rw [b3 w, d3 w]

theorem traversals_visit_reachable_witness :
    (0 : Int) ≤ 3 ∧ (3 : Int) < 5 ∧ (5 : Int) ≤ ((5 : Nat) : Int) ∧
      dfsFuel (buildGraph 5 [(0, 1), (3, 1), (3, 4), (4, 1)]) ≤ 9 ∧
      ∃ rb rd,
        breadthFirstSearch 5 (buildGraph 5 [(0, 1), (3, 1), (3, 4), (4, 1)]) 3 = some rb ∧
        depthFirstSearch 9 (buildGraph 5 [(0, 1), (3, 1), (3, 4), (4, 1)]) 3 = some rd ∧
        rb.head? = some 3 ∧ rd.head? = some 3 ∧
        rb.Nodup ∧ rd.Nodup ∧
        (∀ w, w ∈ rb ↔ Joined (buildGraph 5 [(0, 1), (3, 1), (3, 4), (4, 1)]) 3 w) ∧
        (∀ w, w ∈ rd ↔ Joined (buildGraph 5 [(0, 1), (3, 1), (3, 4), (4, 1)]) 3 w) ∧
        rb.Perm rd :=
  ⟨by decide, by decide, by decide, by decide,
    traversals_visit_reachable 5 [(0, 1), (3, 1), (3, 4), (4, 1)] 3 5 9
      (by decide) (by decide) (by decide) (by decide)⟩

/-- C11. Traversal completeness: on every reachable graph that is connected
(every vertex of `[0, n)` joined to every other by a path of edges) with
`n >= 1`, and for every `start` of `[0, n)`, both `breadthFirstSearch(start)`
and `depthFirstSearch(start)` return (given enough fuel) a list of length
exactly `vertexCount` in which each vertex of `[0, n)` occurs exactly once. -/
theorem traversals_complete (n : Int) (calls : List (Int × Int)) (start : Int)
    (fuelB fuelD : Nat) (hn1 : 1 ≤ n) (hs0 : 0 ≤ start) (hs : start < n)
    (hconn : ∀ a b, 0 ≤ a → a < n → 0 ≤ b → b < n → Joined (buildGraph n calls) a b)
    (hB : n ≤ (fuelB : Int)) (hD : dfsFuel (buildGraph n calls) ≤ fuelD) :
    ∃ rb rd, breadthFirstSearch fuelB (buildGraph n calls) start = some rb ∧
      depthFirstSearch fuelD (buildGraph n calls) start = some rd ∧
      (rb.length : Int) = n ∧ (rd.length : Int) = n ∧
      (∀ v, 0 ≤ v → v < n → rb.count v = 1 ∧ rd.count v = 1) ∧
      (∀ v, v ∈ rb ∨ v ∈ rd → 0 ≤ v ∧ v < n) := by
  have hn : 0 ≤ n := by omega
  have hinv := graphInv_buildGraph n calls hn
  have hnv := buildGraph_numVertices n calls
  obtain ⟨rb, b1, b2, b3, _, b5⟩ :=
    breadthFirstSearch_spec (buildGraph n calls) hinv.adjWF start hs0 (by rw [hnv]; exact hs)
      fuelB (by rw [hnv]; omega)
  obtain ⟨rd, d1, d2, d3, _, d5⟩ :=
    depthFirstSearch_spec (buildGraph n calls) hinv.adjWF start hs0 (by rw [hnv]; exact hs)
      fuelD hD
  rw [hinv.adjStep_eq] at b3 d3
  rw [hnv] at b5 d5
  have hb : ∀ v, 0 ≤ v → v < n → v ∈ rb :=
    fun v h0 h1 => (b3 v).mpr (hconn start v hs0 hs h0 h1)
  have hd : ∀ v, 0 ≤ v → v < n → v ∈ rd :=
    fun v h0 h1 => (d3 v).mpr (hconn start v hs0 hs h0 h1)
  refine ⟨rb, rd, b1, d1, length_eq_of_nodup_cover rb n hn b2 b5 hb,
    length_eq_of_nodup_cover rd n hn d2 d5 hd, ?_, ?_⟩
  · intro v h0 h1
    exact ⟨List.count_eq_one_of_mem b2 (hb v h0 h1), List.count_eq_one_of_mem d2 (hd v h0 h1)⟩
  · rintro v (h | h)
    · exact b5 v h
    · exact d5 v h

theorem traversals_complete_witness :
    (1 : Int) ≤ 3 ∧ (0 : Int) ≤ 2 ∧ (2 : Int) < 3 ∧
      (∀ a b, 0 ≤ a → a < 3 → 0 ≤ b → b < 3 →
        Joined (buildGraph 3 [(0, 1), (1, 2)]) a b) ∧
      (3 : Int) ≤ ((3 : Nat) : Int) ∧ dfsFuel (buildGraph 3 [(0, 1), (1, 2)]) ≤ 5 ∧
      ∃ rb rd, breadthFirstSearch 3 (buildGraph 3 [(0, 1), (1, 2)]) 2 = some rb ∧
        depthFirstSearch 5 (buildGraph 3 [(0, 1), (1, 2)]) 2 = some rd ∧
        (rb.length : Int) = 3 ∧ (rd.length : Int) = 3 ∧
        (∀ v, 0 ≤ v → v < 3 → rb.count v = 1 ∧ rd.count v = 1) ∧
        (∀ v, v ∈ rb ∨ v ∈ rd → 0 ≤ v ∧ v < 3) :=
  have j01 : Joined (buildGraph 3 [(0, 1), (1, 2)]) 0 1 :=
    Relation.ReflTransGen.single (Or.inl (by decide))
  have j12 : Joined (buildGraph 3 [(0, 1), (1, 2)]) 1 2 :=
    Relation.ReflTransGen.single (Or.inl (by decide))
  have j02 : Joined (buildGraph 3 [(0, 1), (1, 2)]) 0 2 := Relation.ReflTransGen.trans j01 j12
  have hconn : ∀ a b, 0 ≤ a → a < 3 → 0 ≤ b → b < 3 →
      Joined (buildGraph 3 [(0, 1), (1, 2)]) a b := by
    intro a b ha0 ha hb0 hb
    interval_cases a <;> interval_cases b <;>
      first
        | exact Relation.ReflTransGen.refl
        | exact j01
        | exact j12
        | exact j02
        | exact joined_symm _ _ _ j01
        | exact joined_symm _ _ _ j12
        | exact joined_symm _ _ _ j02
  ⟨by decide, by decide, by decide, hconn, by decide, by decide,
    traversals_complete 3 [(0, 1), (1, 2)] 2 3 5 (by decide) (by decide) (by decide) hconn
      (by decide) (by decide)⟩

theorem walk_of_reach (R : Int → Int → Prop) (a b : Int)
    (h : Relation.ReflTransGen R a b) : ∃ k, walk R k a b := by
  induction h with
  | refl => exact ⟨0, rfl⟩
  | tail _ hstep ih =>
    obtain ⟨k, hk⟩ := ih
    exact ⟨k + 1, _, hk, hstep⟩

theorem reach_of_walk (R : Int → Int → Prop) (a : Int) :
    ∀ (k : Nat) (b : Int), walk R k a b → Relation.ReflTransGen R a b := by
  intro k
  induction k with
  | zero => intro b h; cases h; exact Relation.ReflTransGen.refl
  | succ k ih =>
    rintro b ⟨c, hc, hcb⟩
    exact Relation.ReflTransGen.tail (ih c hc) hcb

theorem exists_levels (R : Int → Int → Prop) (start : Int) :
    ∃ lev : Int → Nat, Levels R start lev ∧
      ∀ v, Relation.ReflTransGen R start v →
        walk R (lev v) start v ∧ ∀ j, walk R j start v → lev v ≤ j := by
  classical
  let lev : Int → Nat := fun v => if h : ∃ k, walk R k start v then Nat.find h else 0
  have hspec : ∀ v, Relation.ReflTransGen R start v →
      walk R (lev v) start v ∧ ∀ j, walk R j start v → lev v ≤ j := by
    intro v hv
    have hex := walk_of_reach R start v hv
    have hlev : lev v = Nat.find hex := by simp only [lev, dif_pos hex]
    rw [hlev]
    exact ⟨Nat.find_spec hex, fun j hj => Nat.find_min' hex hj⟩
  refine ⟨lev, ⟨?_, ?_, ?_⟩, hspec⟩
  · intro v w hv hvw
    have hw : Relation.ReflTransGen R start w := Relation.ReflTransGen.tail hv hvw
    exact (hspec w hw).2 (lev v + 1) ⟨v, (hspec v hv).1, hvw⟩
  · intro w k hw hk
    have hwalk := (hspec w hw).1
    rw [hk] at hwalk
    obtain ⟨c, hc, hcw⟩ := hwalk
    have hcr := reach_of_walk R start k c hc
    refine ⟨c, hcr, ?_, hcw⟩
    have h1 : lev c ≤ k := (hspec c hcr).2 k hc
    have h2 : lev w ≤ lev c + 1 := (hspec w hw).2 (lev c + 1) ⟨c, (hspec c hcr).1, hcw⟩
    omega
  · intro w hw
    constructor
    · intro h0
      have hwalk := (hspec w hw).1
      rw [h0] at hwalk
      exact hwalk.symm
    · intro h
      subst h
      have := (hspec w hw).2 0 rfl
      omega

theorem bfsLoop_levels (adjList : List (List Int)) (n : Nat) (hwf : AdjWF adjList n)
    (start : Int) (lev : Int → Nat) (hlev : Levels (AdjStep adjList) start lev) :
    ∀ (fuel : Nat) (result : List Int) (vis : List Bool) (queue : List Int),
      vis.length = n →
      (∀ q ∈ queue, Marked vis q) →
      queue.Nodup →
      queue.length + vis.count false ≤ fuel →
      queue.Pairwise (fun a b => lev a ≤ lev b) →
      (∀ x xs, queue = x :: xs → ∀ q ∈ queue, lev q ≤ lev x + 1) →
      (∀ x xs, queue = x :: xs → ∀ w, Relation.ReflTransGen (AdjStep adjList) start w →
        ¬ Marked vis w → lev x + 1 ≤ lev w) →
      (∀ v, Marked vis v → v ∉ queue → ∀ w, AdjStep adjList v w → Marked vis w) →
      (∀ q ∈ queue, Relation.ReflTransGen (AdjStep adjList) start q) →
      ∀ out vis2, bfsLoop adjList fuel result vis queue = some (result ++ out, vis2) →
        out.Pairwise (fun a b => lev a ≤ lev b) := by
  intro fuel
  induction fuel with
  | zero =>
    intro result vis queue hlen hq hnd hfuel q1 q2 q3 q4 q5 out vis2 hrun
    cases queue with
    | nil =>
      simp only [bfsLoop, Option.some.injEq, Prod.mk.injEq] at hrun
      have : out = [] := by simpa using hrun.1
      subst this
      exact List.Pairwise.nil
    | cons x xs => simp at hfuel
  | succ fuel ih =>
    intro result vis queue hlen hq hnd hfuel q1 q2 q3 q4 q5 out vis2 hrun
    cases queue with
    | nil =>
      simp only [bfsLoop, Option.some.injEq, Prod.mk.injEq] at hrun
      have : out = [] := by simpa using hrun.1
      subst this
      exact List.Pairwise.nil
    | cons x xs =>
      have hx : Marked vis x := hq x (List.mem_cons_self _ _)
      have hx0 : 0 ≤ x := hx.1
      have hxr : Relation.ReflTransGen (AdjStep adjList) start x := q5 x (List.mem_cons_self _ _)
      have hxlt : x.toNat < adjList.length := by
        rw [hwf.size, ← hlen]; exact marked_lt_length hx
      have hrow : adjList[x.toNat]? = some adjList[x.toNat] := List.getElem?_eq_getElem hxlt
      have hrange : ∀ w ∈ adjList[x.toNat], 0 ≤ w ∧ w.toNat < vis.length := by
        intro w hw
        rw [hlen]
        exact hwf.range _ (List.getElem_mem hxlt) w hw
      obtain ⟨vis1, fresh, e1, e2, e3, e4, e5, e6⟩ :=
        visitNeighbors_spec adjList[x.toNat] vis xs hrange
      rw [List.nodup_cons] at hnd
      rw [List.pairwise_cons] at q1
      have hq1 : ∀ q ∈ xs ++ fresh, Marked vis1 q := by
        intro q hq'
        rw [List.mem_append] at hq'
        rcases hq' with h | h
        · exact (e3 q).mpr (Or.inl (hq q (List.mem_cons_of_mem _ h)))
        · exact (e3 q).mpr (Or.inr ((e5 q).mp h).1)
      have hnd1 : (xs ++ fresh).Nodup := by
        refine List.Nodup.append hnd.2 e4 ?_
        intro q h1 h2
        exact ((e5 q).mp h2).2 (hq q (List.mem_cons_of_mem _ h1))
      have hfuel1 : (xs ++ fresh).length + vis1.count false ≤ fuel := by
        simp only [List.length_append, List.length_cons] at hfuel ⊢
        omega
      have hmono : ∀ v, Marked vis v → Marked vis1 v := fun v h => (e3 v).mpr (Or.inl h)
      have hneg : ¬ x < 0 := by omega
      -- levels of the freshly discovered neighbours
      have hfresh_step : ∀ w ∈ fresh, AdjStep adjList x w :=
        fun w hw => (adjStep_of_row hx0 hrow w).mpr ((e5 w).mp hw).1
      have hfresh_reach : ∀ w ∈ fresh, Relation.ReflTransGen (AdjStep adjList) start w :=
        fun w hw => Relation.ReflTransGen.tail hxr (hfresh_step w hw)
      have hfresh_lev : ∀ w ∈ fresh, lev w = lev x + 1 := by
        intro w hw
        have h1 := hlev.step x w hxr (hfresh_step w hw)
        have h2 := q3 x xs rfl w (hfresh_reach w hw) ((e5 w).mp hw).2
        omega
      have hxs_lev : ∀ q ∈ xs, lev x ≤ lev q ∧ lev q ≤ lev x + 1 :=
        fun q hq' => ⟨q1.1 q hq', q2 x xs rfl q (List.mem_cons_of_mem _ hq')⟩
      have hsub_lev : ∀ q ∈ xs ++ fresh, lev x ≤ lev q ∧ lev q ≤ lev x + 1 := by
        intro q hq'
        rw [List.mem_append] at hq'
        rcases hq' with h | h
        · exact hxs_lev q h
        · have := hfresh_lev q h; omega
      have q5' : ∀ q ∈ xs ++ fresh, Relation.ReflTransGen (AdjStep adjList) start q := by
        intro q hq'
        rw [List.mem_append] at hq'
        rcases hq' with h | h
        · exact q5 q (List.mem_cons_of_mem _ h)
        · exact hfresh_reach q h
      have q1' : (xs ++ fresh).Pairwise (fun a b => lev a ≤ lev b) := by
        rw [List.pairwise_append]
        refine ⟨q1.2, ?_, ?_⟩
        · apply List.pairwise_of_forall_mem_list
          intro a ha b hb
          rw [hfresh_lev a ha, hfresh_lev b hb]
        · intro a ha b hb
          rw [hfresh_lev b hb]
          exact (hxs_lev a ha).2
      have q2' : ∀ y ys, xs ++ fresh = y :: ys → ∀ q ∈ xs ++ fresh, lev q ≤ lev y + 1 := by
        intro y ys hy q hq'
        have hymem : y ∈ xs ++ fresh := by rw [hy]; exact List.mem_cons_self _ _
        have h1 := hsub_lev y hymem
        have h2 := hsub_lev q hq'
        omega
      have q4' : ∀ v, Marked vis1 v → v ∉ xs ++ fresh →
          ∀ w, AdjStep adjList v w → Marked vis1 w := by
        intro v hv hvq w hvw
        have hvm : Marked vis v := by
          rcases (e3 v).mp hv with h | h
          · exact h
          · by_contra hnm
            exact hvq (List.mem_append_right _ ((e5 v).mpr ⟨h, hnm⟩))
        by_cases hvx : v = x
        · subst hvx
          exact (e3 w).mpr (Or.inr ((adjStep_of_row hx0 hrow w).mp hvw))
        · have hvq' : v ∉ x :: xs := by
            intro hmem
            rw [List.mem_cons] at hmem
            rcases hmem with h | h
            · exact hvx h
            · exact hvq (List.mem_append_left _ h)
          exact hmono w (q4 v hvm hvq' w hvw)
      have q3' : ∀ y ys, xs ++ fresh = y :: ys → ∀ w,
          Relation.ReflTransGen (AdjStep adjList) start w → ¬ Marked vis1 w →
          lev y + 1 ≤ lev w := by
        intro y ys hy w hw hnw
        have hnw0 : ¬ Marked vis w := fun h => hnw (hmono w h)
        have h1 := q3 x xs rfl w hw hnw0
        have hymem : y ∈ xs ++ fresh := by rw [hy]; exact List.mem_cons_self _ _
        have h2 := hsub_lev y hymem
        by_contra hcon
        have hwl : lev w = lev x + 1 := by omega
        have hyl : lev y = lev x + 1 := by omega
        obtain ⟨p, hp, hpl, hpw⟩ := hlev.pred w (lev x) hw hwl
        have hpm : Marked vis p := by
          by_contra hnp
          have := q3 x xs rfl p hp hnp
          omega
        by_cases hpq : p ∈ x :: xs
        · rw [List.mem_cons] at hpq
          rcases hpq with h | h
          · subst h
            exact hnw ((e3 w).mpr (Or.inr ((adjStep_of_row hx0 hrow w).mp hpw)))
          · -- `xs` is non-empty, so `y` is its head and lies at or below `p`
            cases xs with
            | nil => simp at h
            | cons z zs =>
              simp only [List.cons_append, List.cons.injEq] at hy
              have hzy : z = y := hy.1
              subst hzy
              have hq1' := q1.2
              rw [List.pairwise_cons] at hq1'
              rw [List.mem_cons] at h
              rcases h with h | h
              · subst h; omega
              · have := hq1'.1 p h; omega
        · exact hnw0 (q4 p hpm hpq w hpw)
      obtain ⟨out1, vis3, f1, f2, f3, f4, f5, f6, f7, f8⟩ :=
        bfsLoop_spec adjList n hwf fuel (result ++ [x]) vis1 (xs ++ fresh) (e2.trans hlen)
          hq1 hnd1 hfuel1
      have hrun' : bfsLoop adjList (fuel + 1) result vis (x :: xs)
          = some (result ++ (x :: out1), vis3) := by
        simp only [bfsLoop, hneg, if_false, hrow, e1]
        rw [f1]; simp
      rw [hrun'] at hrun
      simp only [Option.some.injEq, Prod.mk.injEq] at hrun
      have hout : out = x :: out1 := (List.append_cancel_left hrun.1).symm
      subst hout
      rw [List.pairwise_cons]
      refine ⟨?_, ih (result ++ [x]) vis1 (xs ++ fresh) (e2.trans hlen) hq1 hnd1 hfuel1
        q1' q2' q3' q4' q5' out1 vis3 f1⟩
      intro v hv
      rcases (f4 v).mp hv with h | ⟨h, h'⟩
      · exact (hsub_lev v h).1
      · obtain ⟨q, hq', hpath⟩ := f7 v h h'
        have hvr : Relation.ReflTransGen (AdjStep adjList) start v :=
          Relation.ReflTransGen.trans (q5' q hq') hpath
        have := q3 x xs rfl v hvr (fun hm => h' (hmono v hm))
        omega

theorem breadthFirstSearch_levels (g : Graph) (hwf : AdjWF g.adjList g.numVertices.toNat)
    (start : Int) (hs0 : 0 ≤ start) (hs : start < g.numVertices)
    (fuel : Nat) (hfuel : g.numVertices.toNat ≤ fuel)
    (lev : Int → Nat) (hlev : Levels (AdjStep g.adjList) start lev) :
    ∀ r, breadthFirstSearch fuel g start = some r → r.Pairwise (fun a b => lev a ≤ lev b) := by
  intro r hr
  set n := g.numVertices.toNat with hn
  set vis0 := List.replicate n false with hvis0
  have hltn : start.toNat < n := by omega
  have hlt : start.toNat < vis0.length := by
    rw [hvis0, List.length_replicate]
    exact hltn
  have hget : vis0[start.toNat]? = some false := by
    rw [hvis0, List.getElem?_replicate, if_pos hltn]
  have hms := fun w => marked_set vis0 start w hs0 hlt
  have hcount : (vis0.set start.toNat true).count false + 1 = n := by
    rw [count_false_set vis0 start.toNat hget, hvis0]; simp
  have hmarked0 : ∀ v, Marked (vis0.set start.toNat true) v ↔ v = start := by
    intro v
    rw [hms v]
    constructor
    · rintro (h | h)
      · exact absurd h (not_marked_replicate n v)
      · exact h
    · intro h; exact Or.inr h
  have p1 : (vis0.set start.toNat true).length = n := by simp [hvis0]
  have p2 : ∀ q ∈ [start], Marked (vis0.set start.toNat true) q := by
    intro q hq; rw [List.mem_singleton] at hq; exact (hmarked0 q).mpr hq
  have p3 : ([start] : List Int).Nodup := List.nodup_singleton _
  have p4 : [start].length + (vis0.set start.toNat true).count false ≤ fuel := by
    simp only [List.length_singleton]; omega
  obtain ⟨out, vis1, f1, _⟩ :=
    bfsLoop_spec g.adjList n hwf fuel [] (vis0.set start.toNat true) [start] p1 p2 p3 p4
  have hcond : ¬ (start < 0 ∨
      start ≥ ((List.replicate g.numVertices.toNat false).length : Int)) := by
    simp; omega
  have hr' : r = out := by
    simp only [breadthFirstSearch, hcond, if_false] at hr
    rw [← hn, ← hvis0, f1] at hr
    simpa using hr.symm
  subst hr'
  refine bfsLoop_levels g.adjList n hwf start lev hlev fuel [] (vis0.set start.toNat true)
    [start] p1 p2 p3 p4 (List.pairwise_singleton _ _) ?_ ?_ ?_ ?_ r vis1 f1
  · intro x xs hx q hq
    cases hx
    rw [List.mem_singleton] at hq
    subst hq
    omega
  · intro x xs hx w hw hnw
    cases hx
    have hne : w ≠ start := fun h => hnw ((hmarked0 w).mpr h)
    have h0 : lev start = 0 := (hlev.zero start Relation.ReflTransGen.refl).mpr rfl
    have h1 : lev w ≠ 0 := fun h => hne ((hlev.zero w hw).mp h)
    omega
  · intro v hv hvq
    exact absurd (List.mem_singleton.mpr ((hmarked0 v).mp hv)) hvq
  · intro q hq
    rw [List.mem_singleton] at hq
    subst hq
    exact Relation.ReflTransGen.refl

/-- C13. BFS level order: on every reachable graph, for every `start` of
`[0, n)` and `r = breadthFirstSearch(start)` (returned given fuel for `n`
dequeues), every vertex of `r` has a shortest-path distance from `start`, and
for all positions `i < j` the distance from `start` to `r[i]` is at most the
distance from `start` to `r[j]`. -/
theorem bfs_level_order (n : Int) (calls : List (Int × Int)) (start : Int) (fuel : Nat)
    (hs0 : 0 ≤ start) (hs : start < n) (hfuel : n ≤ (fuel : Int)) :
    ∃ r, breadthFirstSearch fuel (buildGraph n calls) start = some r ∧
      (∀ v ∈ r, ∃ d, IsDist (buildGraph n calls) start v d) ∧
      ∀ (i j : Nat) (hi : i < r.length) (hj : j < r.length), i < j →
        ∀ di dj, IsDist (buildGraph n calls) start (r.get ⟨i, hi⟩) di →
          IsDist (buildGraph n calls) start (r.get ⟨j, hj⟩) dj → di ≤ dj := by
  have hn : 0 ≤ n := by omega
  have hinv := graphInv_buildGraph n calls hn
  have hnv := buildGraph_numVertices n calls
  obtain ⟨r, b1, b2, b3, _, _⟩ :=
    breadthFirstSearch_spec (buildGraph n calls) hinv.adjWF start hs0 (by rw [hnv]; exact hs)
      fuel (by rw [hnv]; omega)
  obtain ⟨lev, hlev, hmin⟩ := exists_levels (AdjStep (buildGraph n calls).adjList) start
  have hsorted := breadthFirstSearch_levels (buildGraph n calls) hinv.adjWF start hs0
    (by rw [hnv]; exact hs) fuel (by rw [hnv]; omega) lev hlev r b1
  rw [hinv.adjStep_eq] at hmin b3
  have hdist : ∀ v ∈ r, ∀ d, IsDist (buildGraph n calls) start v d → d = lev v := by
    intro v hv d hd
    have hvr := (b3 v).mp hv
    have h1 := (hmin v hvr).2 d hd.1
    have h2 : ¬ lev v < d := fun hlt => hd.2 (lev v) hlt (hmin v hvr).1
    omega
  refine ⟨r, b1, ?_, ?_⟩
  · intro v hv
    have hvr := (b3 v).mp hv
    refine ⟨lev v, (hmin v hvr).1, ?_⟩
    intro j hj hw
    have := (hmin v hvr).2 j hw
    omega
  · intro i j hi hj hij di dj hdi hdj
    have hp := List.pairwise_iff_getElem.mp hsorted i j hi hj hij
    simp only [List.get_eq_getElem] at hdi hdj
    rw [hdist _ (List.getElem_mem hi) di hdi, hdist _ (List.getElem_mem hj) dj hdj]
    exact hp

theorem bfs_level_order_witness :
    (0 : Int) ≤ 0 ∧ (0 : Int) < 6 ∧ (6 : Int) ≤ ((6 : Nat) : Int) ∧
      ∃ r, breadthFirstSearch 6
          (buildGraph 6 [(0, 3), (0, 1), (3, 4), (1, 2), (4, 2), (2, 5)]) 0 = some r ∧
        (∀ v ∈ r, ∃ d,
          IsDist (buildGraph 6 [(0, 3), (0, 1), (3, 4), (1, 2), (4, 2), (2, 5)]) 0 v d) ∧
        ∀ (i j : Nat) (hi : i < r.length) (hj : j < r.length), i < j →
          ∀ di dj,
            IsDist (buildGraph 6 [(0, 3), (0, 1), (3, 4), (1, 2), (4, 2), (2, 5)]) 0
              (r.get ⟨i, hi⟩) di →
            IsDist (buildGraph 6 [(0, 3), (0, 1), (3, 4), (1, 2), (4, 2), (2, 5)]) 0
              (r.get ⟨j, hj⟩) dj → di ≤ dj :=
  ⟨by decide, by decide, by decide,
    bfs_level_order 6 [(0, 3), (0, 1), (3, 4), (1, 2), (4, 2), (2, 5)] 0 6
      (by decide) (by decide) (by decide)⟩

theorem pathCalls_succ (k : Nat) :
    pathCalls (k + 1) = pathCalls k ++ [((k : Int), (k : Int) + 1)] := by
  simp [pathCalls, List.range_succ]

theorem mem_pathCalls (k : Nat) (e : Int × Int) :
    e ∈ pathCalls k ↔ ∃ i : Nat, i < k ∧ e = ((i : Int), (i : Int) + 1) := by
  unfold pathCalls
  rw [List.mem_map]
  constructor
  · rintro ⟨i, hi, rfl⟩; exact ⟨i, List.mem_range.mp hi, rfl⟩
  · rintro ⟨i, hi, rfl⟩; exact ⟨i, List.mem_range.mpr hi, rfl⟩

theorem pathGraph_edges_aux (n : Nat) :
    ∀ k : Nat, k + 1 ≤ n → (buildGraph n (pathCalls k)).edges = pathCalls k := by
  intro k
  induction k with
  | zero => intro _; rfl
  | succ k ih =>
    intro hk
    have hprev := ih (by omega)
    have hinv := graphInv_buildGraph (n : Int) (pathCalls k) (by omega)
    have hnv := buildGraph_numVertices (n : Int) (pathCalls k)
    have hstep : buildGraph (n : Int) (pathCalls (k + 1))
        = addEdge (buildGraph n (pathCalls k)) (k : Int) ((k : Int) + 1) := by
      rw [pathCalls_succ]
      simp [buildGraph, List.foldl_append]
    have hnew : ((k : Int) + 1) ∉ getAdjList (buildGraph n (pathCalls k)) (k : Int) := by
      rw [hinv.adj_iff _ _ (by omega)]
      unfold EdgeStep
      rw [hprev, mem_pathCalls, mem_pathCalls]
      rintro (⟨i, hi, he⟩ | ⟨i, hi, he⟩)
      · simp only [Prod.mk.injEq] at he; omega
      · simp only [Prod.mk.injEq] at he; omega
    rw [hstep, addEdge_edges_new _ _ _ (by omega) (by rw [hnv]; omega) (by omega)
      (by rw [hnv]; omega) hnew, hprev, pathCalls_succ]

theorem pathGraph_edgeStep (n : Nat) (hn : 1 ≤ n) (a b : Int) :
    EdgeStep (pathGraph n) a b ↔
      (0 ≤ a ∧ 0 ≤ b ∧ a < n ∧ b < n ∧ (b = a + 1 ∨ a = b + 1)) := by
  unfold EdgeStep pathGraph
  rw [pathGraph_edges_aux n (n - 1) (by omega), mem_pathCalls, mem_pathCalls]
  constructor
  · rintro (⟨i, hi, he⟩ | ⟨i, hi, he⟩)
    · simp only [Prod.mk.injEq] at he; omega
    · simp only [Prod.mk.injEq] at he; omega
  · rintro ⟨ha, hb, han, hbn, h | h⟩
    · left
      exact ⟨a.toNat, by omega, by simp only [Prod.mk.injEq]; omega⟩
    · right
      exact ⟨b.toNat, by omega, by simp only [Prod.mk.injEq]; omega⟩

theorem pathGraph_reach_range (n : Nat) (hn : 1 ≤ n) (v : Int)
    (h : Relation.ReflTransGen (EdgeStep (pathGraph n)) 0 v) : 0 ≤ v ∧ v < n := by
  induction h with
  | refl => omega
  | tail _ hstep _ =>
    have := (pathGraph_edgeStep n hn _ _).mp hstep
    omega

theorem pathGraph_reach (n : Nat) (hn : 1 ≤ n) :
    ∀ k : Nat, k < n → Relation.ReflTransGen (EdgeStep (pathGraph n)) 0 (k : Int) := by
  intro k
  induction k with
  | zero => intro _; exact Relation.ReflTransGen.refl
  | succ k ih =>
    intro hk
    refine Relation.ReflTransGen.tail (ih (by omega)) ?_
    rw [pathGraph_edgeStep n hn]
    push_cast
    omega

theorem pathGraph_levels (n : Nat) (hn : 1 ≤ n) :
    Levels (EdgeStep (pathGraph n)) 0 Int.toNat := by
  refine ⟨?_, ?_, ?_⟩
  · intro v w _ hvw
    have := (pathGraph_edgeStep n hn v w).mp hvw
    omega
  · intro w k hw hk
    have hr := pathGraph_reach_range n hn w hw
    refine ⟨(k : Int), pathGraph_reach n hn k (by omega), by simp, ?_⟩
    rw [pathGraph_edgeStep n hn]
    omega
  · intro w hw
    have hr := pathGraph_reach_range n hn w hw
    omega

theorem sorted_range_cast (n : Nat) :
    ((List.range n).map Int.ofNat).Pairwise (· ≤ ·) := by
  rw [List.pairwise_map]
  refine List.Pairwise.imp ?_ (List.sorted_lt_range n)
  intro a b hab
  simp only [Int.ofNat_eq_coe]
  omega

/-- C15. Scenario A (path graph): for every `n >= 1`, on the graph built as
`Graph(n)` followed by `addEdge(0,1)`, `addEdge(1,2)`, ..., `addEdge(n-2,n-1)`
in that order, `breadthFirstSearch(0)` returns `[0, 1, ..., n-1]` and
`isConnected()` returns `true` (fuel for `n` dequeues; vertex count in `int`
range for `isConnected`). -/
theorem scenarioA_path (n fuel : Nat) (hn : 1 ≤ n) (hfuel : n ≤ fuel) :
    breadthFirstSearch fuel (pathGraph n) 0 = some ((List.range n).map Int.ofNat) ∧
      (n < 2147483648 → isConnected fuel (pathGraph n) = some true) := by
  have hinv : GraphInv (pathGraph n) := graphInv_buildGraph (n : Int) _ (by omega)
  have hnv : (pathGraph n).numVertices = (n : Int) := buildGraph_numVertices (n : Int) _
  obtain ⟨r, b1, b2, b3, _, b5⟩ :=
    breadthFirstSearch_spec (pathGraph n) hinv.adjWF 0 (le_refl 0) (by rw [hnv]; omega)
      fuel (by rw [hnv]; omega)
  have hlev : Levels (AdjStep (pathGraph n).adjList) 0 Int.toNat := by
    rw [hinv.adjStep_eq]; exact pathGraph_levels n hn
  have hsorted := breadthFirstSearch_levels (pathGraph n) hinv.adjWF 0 (le_refl 0)
    (by rw [hnv]; omega) fuel (by rw [hnv]; omega) Int.toNat hlev r b1
  rw [hinv.adjStep_eq] at b3
  rw [hnv] at b5
  have hmem : ∀ v, v ∈ r ↔ v ∈ (List.range n).map Int.ofNat := by
    intro v
    rw [b3 v]
    simp only [List.mem_map, List.mem_range, Int.ofNat_eq_coe]
    constructor
    · intro h
      have := pathGraph_reach_range n hn v h
      exact ⟨v.toNat, by omega, by omega⟩
    · rintro ⟨k, hk, rfl⟩
      exact pathGraph_reach n hn k hk
  have hnd : ((List.range n).map Int.ofNat).Nodup :=
    (List.nodup_range n).map (fun a b h => by simpa using h)
  have hperm : r.Perm ((List.range n).map Int.ofNat) :=
    (List.perm_ext_iff_of_nodup b2 hnd).mpr hmem
  have hsorted' : r.Pairwise (· ≤ ·) := by
    refine List.Pairwise.imp_of_mem ?_ hsorted
    intro a b ha hb hab
    have h1 := b5 a ha
    have h2 := b5 b hb
    omega
  have hr : r = (List.range n).map Int.ofNat :=
    List.eq_of_perm_of_sorted hperm hsorted' (sorted_range_cast n)
  rw [hr] at b1
  refine ⟨b1, ?_⟩
  intro hint
  have hn0 : ¬ (pathGraph n).numVertices = 0 := by rw [hnv]; omega
  have hfit : toInt32 ((n : Nat) : Int) = (n : Int) := toInt32_of_fits _ (by omega) (by omega)
  unfold isConnected
  rw [if_neg hn0, b1]
  simp only [Option.map_some', List.length_map, List.length_range, hnv, hfit, decide_True]

theorem scenarioA_path_witness :
    1 ≤ 4 ∧ 4 ≤ 4 ∧
      breadthFirstSearch 4 (buildGraph 4 [(0, 1), (1, 2), (2, 3)]) 0 = some [0, 1, 2, 3] ∧
      (4 < 2147483648 → isConnected 4 (buildGraph 4 [(0, 1), (1, 2), (2, 3)]) = some true) :=
  ⟨by decide, by decide, scenarioA_path 4 4 (by decide) (by decide)⟩

/-! ## The layout engine (`GraphVisualizerRaylib.cpp`) -/

theorem foldl_vertices {F : Type} {β : Type} (s0 : GraphVisualizerRaylib F)
    (step : GraphVisualizerRaylib F → β → GraphVisualizerRaylib F)
    (g : List (VertexRaylib F) → β → List (VertexRaylib F))
    (h : ∀ vs x, step { s0 with vertices := vs } x = { s0 with vertices := g vs x }) :
    ∀ (l : List β) (vs : List (VertexRaylib F)),
      l.foldl step { s0 with vertices := vs } = { s0 with vertices := l.foldl g vs } := by
  intro l
  induction l with
  | nil => intro vs; rfl
  | cons x xs ih => intro vs; rw [List.foldl_cons, h, ih, List.foldl_cons]

theorem foldl_modify_range {α : Type} (f : α → α) (n : Nat) (l : List α) (k : Nat) :
    ((List.range n).foldl (fun l i => List.modify f i l) l)[k]?
      = (l[k]?).map (fun v => if k < n then f v else v) := by
  induction n with
  | zero => simp
  | succ n ih =>
    rw [List.range_succ, List.foldl_append, List.foldl_cons, List.foldl_nil,
      List.getElem?_modify, ih]
    cases l[k]? with
    | none => rfl
    | some v =>
      simp only [Option.map_some', Option.some.injEq]
      by_cases h1 : n = k
      · subst h1; simp
      · by_cases h2 : k < n
        · have h3 : k < n + 1 := by omega
          simp [h1, h2, h3]
        · have h3 : ¬ k < n + 1 := by omega
          simp [h1, h2, h3]

theorem foldl_modify_range_eq_map {α : Type} (f : α → α) (n : Nat) (l : List α)
    (hlen : l.length ≤ n) :
    (List.range n).foldl (fun l i => List.modify f i l) l = l.map f := by
  apply List.ext_getElem?
  intro k
  rw [foldl_modify_range, List.getElem?_map]
  cases h : l[k]? with
  | none => rfl
  | some v =>
    have hk : k < l.length := (List.getElem?_eq_some_iff.mp h).1
    have : k < n := by omega
    simp [this]

theorem iterate_eq_foldl_range {α : Type} (f : α → α) (k : Nat) (a : α) :
    (List.range k).foldl (fun s _ => f s) a = f^[k] a := by
  induction k with
  | zero => rfl
  | succ k ih =>
    rw [List.range_succ, List.foldl_append, List.foldl_cons, List.foldl_nil, ih,
      Function.iterate_succ_apply']

/-- C20. `optimize(iterations)` equals iterated `step()` followed by centring:
for every state and every integer `iterations`, the state after
`optimize(iterations)` is `centerGraph` applied to the result of applying
`step()` exactly `max(iterations, 0)` times; in particular `optimize(0)` is
exactly `centerGraph()`. -/
theorem optimize_eq_iterate {F : Type} [LinearOrderedField F] (sqrt : F → F)
    (s : GraphVisualizerRaylib F) (iterations : Int) :
    optimize sqrt s iterations
        = centerGraph ((applyForceDirectedStep sqrt)^[(max iterations 0).toNat] s) ∧
      optimize sqrt s 0 = centerGraph s := by
  constructor
  · unfold optimize
    rw [iterate_eq_foldl_range]
    have : (max iterations 0).toNat = iterations.toNat := by omega
    rw [this]
  · rfl

theorem calculateRepulsion_eq {F : Type} [LinearOrderedField F] (sqrt : F → F)
    (s : GraphVisualizerRaylib F) (i j : Int) :
    calculateRepulsion sqrt s i j
      = { s with
          vertices := addVelocity s.vertices i.toNat
            (repulsionTerm sqrt s.repulsionForce (positionAt s.vertices i)
              (positionAt s.vertices j)) } := by
  simp only [calculateRepulsion, addVelocity, repulsionTerm, positionAt, sub_eq_add_neg]

theorem calculateAttraction_eq {F : Type} [LinearOrderedField F] (sqrt : F → F)
    (s : GraphVisualizerRaylib F) (i j : Int) :
    calculateAttraction sqrt s i j
      = { s with
          vertices := addVelocity s.vertices i.toNat
            (attractionTerm sqrt s.attractionForce s.optimalDistance (positionAt s.vertices i)
              (positionAt s.vertices j)) } := by
  simp only [calculateAttraction, addVelocity, attractionTerm, positionAt]

theorem getElem?_addVelocity {F : Type} [LinearOrderedField F] (vs : List (VertexRaylib F))
    (k : Nat) (t : F × F) (m : Nat) :
    (addVelocity vs k t)[m]? = (vs[m]?).map (fun v => if k = m then bump t v else v) := by
  unfold addVelocity bump
  rw [List.getElem?_modify]
  rfl

theorem bump_zero {F : Type} [LinearOrderedField F] (v : VertexRaylib F) : bump 0 v = v := by
  cases v
  simp [bump]

theorem bump_add {F : Type} [LinearOrderedField F] (a b : F × F) (v : VertexRaylib F) :
    bump b (bump a v) = bump (a + b) v := by
  cases v
  simp [bump, add_assoc]

theorem positionAt_congr {F : Type} [LinearOrderedField F] (ws vs : List (VertexRaylib F))
    (g : Nat → VertexRaylib F → VertexRaylib F)
    (hg : ∀ k v, (g k v).x = v.x ∧ (g k v).y = v.y)
    (h : ∀ k, ws[k]? = (vs[k]?).map (g k)) (i : Int) :
    positionAt ws i = positionAt vs i := by
  unfold positionAt vertexAt
  rw [List.getD_eq_getElem?_getD, List.getD_eq_getElem?_getD, h]
  cases vs[i.toNat]? with
  | none => rfl
  | some v => simp [hg]

theorem positionAt_addVelocity {F : Type} [LinearOrderedField F] (vs : List (VertexRaylib F))
    (k : Nat) (t : F × F) (i : Int) :
    positionAt (addVelocity vs k t) i = positionAt vs i := by
  apply positionAt_congr _ _ (fun m v => if k = m then bump t v else v)
  · intro m v
    by_cases h : k = m <;> simp [h, bump]
  · intro m
    exact getElem?_addVelocity vs k t m

theorem accumulate_getElem? {F : Type} [LinearOrderedField F] (term : F × F → F × F → F × F)
    (ops : List (Int × Int)) :
    ∀ (vs : List (VertexRaylib F)) (k : Nat),
      (accumulate term vs ops)[k]? = (vs[k]?).map (bump (contribution term vs ops k)) := by
  induction ops with
  | nil =>
    intro vs k
    simp only [accumulate, contribution, List.foldl_nil, List.map_nil, List.sum_nil]
    cases vs[k]? with
    | none => rfl
    | some v => simp [bump_zero]
  | cons op ops ih =>
    intro vs k
    have hpos : ∀ i, positionAt
        (addVelocity vs op.1.toNat (term (positionAt vs op.1) (positionAt vs op.2))) i
        = positionAt vs i := fun i => positionAt_addVelocity vs _ _ i
    have hcontrib : contribution term
        (addVelocity vs op.1.toNat (term (positionAt vs op.1) (positionAt vs op.2))) ops k
        = contribution term vs ops k := by
      simp only [contribution, hpos]
    have hunfold : accumulate term vs (op :: ops)
        = accumulate term
            (addVelocity vs op.1.toNat (term (positionAt vs op.1) (positionAt vs op.2))) ops :=
      rfl
    rw [hunfold, ih, hcontrib, getElem?_addVelocity]
    cases vs[k]? with
    | none => rfl
    | some v =>
      simp only [Option.map_some', Option.some.injEq, contribution, List.map_cons, List.sum_cons]
      by_cases h : op.1.toNat = k
      · simp only [h, if_true, bump_add]
      · simp only [h, if_false, zero_add]

theorem positionAt_accumulate {F : Type} [LinearOrderedField F] (term : F × F → F × F → F × F)
    (ops : List (Int × Int)) (vs : List (VertexRaylib F)) (i : Int) :
    positionAt (accumulate term vs ops) i = positionAt vs i := by
  apply positionAt_congr _ _ (fun k v => bump (contribution term vs ops k) v)
  · intro k v; simp [bump]
  · intro k; exact accumulate_getElem? term ops vs k

theorem foldl_flatMap_pairs {σ : Type} (h : σ → Nat → Nat → σ) (g : Nat → List Nat) :
    ∀ (l : List Nat) (s : σ),
      (l.flatMap fun (i : Nat) => (g i).map fun (j : Nat) => (i, j)).foldl
          (fun s p => h s p.1 p.2) s
        = l.foldl (fun s i => (g i).foldl (fun s j => h s i j) s) s := by
  intro l
  induction l with
  | nil => intro s; rfl
  | cons i rest ih =>
    intro s
    rw [List.flatMap_cons, List.foldl_append, List.foldl_map, List.foldl_cons, ih]

theorem accumulate_append {F : Type} [LinearOrderedField F] (term : F × F → F × F → F × F)
    (vs : List (VertexRaylib F)) (a b : List (Int × Int)) :
    accumulate term vs (a ++ b) = accumulate term (accumulate term vs a) b := by
  simp only [accumulate, List.foldl_append]

theorem accumulate_flatMap {F : Type} [LinearOrderedField F] {β : Type}
    (term : F × F → F × F → F × F) (f : β → List (Int × Int)) :
    ∀ (l : List β) (vs : List (VertexRaylib F)),
      l.foldl (fun vs p => accumulate term vs (f p)) vs = accumulate term vs (l.flatMap f) := by
  intro l
  induction l with
  | nil => intro vs; rfl
  | cons p rest ih =>
    intro vs
    rw [List.foldl_cons, ih, List.flatMap_cons, accumulate_append]

theorem length_accumulate {F : Type} [LinearOrderedField F] (term : F × F → F × F → F × F)
    (ops : List (Int × Int)) :
    ∀ vs : List (VertexRaylib F), (accumulate term vs ops).length = vs.length := by
  induction ops with
  | nil => intro vs; rfl
  | cons op ops ih =>
    intro vs
    have hunfold : accumulate term vs (op :: ops)
        = accumulate term
            (addVelocity vs op.1.toNat (term (positionAt vs op.1) (positionAt vs op.2))) ops :=
      rfl
    rw [hunfold, ih]
    simp [addVelocity, List.length_modify]

theorem contribution_congr {F : Type} [LinearOrderedField F] (term : F × F → F × F → F × F)
    (ws vs : List (VertexRaylib F)) (h : ∀ i, positionAt ws i = positionAt vs i)
    (ops : List (Int × Int)) (k : Nat) :
    contribution term ws ops k = contribution term vs ops k := by
  simp only [contribution, h]

theorem contribution_flatMap {F : Type} [LinearOrderedField F] {β : Type}
    (term : F × F → F × F → F × F) (vs : List (VertexRaylib F)) (a b : β → Int) (k : Nat) :
    ∀ l : List β,
      contribution term vs (l.flatMap fun p => [(a p, b p), (b p, a p)]) k
        = (l.map fun p =>
            (if (a p).toNat = k then term (positionAt vs (a p)) (positionAt vs (b p)) else 0)
            + (if (b p).toNat = k then term (positionAt vs (b p)) (positionAt vs (a p))
                else 0)).sum := by
  intro l
  induction l with
  | nil => rfl
  | cons p rest ih =>
    have hsplit : contribution term vs
        ((p :: rest).flatMap fun p => [(a p, b p), (b p, a p)]) k
        = ((if (a p).toNat = k then term (positionAt vs (a p)) (positionAt vs (b p)) else 0)
            + (if (b p).toNat = k then term (positionAt vs (b p)) (positionAt vs (a p)) else 0))
          + contribution term vs (rest.flatMap fun p => [(a p, b p), (b p, a p)]) k := by
      simp only [contribution, List.flatMap_cons, List.cons_append, List.nil_append,
        List.map_cons, List.sum_cons, add_assoc]
    rw [hsplit, ih, List.map_cons, List.sum_cons]

theorem zeroVelocities_eq {F : Type} [LinearOrderedField F] (s : GraphVisualizerRaylib F)
    (hsize : s.vertices.length = s.graph.numVertices.toNat) :
    zeroVelocities s
      = { s with vertices := s.vertices.map fun v => { v with vx := 0, vy := 0 } } := by
  unfold zeroVelocities
  have h := foldl_vertices s
    (fun s i => { s with
      vertices := List.modify (fun v => { v with vx := (0 : F), vy := 0 }) i s.vertices })
    (fun vs i => List.modify (fun v => { v with vx := (0 : F), vy := 0 }) i vs)
    (fun vs x => rfl) (List.range s.graph.numVertices.toNat) s.vertices
  rw [foldl_modify_range_eq_map _ _ _ (le_of_eq hsize)] at h
  exact h

theorem repulsionLoop_eq {F : Type} [LinearOrderedField F] (sqrt : F → F)
    (s : GraphVisualizerRaylib F) :
    repulsionLoop sqrt s
      = { s with
          vertices := accumulate (repulsionTerm sqrt s.repulsionForce) s.vertices
            ((vertexPairs s.graph.numVertices.toNat).flatMap fun p =>
              [((p.1 : Int), (p.2 : Int)), ((p.2 : Int), (p.1 : Int))]) } := by
  unfold repulsionLoop
  simp only []
  rw [← foldl_flatMap_pairs
    (fun s i j => calculateRepulsion sqrt (calculateRepulsion sqrt s (i : Int) (j : Int))
      (j : Int) (i : Int))
    (fun i => List.range' (i + 1) (s.graph.numVertices.toNat - (i + 1)))]
  have h := foldl_vertices s
    (fun s (p : Nat × Nat) =>
      calculateRepulsion sqrt (calculateRepulsion sqrt s (p.1 : Int) (p.2 : Int))
        (p.2 : Int) (p.1 : Int))
    (fun vs p => accumulate (repulsionTerm sqrt s.repulsionForce) vs
      [((p.1 : Int), (p.2 : Int)), ((p.2 : Int), (p.1 : Int))])
    (fun vs p => by
      simp only [calculateRepulsion_eq]
      rfl)
    (vertexPairs s.graph.numVertices.toNat) s.vertices
  rw [accumulate_flatMap] at h
  exact h

theorem attractionLoop_eq {F : Type} [LinearOrderedField F] (sqrt : F → F)
    (s : GraphVisualizerRaylib F) :
    attractionLoop sqrt s
      = { s with
          vertices := accumulate (attractionTerm sqrt s.attractionForce s.optimalDistance)
            s.vertices (s.graph.edges.flatMap fun e => [(e.1, e.2), (e.2, e.1)]) } := by
  unfold attractionLoop
  have h := foldl_vertices s
    (fun s (e : Int × Int) =>
      calculateAttraction sqrt (calculateAttraction sqrt s e.1 e.2) e.2 e.1)
    (fun vs e => accumulate (attractionTerm sqrt s.attractionForce s.optimalDistance) vs
      [(e.1, e.2), (e.2, e.1)])
    (fun vs e => by
      simp only [calculateAttraction_eq]
      rfl)
    s.graph.edges s.vertices
  rw [accumulate_flatMap] at h
  exact h

theorem updatePositions_eq {F : Type} [LinearOrderedField F] (s : GraphVisualizerRaylib F)
    (hsize : s.vertices.length ≤ s.graph.numVertices.toNat) :
    updatePositions s = { s with vertices := s.vertices.map (updateVertex s) } := by
  unfold updatePositions
  rw [foldl_modify_range_eq_map _ _ _ hsize]

theorem applyForceDirectedStep_unfold {F : Type} [LinearOrderedField F] (sqrt : F → F)
    (s : GraphVisualizerRaylib F) (hsize : s.vertices.length = s.graph.numVertices.toNat) :
    applyForceDirectedStep sqrt s
      = { s with
          vertices :=
            (accumulate (attractionTerm sqrt s.attractionForce s.optimalDistance)
              (accumulate (repulsionTerm sqrt s.repulsionForce)
                (s.vertices.map fun v => { v with vx := 0, vy := 0 })
                ((vertexPairs s.graph.numVertices.toNat).flatMap fun p =>
                  [((p.1 : Int), (p.2 : Int)), ((p.2 : Int), (p.1 : Int))]))
              (s.graph.edges.flatMap fun e => [(e.1, e.2), (e.2, e.1)])).map
              (updateVertex s) } := by
  unfold applyForceDirectedStep
  rw [zeroVelocities_eq s hsize, repulsionLoop_eq, attractionLoop_eq, updatePositions_eq]
  · rfl
  · simp only [length_accumulate, List.length_map]
    exact le_of_eq hsize

theorem updateVertex_bounds {F : Type} [LinearOrderedField F] (s : GraphVisualizerRaylib F)
    (v : VertexRaylib F) :
    2 * s.vertexRadius ≤ (updateVertex s v).x ∧ 2 * s.vertexRadius ≤ (updateVertex s v).y ∧
      (2 * s.vertexRadius ≤ (s.windowWidth : F) - 2 * s.vertexRadius →
        (updateVertex s v).x ≤ (s.windowWidth : F) - 2 * s.vertexRadius) ∧
      (2 * s.vertexRadius ≤ (s.windowHeight : F) - 2 * s.vertexRadius →
        (updateVertex s v).y ≤ (s.windowHeight : F) - 2 * s.vertexRadius) := by
  have h2 : s.vertexRadius * 2 = 2 * s.vertexRadius := mul_comm _ _
  simp only [updateVertex, h2]
  refine ⟨le_max_left _ _, le_max_left _ _, ?_, ?_⟩
  · intro h
    exact max_le h (min_le_left _ _)
  · intro h
    exact max_le h (min_le_left _ _)

theorem positionAt_map_zero {F : Type} [LinearOrderedField F] (vs : List (VertexRaylib F))
    (i : Int) :
    positionAt (vs.map fun v => { v with vx := 0, vy := 0 }) i = positionAt vs i := by
  apply positionAt_congr _ _ (fun (_ : Nat) (v : VertexRaylib F) => { v with vx := 0, vy := 0 })
  · intro k v; exact ⟨rfl, rfl⟩
  · intro k; rw [List.getElem?_map]

theorem netForce_eq_contributions {F : Type} [LinearOrderedField F] (sqrt : F → F)
    (s : GraphVisualizerRaylib F) (hwf : EngineWF s) (k : Nat) :
    netForce sqrt s k
      = contribution (repulsionTerm sqrt s.repulsionForce) s.vertices
          ((vertexPairs s.graph.numVertices.toNat).flatMap fun p =>
            [((p.1 : Int), (p.2 : Int)), ((p.2 : Int), (p.1 : Int))]) k
        + contribution (attractionTerm sqrt s.attractionForce s.optimalDistance) s.vertices
          (s.graph.edges.flatMap fun e => [(e.1, e.2), (e.2, e.1)]) k := by
  rw [contribution_flatMap (repulsionTerm sqrt s.repulsionForce) s.vertices
      (fun p : Nat × Nat => (p.1 : Int)) (fun p : Nat × Nat => (p.2 : Int)) k,
    contribution_flatMap (attractionTerm sqrt s.attractionForce s.optimalDistance) s.vertices
      (fun e : Int × Int => e.1) (fun e : Int × Int => e.2) k]
  unfold netForce
  congr 2
  apply List.map_congr_left
  intro e he
  have hr := hwf.edges_range e he
  have h1 : (e.1.toNat = k) ↔ (e.1 = (k : Int)) := by omega
  have h2 : (e.2.toNat = k) ↔ (e.2 = (k : Int)) := by omega
  simp only [h1, h2]

theorem applyForceDirectedStep_eq_stepSpec {F : Type} [LinearOrderedField F] (sqrt : F → F)
    (s : GraphVisualizerRaylib F) (hwf : EngineWF s) :
    applyForceDirectedStep sqrt s = stepSpec sqrt s := by
  rw [applyForceDirectedStep_unfold sqrt s hwf.size]
  unfold stepSpec
  congr 1
  apply List.ext_getElem?
  intro k
  rw [List.getElem?_map, accumulate_getElem?, accumulate_getElem?, List.getElem?_map,
    List.getElem?_mapIdx]
  have hpos1 : ∀ i, positionAt (s.vertices.map fun v => { v with vx := (0 : F), vy := 0 }) i
      = positionAt s.vertices i := positionAt_map_zero s.vertices
  have hpos2 : ∀ i, positionAt
      (accumulate (repulsionTerm sqrt s.repulsionForce)
        (s.vertices.map fun v => { v with vx := (0 : F), vy := 0 })
        ((vertexPairs s.graph.numVertices.toNat).flatMap fun p =>
          [((p.1 : Int), (p.2 : Int)), ((p.2 : Int), (p.1 : Int))])) i
      = positionAt s.vertices i := by
    intro i
    rw [positionAt_accumulate, hpos1]
  rw [contribution_congr _ _ s.vertices hpos2, contribution_congr _ _ s.vertices hpos1]
  have hN := netForce_eq_contributions sqrt s hwf k
  cases s.vertices[k]? with
  | none => rfl
  | some v =>
    simp only [Option.map_some', Option.some.injEq]
    rw [hN]
    simp only [updateVertex, bump, clampCoord, Prod.fst_add, Prod.snd_add, zero_add]
    have e1 : ∀ a b : F, (a + b) * s.damping = s.damping * (a + b) := fun a b => mul_comm _ _
    simp only [e1]

theorem updatePositions_eq_phases {F : Type} [LinearOrderedField F]
    (s : GraphVisualizerRaylib F) (hsize : s.vertices.length = s.graph.numVertices.toNat) :
    updatePositions s = clampPhase (integratePhase (dampPhase s)) := by
  rw [updatePositions_eq s (le_of_eq hsize)]
  simp only [clampPhase, integratePhase, dampPhase, List.map_map]
  congr 1

theorem step_ignores_velocities {F : Type} [LinearOrderedField F] (sqrt : F → F)
    (s : GraphVisualizerRaylib F) (hsize : s.vertices.length = s.graph.numVertices.toNat)
    (vs : List (VertexRaylib F))
    (hpos : vs.map (fun v => (v.x, v.y)) = s.vertices.map (fun v => (v.x, v.y))) :
    applyForceDirectedStep sqrt { s with vertices := vs } = applyForceDirectedStep sqrt s := by
  have hlen : vs.length = s.vertices.length := by
    have := congrArg List.length hpos
    simpa using this
  have hzero : (vs.map fun v => ({ v with vx := 0, vy := 0 } : VertexRaylib F))
      = s.vertices.map fun v => { v with vx := 0, vy := 0 } := by
    have h1 : ∀ l : List (VertexRaylib F),
        (l.map fun v => ({ v with vx := 0, vy := 0 } : VertexRaylib F))
          = (l.map fun v => (v.x, v.y)).map fun p => ⟨p.1, p.2, 0, 0⟩ := by
      intro l
      rw [List.map_map]
      rfl
    rw [h1, h1, hpos]
  unfold applyForceDirectedStep
  rw [zeroVelocities_eq s hsize,
    zeroVelocities_eq { s with vertices := vs } (by rw [← hsize, ← hlen])]
  simp only [hzero]

theorem vertexAt_addVelocity_self {F : Type} [LinearOrderedField F]
    (vs : List (VertexRaylib F)) (i : Int) (t : F × F) (hi : i.toNat < vs.length) :
    vertexAt (addVelocity vs i.toNat t) i = bump t (vertexAt vs i) := by
  unfold vertexAt
  rw [List.getD_eq_getElem?_getD, List.getD_eq_getElem?_getD, getElem?_addVelocity,
    List.getElem?_eq_getElem hi]
  simp

theorem velocityGain_bump {F : Type} [LinearOrderedField F] (t : F × F) (v : VertexRaylib F) :
    velocityGain v (bump t v) = t := by
  simp [velocityGain, bump]

theorem attraction_gain {F : Type} [LinearOrderedField F] (sqrt : F → F)
    (s : GraphVisualizerRaylib F) (i j : Int) (hi : i.toNat < s.vertices.length) :
    velocityGain (vertexAt s.vertices i)
        (vertexAt (calculateAttraction sqrt s i j).vertices i)
      = attractionTerm sqrt s.attractionForce s.optimalDistance
          (positionAt s.vertices i) (positionAt s.vertices j) := by
  rw [calculateAttraction_eq]
  simp only []
  rw [vertexAt_addVelocity_self _ _ _ hi, velocityGain_bump]

theorem repulsion_gain {F : Type} [LinearOrderedField F] (sqrt : F → F)
    (s : GraphVisualizerRaylib F) (i j : Int) (hi : i.toNat < s.vertices.length) :
    velocityGain (vertexAt s.vertices i)
        (vertexAt (calculateRepulsion sqrt s i j).vertices i)
      = repulsionTerm sqrt s.repulsionForce
          (positionAt s.vertices i) (positionAt s.vertices j) := by
  rw [calculateRepulsion_eq]
  simp only []
  rw [vertexAt_addVelocity_self _ _ _ hi, velocityGain_bump]

theorem attractionTerm_real (a opt : ℝ) (p q : ℝ × ℝ) (d : ℝ)
    (hd : distanceBetween Real.sqrt p q = d) (hd1 : 1 ≤ d) :
    attractionTerm Real.sqrt a opt p q
        = (a * (d - opt) / d * (q.1 - p.1), a * (d - opt) / d * (q.2 - p.2)) ∧
      magnitude Real.sqrt (attractionTerm Real.sqrt a opt p q) = |a * (d - opt)| := by
  unfold distanceBetween magnitude at hd
  simp only [] at hd
  have hS : 0 ≤ (q.1 - p.1) * (q.1 - p.1) + (q.2 - p.2) * (q.2 - p.2) :=
    add_nonneg (mul_self_nonneg _) (mul_self_nonneg _)
  have hdd : d * d = (q.1 - p.1) * (q.1 - p.1) + (q.2 - p.2) * (q.2 - p.2) := by
    rw [← hd]; exact Real.mul_self_sqrt hS
  have hd0 : d ≠ 0 := by linarith
  have hnot : ¬ d < 1 := not_lt.mpr hd1
  have hterm : attractionTerm Real.sqrt a opt p q
      = (a * (d - opt) / d * (q.1 - p.1), a * (d - opt) / d * (q.2 - p.2)) := by
    simp only [attractionTerm, hd, hnot, if_false, Prod.mk.injEq]
    constructor <;> field_simp <;> ring
  refine ⟨hterm, ?_⟩
  rw [hterm]
  unfold magnitude
  simp only []
  have : a * (d - opt) / d * (q.1 - p.1) * (a * (d - opt) / d * (q.1 - p.1))
      + a * (d - opt) / d * (q.2 - p.2) * (a * (d - opt) / d * (q.2 - p.2))
      = (a * (d - opt)) * (a * (d - opt)) := by
    have : a * (d - opt) / d * (q.1 - p.1) * (a * (d - opt) / d * (q.1 - p.1))
        + a * (d - opt) / d * (q.2 - p.2) * (a * (d - opt) / d * (q.2 - p.2))
        = (a * (d - opt) / d) * (a * (d - opt) / d)
          * ((q.1 - p.1) * (q.1 - p.1) + (q.2 - p.2) * (q.2 - p.2)) := by ring
    rw [this, ← hdd]
    field_simp
  rw [this, Real.sqrt_mul_self_eq_abs]

theorem repulsionTerm_real (r : ℝ) (p q : ℝ × ℝ) (d : ℝ)
    (hd : distanceBetween Real.sqrt p q = d) (hd1 : 1 ≤ d) :
    repulsionTerm Real.sqrt r p q
        = (r / d ^ 3 * (p.1 - q.1), r / d ^ 3 * (p.2 - q.2)) ∧
      magnitude Real.sqrt (repulsionTerm Real.sqrt r p q) = |r| / d ^ 2 := by
  unfold distanceBetween magnitude at hd
  simp only [] at hd
  have hS : 0 ≤ (q.1 - p.1) * (q.1 - p.1) + (q.2 - p.2) * (q.2 - p.2) :=
    add_nonneg (mul_self_nonneg _) (mul_self_nonneg _)
  have hdd : d * d = (q.1 - p.1) * (q.1 - p.1) + (q.2 - p.2) * (q.2 - p.2) := by
    rw [← hd]; exact Real.mul_self_sqrt hS
  have hdpos : 0 < d := by linarith
  have hd0 : d ≠ 0 := ne_of_gt hdpos
  have hnot : ¬ (q.1 - p.1) * (q.1 - p.1) + (q.2 - p.2) * (q.2 - p.2) < 1 := by
    rw [← hdd]; nlinarith
  have hsqrt : Real.sqrt (d * d) = d := Real.sqrt_mul_self (le_of_lt hdpos)
  have hterm : repulsionTerm Real.sqrt r p q
      = (r / d ^ 3 * (p.1 - q.1), r / d ^ 3 * (p.2 - q.2)) := by
    simp only [repulsionTerm, hnot, if_false, Prod.mk.injEq]
    rw [← hdd, hsqrt]
    constructor <;> field_simp <;> ring
  refine ⟨hterm, ?_⟩
  rw [hterm]
  unfold magnitude
  simp only []
  have : r / d ^ 3 * (p.1 - q.1) * (r / d ^ 3 * (p.1 - q.1))
      + r / d ^ 3 * (p.2 - q.2) * (r / d ^ 3 * (p.2 - q.2))
      = (r / d ^ 2) * (r / d ^ 2) := by
    have : r / d ^ 3 * (p.1 - q.1) * (r / d ^ 3 * (p.1 - q.1))
        + r / d ^ 3 * (p.2 - q.2) * (r / d ^ 3 * (p.2 - q.2))
        = (r / d ^ 3) * (r / d ^ 3)
          * ((q.1 - p.1) * (q.1 - p.1) + (q.2 - p.2) * (q.2 - p.2)) := by ring
    rw [this, ← hdd]
    field_simp
    ring
  rw [this, Real.sqrt_mul_self_eq_abs, abs_div, abs_of_pos (by positivity : (0 : ℝ) < d ^ 2)]

theorem twoBody_wf (F : Type) [LinearOrderedField F] : EngineWF (twoBody F) := by
  have h : ∀ e ∈ (buildGraph 2 [(0, 1)]).edges,
      0 ≤ e.1 ∧ e.1 < (buildGraph 2 [(0, 1)]).numVertices ∧
        0 ≤ e.2 ∧ e.2 < (buildGraph 2 [(0, 1)]).numVertices := by decide
  exact ⟨rfl, h⟩

theorem twoBody_distance :
    distanceBetween Real.sqrt (positionAt (twoBody ℝ).vertices 0)
      (positionAt (twoBody ℝ).vertices 1) = 300 := by
  have h : distanceBetween Real.sqrt (positionAt (twoBody ℝ).vertices 0)
      (positionAt (twoBody ℝ).vertices 1) = Real.sqrt (300 * 300) := by
    simp only [distanceBetween, magnitude, positionAt, vertexAt, twoBody, engineWith]
    norm_num
  rw [h, Real.sqrt_mul_self (by norm_num)]

/-- C17 (amended). Clamping: for every engine state holding one vertex record
per graph vertex and every setting of `vertexRadius`, `windowWidth` and
`windowHeight`, after one `step()` every vertex satisfies `2*vertexRadius <= x`
and `2*vertexRadius <= y`; it satisfies `x <= windowWidth - 2*vertexRadius`
whenever `2*vertexRadius <= windowWidth - 2*vertexRadius`, and
`y <= windowHeight - 2*vertexRadius` whenever
`2*vertexRadius <= windowHeight - 2*vertexRadius`. -/
theorem step_clamps {F : Type} [LinearOrderedField F] (sqrt : F → F)
    (s : GraphVisualizerRaylib F) (hsize : s.vertices.length = s.graph.numVertices.toNat) :
    (applyForceDirectedStep sqrt s).vertices.length = s.vertices.length ∧
      ∀ v ∈ (applyForceDirectedStep sqrt s).vertices,
        2 * s.vertexRadius ≤ v.x ∧ 2 * s.vertexRadius ≤ v.y ∧
        (2 * s.vertexRadius ≤ (s.windowWidth : F) - 2 * s.vertexRadius →
          v.x ≤ (s.windowWidth : F) - 2 * s.vertexRadius) ∧
        (2 * s.vertexRadius ≤ (s.windowHeight : F) - 2 * s.vertexRadius →
          v.y ≤ (s.windowHeight : F) - 2 * s.vertexRadius) := by
  rw [applyForceDirectedStep_unfold sqrt s hsize]
  constructor
  · simp only [List.length_map, length_accumulate]
  · intro v hv
    simp only [List.mem_map] at hv
    obtain ⟨w, _, rfl⟩ := hv
    exact updateVertex_bounds s w

theorem step_clamps_witness :
    (twoBody ℝ).vertices.length = (twoBody ℝ).graph.numVertices.toNat ∧
      (applyForceDirectedStep Real.sqrt (twoBody ℝ)).vertices.length
        = (twoBody ℝ).vertices.length ∧
      ∀ v ∈ (applyForceDirectedStep Real.sqrt (twoBody ℝ)).vertices,
        2 * (twoBody ℝ).vertexRadius ≤ v.x ∧ 2 * (twoBody ℝ).vertexRadius ≤ v.y ∧
        (2 * (twoBody ℝ).vertexRadius
            ≤ ((twoBody ℝ).windowWidth : ℝ) - 2 * (twoBody ℝ).vertexRadius →
          v.x ≤ ((twoBody ℝ).windowWidth : ℝ) - 2 * (twoBody ℝ).vertexRadius) ∧
        (2 * (twoBody ℝ).vertexRadius
            ≤ ((twoBody ℝ).windowHeight : ℝ) - 2 * (twoBody ℝ).vertexRadius →
          v.y ≤ ((twoBody ℝ).windowHeight : ℝ) - 2 * (twoBody ℝ).vertexRadius) :=
  ⟨rfl, step_clamps Real.sqrt (twoBody ℝ) rfl⟩

theorem step_clamps_counterexample :
    (smallWindow ℝ).vertices.length = (smallWindow ℝ).graph.numVertices.toNat ∧
      ¬ (∀ v ∈ (applyForceDirectedStep Real.sqrt (smallWindow ℝ)).vertices,
        2 * (smallWindow ℝ).vertexRadius ≤ v.x ∧
          v.x ≤ ((smallWindow ℝ).windowWidth : ℝ) - 2 * (smallWindow ℝ).vertexRadius ∧
          2 * (smallWindow ℝ).vertexRadius ≤ v.y ∧
          v.y ≤ ((smallWindow ℝ).windowHeight : ℝ) - 2 * (smallWindow ℝ).vertexRadius) := by
  refine ⟨rfl, ?_⟩
  intro h
  rw [applyForceDirectedStep_unfold _ _ (by rfl)] at h
  have hp : vertexPairs (smallWindow ℝ).graph.numVertices.toNat = [] := by decide
  have he : (smallWindow ℝ).graph.edges = [] := rfl
  simp only [hp, he, List.flatMap_nil, accumulate, List.foldl_nil] at h
  simp only [smallWindow, engineWith, List.map_cons, List.map_nil, List.mem_singleton,
    forall_eq, updateVertex] at h
  norm_num at h

/-- C18. `step()` is a function of the pre-step positions only, with the
phase order of the specification: on every engine state (one vertex record per
graph vertex, edge endpoints being vertex ids) the state after `step()` is
`stepSpec`, in which vertex `k` ends at `clamp(p_k + damping * F_k)` with
velocity `damping * F_k`, `F_k` being the sum of all repulsion terms over the
pairs and of all attraction terms over the entries of `edgeList`, evaluated on
the positions held before the step; the result does not depend on the
velocities held before the call; and the fused damp/integrate/clamp loop of
`updatePositions` equals doing the three phases over all vertices in turn. -/
theorem step_refines_spec {F : Type} [LinearOrderedField F] (sqrt : F → F)
    (s : GraphVisualizerRaylib F) (hwf : EngineWF s) :
    applyForceDirectedStep sqrt s = stepSpec sqrt s ∧
      (∀ k v, s.vertices[k]? = some v →
        (applyForceDirectedStep sqrt s).vertices[k]? = some
          ({ x := clampCoord s.vertexRadius s.windowWidth
              (v.x + s.damping * (netForce sqrt s k).1)
             y := clampCoord s.vertexRadius s.windowHeight
              (v.y + s.damping * (netForce sqrt s k).2)
             vx := s.damping * (netForce sqrt s k).1
             vy := s.damping * (netForce sqrt s k).2 } : VertexRaylib F)) ∧
      (∀ vs : List (VertexRaylib F),
        vs.map (fun v => (v.x, v.y)) = s.vertices.map (fun v => (v.x, v.y)) →
        applyForceDirectedStep sqrt { s with vertices := vs }
          = applyForceDirectedStep sqrt s) ∧
      updatePositions s = clampPhase (integratePhase (dampPhase s)) := by
  refine ⟨applyForceDirectedStep_eq_stepSpec sqrt s hwf, ?_,
    fun vs hvs => step_ignores_velocities sqrt s hwf.size vs hvs,
    updatePositions_eq_phases s hwf.size⟩
  intro k v hv
  rw [applyForceDirectedStep_eq_stepSpec sqrt s hwf]
  simp only [stepSpec, List.getElem?_mapIdx, hv, Option.map_some']

theorem step_refines_spec_witness :
    EngineWF (twoBody ℝ) ∧
      applyForceDirectedStep Real.sqrt (twoBody ℝ) = stepSpec Real.sqrt (twoBody ℝ) ∧
      (∀ k v, (twoBody ℝ).vertices[k]? = some v →
        (applyForceDirectedStep Real.sqrt (twoBody ℝ)).vertices[k]? = some
          ({ x := clampCoord (twoBody ℝ).vertexRadius (twoBody ℝ).windowWidth
              (v.x + (twoBody ℝ).damping * (netForce Real.sqrt (twoBody ℝ) k).1)
             y := clampCoord (twoBody ℝ).vertexRadius (twoBody ℝ).windowHeight
              (v.y + (twoBody ℝ).damping * (netForce Real.sqrt (twoBody ℝ) k).2)
             vx := (twoBody ℝ).damping * (netForce Real.sqrt (twoBody ℝ) k).1
             vy := (twoBody ℝ).damping * (netForce Real.sqrt (twoBody ℝ) k).2 } :
            VertexRaylib ℝ)) ∧
      (∀ vs : List (VertexRaylib ℝ),
        vs.map (fun v => (v.x, v.y)) = (twoBody ℝ).vertices.map (fun v => (v.x, v.y)) →
        applyForceDirectedStep Real.sqrt { twoBody ℝ with vertices := vs }
          = applyForceDirectedStep Real.sqrt (twoBody ℝ)) ∧
      updatePositions (twoBody ℝ)
        = clampPhase (integratePhase (dampPhase (twoBody ℝ))) :=
  ⟨twoBody_wf ℝ, step_refines_spec Real.sqrt (twoBody ℝ) (twoBody_wf ℝ)⟩

/-- C19 (amended). Two-body forces: when vertex `i` and vertex `j` stand at
distance `d >= 1`, the attraction term that `calculateAttraction(i, j)` adds to
the velocity of `i` is `attractionForce * (d - optimalDistance) / d` times the
vector from `i` to `j`; it has magnitude `|attractionForce * (d -
optimalDistance)|` and, for `attractionForce > 0`, points toward `j` when
`d > optimalDistance`.  The repulsion term that `calculateRepulsion(i, j)` adds
is `repulsionForce / d^3` times the vector from `j` to `i`; it has magnitude
`|repulsionForce| / d^2`, which is `repulsionForce / d^2` for
`repulsionForce >= 0`, and points away from `j` for `repulsionForce > 0`.  For
`d = 300`, `optimalDistance = 150`, `attractionForce = 0.01` the magnitudes
are `1.5` and `|repulsionForce| / 90000`. -/
theorem two_body_forces (s : GraphVisualizerRaylib ℝ) (i j : Int) (d : ℝ)
    (hi0 : 0 ≤ i) (hi : i.toNat < s.vertices.length)
    (hd : distanceBetween Real.sqrt (positionAt s.vertices i) (positionAt s.vertices j) = d)
    (hd1 : 1 ≤ d) :
    velocityGain (vertexAt s.vertices i)
          (vertexAt (calculateAttraction Real.sqrt s i j).vertices i)
        = (s.attractionForce * (d - s.optimalDistance) / d
              * ((positionAt s.vertices j).1 - (positionAt s.vertices i).1),
            s.attractionForce * (d - s.optimalDistance) / d
              * ((positionAt s.vertices j).2 - (positionAt s.vertices i).2)) ∧
      magnitude Real.sqrt (velocityGain (vertexAt s.vertices i)
          (vertexAt (calculateAttraction Real.sqrt s i j).vertices i))
        = |s.attractionForce * (d - s.optimalDistance)| ∧
      (0 < s.attractionForce → s.optimalDistance < d →
        0 < s.attractionForce * (d - s.optimalDistance) / d) ∧
      velocityGain (vertexAt s.vertices i)
          (vertexAt (calculateRepulsion Real.sqrt s i j).vertices i)
        = (s.repulsionForce / d ^ 3
              * ((positionAt s.vertices i).1 - (positionAt s.vertices j).1),
            s.repulsionForce / d ^ 3
              * ((positionAt s.vertices i).2 - (positionAt s.vertices j).2)) ∧
      magnitude Real.sqrt (velocityGain (vertexAt s.vertices i)
          (vertexAt (calculateRepulsion Real.sqrt s i j).vertices i))
        = |s.repulsionForce| / d ^ 2 ∧
      (0 ≤ s.repulsionForce →
        magnitude Real.sqrt (velocityGain (vertexAt s.vertices i)
            (vertexAt (calculateRepulsion Real.sqrt s i j).vertices i))
          = s.repulsionForce / d ^ 2) ∧
      (0 < s.repulsionForce → 0 < s.repulsionForce / d ^ 3) ∧
      (d = 300 → s.optimalDistance = 150 → s.attractionForce = 1 / 100 →
        magnitude Real.sqrt (velocityGain (vertexAt s.vertices i)
            (vertexAt (calculateAttraction Real.sqrt s i j).vertices i)) = 3 / 2 ∧
        magnitude Real.sqrt (velocityGain (vertexAt s.vertices i)
            (vertexAt (calculateRepulsion Real.sqrt s i j).vertices i))
          = |s.repulsionForce| / 90000) := by
  have hdpos : 0 < d := by linarith
  have ha := attractionTerm_real s.attractionForce s.optimalDistance _ _ d hd hd1
  have hr := repulsionTerm_real s.repulsionForce _ _ d hd hd1
  rw [attraction_gain Real.sqrt s i j hi, repulsion_gain Real.sqrt s i j hi]
  refine ⟨ha.1, ha.2, ?_, hr.1, hr.2, ?_, ?_, ?_⟩
  · intro h1 h2
    have : 0 < d - s.optimalDistance := by linarith
    positivity
  · intro h
    rw [hr.2, abs_of_nonneg h]
  · intro h
    positivity
  · intro h1 h2 h3
    rw [ha.2, hr.2, h1, h2, h3]
    constructor
    · rw [abs_of_pos (by norm_num)]; norm_num
    · norm_num

theorem two_body_forces_witness :
    (0 : Int) ≤ 0 ∧ (0 : Int).toNat < (twoBody ℝ).vertices.length ∧
      distanceBetween Real.sqrt (positionAt (twoBody ℝ).vertices 0)
        (positionAt (twoBody ℝ).vertices 1) = 300 ∧
      (1 : ℝ) ≤ 300 ∧
      magnitude Real.sqrt (velocityGain (vertexAt (twoBody ℝ).vertices 0)
          (vertexAt (calculateAttraction Real.sqrt (twoBody ℝ) 0 1).vertices 0))
        = |(twoBody ℝ).attractionForce * (300 - (twoBody ℝ).optimalDistance)| ∧
      magnitude Real.sqrt (velocityGain (vertexAt (twoBody ℝ).vertices 0)
          (vertexAt (calculateRepulsion Real.sqrt (twoBody ℝ) 0 1).vertices 0))
        = |(twoBody ℝ).repulsionForce| / 300 ^ 2 :=
  ⟨by decide, by decide, twoBody_distance, by norm_num,
    (two_body_forces (twoBody ℝ) 0 1 300 (by decide) (by decide) twoBody_distance
      (by norm_num)).2.1,
    (two_body_forces (twoBody ℝ) 0 1 300 (by decide) (by decide) twoBody_distance
      (by norm_num)).2.2.2.2.1⟩

theorem two_body_forces_counterexample :
    distanceBetween Real.sqrt
        (positionAt (setRepulsionForce (twoBody ℝ) (-50000)).vertices 0)
        (positionAt (setRepulsionForce (twoBody ℝ) (-50000)).vertices 1) = 300 ∧
      ¬ (magnitude Real.sqrt
          (velocityGain (vertexAt (setRepulsionForce (twoBody ℝ) (-50000)).vertices 0)
            (vertexAt (calculateRepulsion Real.sqrt
              (setRepulsionForce (twoBody ℝ) (-50000)) 0 1).vertices 0))
        = (setRepulsionForce (twoBody ℝ) (-50000)).repulsionForce / 300 ^ 2) ∧
      0 < (velocityGain (vertexAt (setRepulsionForce (twoBody ℝ) (-50000)).vertices 0)
            (vertexAt (calculateRepulsion Real.sqrt
              (setRepulsionForce (twoBody ℝ) (-50000)) 0 1).vertices 0)).1 ∧
      (setAttractionForce (twoBody ℝ) (-1 / 100)).optimalDistance < 300 ∧
      (velocityGain (vertexAt (setAttractionForce (twoBody ℝ) (-1 / 100)).vertices 0)
            (vertexAt (calculateAttraction Real.sqrt
              (setAttractionForce (twoBody ℝ) (-1 / 100)) 0 1).vertices 0)).1 < 0 := by
  have hd : distanceBetween Real.sqrt
      (positionAt (setRepulsionForce (twoBody ℝ) (-50000)).vertices 0)
      (positionAt (setRepulsionForce (twoBody ℝ) (-50000)).vertices 1) = 300 :=
    twoBody_distance
  have hd' : distanceBetween Real.sqrt
      (positionAt (setAttractionForce (twoBody ℝ) (-1 / 100)).vertices 0)
      (positionAt (setAttractionForce (twoBody ℝ) (-1 / 100)).vertices 1) = 300 :=
    twoBody_distance
  have hr := repulsionTerm_real (-50000) _ _ 300 hd (by norm_num)
  have ha := attractionTerm_real (-1 / 100) 150 _ _ 300 hd' (by norm_num)
  have hg := repulsion_gain Real.sqrt (setRepulsionForce (twoBody ℝ) (-50000)) 0 1
    (by decide)
  have hga := attraction_gain Real.sqrt (setAttractionForce (twoBody ℝ) (-1 / 100)) 0 1
    (by decide)
  have hR : (setRepulsionForce (twoBody ℝ) (-50000)).repulsionForce = -50000 := rfl
  have hA : (setAttractionForce (twoBody ℝ) (-1 / 100)).attractionForce = -1 / 100 := rfl
  have hO : (setAttractionForce (twoBody ℝ) (-1 / 100)).optimalDistance = 150 := rfl
  rw [hR] at hg
  rw [hA, hO] at hga
  refine ⟨hd, ?_, ?_, ?_, ?_⟩
  · rw [hg, hr.2, hR]
    norm_num
  · rw [hg, hr.1]
    simp only [positionAt, vertexAt, setRepulsionForce, twoBody, engineWith]
    norm_num
  · rw [hO]; norm_num
  · rw [hga, ha.1]
    simp only [positionAt, vertexAt, setAttractionForce, twoBody, engineWith]
    norm_num

/-! ## Degrees, traversal refinements and the geometry of the layout -/

theorem sum_length_modify (x : Int) (l : List (List Int)) (k : Nat) (hk : k < l.length) :
    ((List.modify (· ++ [x]) k l).map List.length).sum = (l.map List.length).sum + 1 := by
  induction l generalizing k with
  | nil => simp at hk
  | cons row rest ih =>
    cases k with
    | zero => simp [List.modify]; omega
    | succ k =>
      simp only [List.length_cons, Nat.succ_lt_succ_iff] at hk
      simp only [List.modify_succ_cons, List.map_cons, List.sum_cons, ih k hk]
      omega

theorem degreeSum_addEdge (g : Graph) (u v : Int)
    (hsize : g.adjList.length = g.numVertices.toNat)
    (h : (g.adjList.map List.length).sum = 2 * g.edges.length) :
    ((addEdge g u v).adjList.map List.length).sum = 2 * (addEdge g u v).edges.length := by
  unfold addEdge
  split
  · exact h
  · rename_i hcond
    split
    · have hu : u.toNat < g.adjList.length := by omega
      have hv : v.toNat < (List.modify (· ++ [v]) u.toNat g.adjList).length := by
        rw [List.length_modify]; omega
      simp only [List.length_append, List.length_singleton]
      rw [sum_length_modify u _ _ hv, sum_length_modify v _ _ hu, h]
      omega
    · exact h

theorem degreeSum_foldl (calls : List (Int × Int)) (g : Graph)
    (hsize : g.adjList.length = g.numVertices.toNat)
    (h : (g.adjList.map List.length).sum = 2 * g.edges.length) :
    ((calls.foldl (fun g c => addEdge g c.1 c.2) g).adjList.map List.length).sum
      = 2 * (calls.foldl (fun g c => addEdge g c.1 c.2) g).edges.length := by
  induction calls generalizing g with
  | nil => exact h
  | cons c rest ih =>
    refine ih (addEdge g c.1 c.2) ?_ (degreeSum_addEdge g c.1 c.2 hsize h)
    rw [addEdge_length, addEdge_numVertices]; exact hsize

theorem degreeSum_buildGraph (n : Int) (calls : List (Int × Int)) :
    (((buildGraph n calls).adjList.map List.length).sum)
      = 2 * (buildGraph n calls).edges.length := by
  refine degreeSum_foldl calls (Graph.Graph n) (by simp [Graph.Graph]) ?_
  simp [Graph.Graph]

theorem map_getD_range {α β : Type} (f : α → β) (d : α) (l : List α) :
    (List.range l.length).map (fun (i : Nat) => f (l.getD i d)) = l.map f := by
  apply List.ext_getElem
  · simp
  · intro i h1 h2
    simp only [List.length_map, List.length_range] at h1
    simp [List.getD_eq_getElem?_getD, List.getElem?_eq_getElem h1]

/-- C25. Self-loop double-counts degree: for every reachable graph and valid
`u` of `[0, n)` with `u` not already in `adjacency[u]`, `addEdge(u, u)` appends
`u` to `adjacency[u]` twice, so `degree(u)` increases by exactly 2, while
`edgeList` gains exactly the one entry `(u, u)` and no other adjacency list
changes.  The new row length is taken to be representable in the `int`
return type of `getDegree`. -/
theorem selfLoop_degree (n : Int) (calls : List (Int × Int)) (u : Int) (hn : 0 ≤ n)
    (hu0 : 0 ≤ u) (hu : u < n)
    (hnew : u ∉ getAdjList (buildGraph n calls) u)
    (hfit : (getAdjList (buildGraph n calls) u).length + 2 < 2147483648) :
    getAdjList (addEdge (buildGraph n calls) u u) u
        = getAdjList (buildGraph n calls) u ++ [u, u] ∧
      getDegree (addEdge (buildGraph n calls) u u) u
        = getDegree (buildGraph n calls) u + 2 ∧
      (addEdge (buildGraph n calls) u u).edges = (buildGraph n calls).edges ++ [(u, u)] ∧
      (∀ a, 0 ≤ a → a ≠ u →
        getAdjList (addEdge (buildGraph n calls) u u) a = getAdjList (buildGraph n calls) a) := by
  have hinv := graphInv_buildGraph n calls hn
  have hnv := buildGraph_numVertices n calls
  have hu' : u < (buildGraph n calls).numVertices := by rw [hnv]; exact hu
  have hrow : ∀ a, 0 ≤ a → getAdjList (addEdge (buildGraph n calls) u u) a
      = getAdjList (buildGraph n calls) a ++ (if a = u then [u] else [])
          ++ (if a = u then [u] else []) := fun a ha =>
    getAdjList_addEdge_new (buildGraph n calls) u u a hinv.size hu0 hu' hu0 hu' hnew ha
  have hself : getAdjList (addEdge (buildGraph n calls) u u) u
      = getAdjList (buildGraph n calls) u ++ [u, u] := by
    rw [hrow u hu0]; simp
  refine ⟨hself, ?_, addEdge_edges_new _ u u hu0 hu' hu0 hu' hnew, ?_⟩
  · have hc1 : ¬ (u < 0 ∨ u ≥ (addEdge (buildGraph n calls) u u).numVertices) := by
      rw [addEdge_numVertices]; omega
    have hc2 : ¬ (u < 0 ∨ u ≥ (buildGraph n calls).numVertices) := by omega
    simp only [getDegree, hc1, hc2, if_false, hself]
    rw [toInt32_of_fits _ (by omega) (by simp; omega), toInt32_of_fits _ (by omega) (by omega)]
    simp
  · intro a ha hne
    rw [hrow a ha]; simp [hne]

theorem selfLoop_degree_witness :
    (1 : Int) ∉ getAdjList (buildGraph 3 [(0, 1), (1, 2)]) 1 ∧
      getAdjList (addEdge (buildGraph 3 [(0, 1), (1, 2)]) 1 1) 1
        = getAdjList (buildGraph 3 [(0, 1), (1, 2)]) 1 ++ [1, 1] ∧
      getDegree (addEdge (buildGraph 3 [(0, 1), (1, 2)]) 1 1) 1
        = getDegree (buildGraph 3 [(0, 1), (1, 2)]) 1 + 2 ∧
      (addEdge (buildGraph 3 [(0, 1), (1, 2)]) 1 1).edges
        = (buildGraph 3 [(0, 1), (1, 2)]).edges ++ [(1, 1)] ∧
      (∀ a, 0 ≤ a → a ≠ 1 →
        getAdjList (addEdge (buildGraph 3 [(0, 1), (1, 2)]) 1 1) a
          = getAdjList (buildGraph 3 [(0, 1), (1, 2)]) a) :=
  ⟨by decide,
    selfLoop_degree 3 [(0, 1), (1, 2)] 1 (by decide) (by decide) (by decide) (by decide)
      (by decide)⟩

/-- C26. Handshake invariant: in every graph reachable from `Graph(n)` by
`addEdge` calls (self-loops included), the sum of `degree(v)` over all `v` of
`[0, n)` equals exactly `2 * (length of edgeList)`.  Every row length is taken
to be representable in the `int` return type of `getDegree`. -/
theorem handshake_invariant (n : Int) (calls : List (Int × Int)) (hn : 0 ≤ n)
    (hfit : ∀ v : Nat, v < n.toNat →
      (getAdjList (buildGraph n calls) v).length < 2147483648) :
    ((List.range n.toNat).map (fun (v : Nat) => getDegree (buildGraph n calls) v)).sum
      = 2 * ((buildGraph n calls).edges.length : Int) := by
  have hinv := graphInv_buildGraph n calls hn
  have hnv := buildGraph_numVertices n calls
  have hsum := degreeSum_buildGraph n calls
  have hdeg : ∀ v ∈ List.range n.toNat,
      getDegree (buildGraph n calls) (v : Nat)
        = (((buildGraph n calls).adjList.getD v []).length : Int) := by
    intro v hv
    have hv' : v < n.toNat := List.mem_range.mp hv
    have hc : ¬ ((v : Int) < 0 ∨ (v : Int) ≥ (buildGraph n calls).numVertices) := by
      rw [hnv]; omega
    have hf := hfit v hv'
    simp only [getDegree, hc, if_false]
    simp only [getAdjList, Int.toNat_ofNat] at hf ⊢
    exact toInt32_of_fits _ (by omega) (by omega)
  rw [List.map_congr_left hdeg]
  have hlen : n.toNat = (buildGraph n calls).adjList.length := by rw [hinv.size, hnv]
  have h2 := map_getD_range (fun (row : List Int) => (row.length : Int)) []
    (buildGraph n calls).adjList
  rw [hlen, h2]
  have h3 : ((buildGraph n calls).adjList.map (fun (row : List Int) => (row.length : Int))).sum
      = (((buildGraph n calls).adjList.map List.length).sum : Nat) := by
    generalize (buildGraph n calls).adjList = l
    induction l with
    | nil => simp
    | cons a rest ih => simp [ih]
  rw [h3, hsum]; push_cast; ring

theorem handshake_invariant_witness :
    (0 : Int) ≤ 3 ∧
      (∀ v : Nat, v < (3 : Int).toNat →
        (getAdjList (buildGraph 3 [(0, 1), (1, 1), (1, 2)]) v).length < 2147483648) ∧
      ((List.range (3 : Int).toNat).map
          (fun (v : Nat) => getDegree (buildGraph 3 [(0, 1), (1, 1), (1, 2)]) v)).sum
        = 2 * ((buildGraph 3 [(0, 1), (1, 1), (1, 2)]).edges.length : Int) :=
  ⟨by decide, by decide,
    handshake_invariant 3 [(0, 1), (1, 1), (1, 2)] (by decide) (by decide)⟩

theorem agreeOff_set {D : Int → Prop} {va vb : List Bool} (h : AgreeOff D va vb) (k : Nat) :
    AgreeOff D (va.set k true) (vb.set k true) := by
  refine ⟨by simp [h.1], ?_⟩
  intro v hv hD
  rw [List.getElem?_set, List.getElem?_set, h.1, h.2 v hv hD]

theorem visitNeighbors_agree (D : Int → Prop) (nbrs : List Int) :
    ∀ (va vb : List Bool) (queue : List Int) (va1 : List Bool) (queue1 : List Int),
      AgreeOff D va vb → (∀ w ∈ nbrs, ¬ D w) →
      visitNeighbors nbrs va queue = some (va1, queue1) →
      ∃ vb1, visitNeighbors nbrs vb queue = some (vb1, queue1) ∧ AgreeOff D va1 vb1 ∧
        ∀ x ∈ queue1, x ∈ queue ∨ x ∈ nbrs := by
  induction nbrs with
  | nil =>
    intro va vb queue va1 queue1 hag _ h
    simp only [visitNeighbors, Option.some.injEq, Prod.mk.injEq] at h
    obtain ⟨rfl, rfl⟩ := h
    exact ⟨vb, rfl, hag, fun x hx => Or.inl hx⟩
  | cons w rest ih =>
    intro va vb queue va1 queue1 hag hD h
    have hw : ¬ D w := hD w (List.mem_cons_self _ _)
    have hrest : ∀ x ∈ rest, ¬ D x := fun x hx => hD x (List.mem_cons_of_mem _ hx)
    by_cases hneg : w < 0
    · simp [visitNeighbors, hneg] at h
    · have hsame := hag.2 w (by omega) hw
      simp only [visitNeighbors, hneg, if_false] at h ⊢
      rw [← hsame]
      cases hget : va[w.toNat]? with
      | none => rw [hget] at h; simp at h
      | some b =>
        rw [hget] at h
        cases b with
        | true =>
          simp only at h ⊢
          obtain ⟨vb1, e1, e2, e3⟩ := ih va vb queue va1 queue1 hag hrest h
          exact ⟨vb1, e1, e2, fun x hx => (e3 x hx).imp id (List.mem_cons_of_mem _)⟩
        | false =>
          simp only at h ⊢
          obtain ⟨vb1, e1, e2, e3⟩ :=
            ih _ _ _ va1 queue1 (agreeOff_set hag w.toNat) hrest h
          refine ⟨vb1, e1, e2, fun x hx => ?_⟩
          rcases e3 x hx with h1 | h1
          · rcases List.mem_append.mp h1 with h2 | h2
            · exact Or.inl h2
            · simp only [List.mem_singleton] at h2
              subst h2; exact Or.inr (List.mem_cons_self _ _)
          · exact Or.inr (List.mem_cons_of_mem _ h1)

theorem bfsLoop_agree (adjList : List (List Int)) (D : Int → Prop)
    (hD : ∀ x w, AdjStep adjList x w → D w → D x) :
    ∀ (fuel : Nat) (result : List Int) (va vb : List Bool) (queue : List Int)
      (out : List Int) (va1 : List Bool),
      AgreeOff D va vb → (∀ q ∈ queue, ¬ D q) →
      bfsLoop adjList fuel result va queue = some (out, va1) →
      ∃ vb1, bfsLoop adjList fuel result vb queue = some (out, vb1) := by
  intro fuel
  induction fuel with
  | zero =>
    intro result va vb queue out va1 hag hq h
    cases queue with
    | nil =>
      simp only [bfsLoop, Option.some.injEq, Prod.mk.injEq] at h
      exact ⟨vb, by simp [bfsLoop, h.1]⟩
    | cons x xs => simp [bfsLoop] at h
  | succ fuel ih =>
    intro result va vb queue out va1 hag hq h
    cases queue with
    | nil =>
      simp only [bfsLoop, Option.some.injEq, Prod.mk.injEq] at h
      exact ⟨vb, by simp [bfsLoop, h.1]⟩
    | cons x xs =>
      have hx : ¬ D x := hq x (List.mem_cons_self _ _)
      by_cases hneg : x < 0
      · simp [bfsLoop, hneg] at h
      · simp only [bfsLoop, hneg, if_false] at h ⊢
        cases hrow : adjList[x.toNat]? with
        | none => rw [hrow] at h; simp at h
        | some row =>
          rw [hrow] at h
          simp only at h ⊢
          have hrowD : ∀ w ∈ row, ¬ D w := fun w hw hDw =>
            hx (hD x w ⟨by omega, row, hrow, hw⟩ hDw)
          cases hvn : visitNeighbors row va xs with
          | none => rw [hvn] at h; simp at h
          | some p =>
            obtain ⟨va2, q2⟩ := p
            rw [hvn] at h
            simp only at h
            obtain ⟨vb2, e1, e2, e3⟩ := visitNeighbors_agree D row va vb xs va2 q2 hag hrowD hvn
            rw [e1]
            simp only
            refine ih _ va2 vb2 q2 out va1 e2 ?_ h
            intro q hq2
            rcases e3 q hq2 with h1 | h1
            · exact hq q (List.mem_cons_of_mem _ h1)
            · exact hrowD q h1

theorem bfsLoop_result_extends (adjList : List (List Int)) :
    ∀ (fuel : Nat) (result : List Int) (vis : List Bool) (queue : List Int)
      (out : List Int) (vis1 : List Bool),
      bfsLoop adjList fuel result vis queue = some (out, vis1) → ∃ t, out = result ++ t := by
  intro fuel
  induction fuel with
  | zero =>
    intro result vis queue out vis1 h
    cases queue with
    | nil =>
      simp only [bfsLoop, Option.some.injEq, Prod.mk.injEq] at h
      exact ⟨[], by rw [h.1]; simp⟩
    | cons x xs => simp [bfsLoop] at h
  | succ fuel ih =>
    intro result vis queue out vis1 h
    cases queue with
    | nil =>
      simp only [bfsLoop, Option.some.injEq, Prod.mk.injEq] at h
      exact ⟨[], by rw [h.1]; simp⟩
    | cons x xs =>
      by_cases hneg : x < 0
      · simp [bfsLoop, hneg] at h
      · simp only [bfsLoop, hneg, if_false] at h
        cases hrow : adjList[x.toNat]? with
        | none => rw [hrow] at h; simp at h
        | some row =>
          rw [hrow] at h
          simp only at h
          cases hvn : visitNeighbors row vis xs with
          | none => rw [hvn] at h; simp at h
          | some p =>
            obtain ⟨va2, q2⟩ := p
            rw [hvn] at h
            simp only at h
            obtain ⟨t, ht⟩ := ih _ _ _ _ _ h
            exact ⟨[x] ++ t, by rw [ht]; simp⟩

theorem bfsLoop_seed_head (adjList : List (List Int)) (fuel : Nat) (vis : List Bool) (i : Int)
    (out : List Int) (vis1 : List Bool)
    (h : bfsLoop adjList fuel [] vis [i] = some (out, vis1)) : ∃ t, out = i :: t := by
  cases fuel with
  | zero => simp [bfsLoop] at h
  | succ fuel =>
    by_cases hneg : i < 0
    · simp [bfsLoop, hneg] at h
    · simp only [bfsLoop, hneg, if_false] at h
      cases hrow : adjList[i.toNat]? with
      | none => rw [hrow] at h; simp at h
      | some row =>
        rw [hrow] at h
        simp only at h
        cases hvn : visitNeighbors row vis [] with
        | none => rw [hvn] at h; simp at h
        | some p =>
          obtain ⟨va2, q2⟩ := p
          rw [hvn] at h
          simp only at h
          obtain ⟨t, ht⟩ := bfsLoop_result_extends _ _ _ _ _ _ _ h
          exact ⟨t, by rw [ht]; simp⟩

theorem componentsLoop_bfs {adjList : List (List Int)} {n : Nat} (hwf : AdjWF adjList n)
    (hsymm : ∀ a b, AdjStep adjList a b → AdjStep adjList b a)
    (fuel : Nat) (hfuel : n ≤ fuel) :
    ∀ (k i : Nat) (comps : List (List Int)) (vis : List Bool),
      i + k = n → CompInv adjList n (i : Int) comps vis →
      (∀ c ∈ comps, ∃ s t, c = s :: t ∧ 0 ≤ s ∧ s.toNat < n ∧
        (bfsLoop adjList fuel [] ((List.replicate n false).set s.toNat true) [s]).map Prod.fst
          = some c) →
      ∃ comps1,
        componentsLoop adjList fuel ((List.range' i k).map Int.ofNat) comps vis = some comps1 ∧
        ∀ c ∈ comps1, ∃ s t, c = s :: t ∧ 0 ≤ s ∧ s.toNat < n ∧
          (bfsLoop adjList fuel [] ((List.replicate n false).set s.toNat true) [s]).map Prod.fst
            = some c := by
  intro k
  induction k with
  | zero =>
    intro i comps vis hik h hP
    exact ⟨comps, by simp [componentsLoop], hP⟩
  | succ k ih =>
    intro i comps vis hik h hP
    have hin : i < n := by omega
    have hlt : i < vis.length := by rw [h.len]; exact hin
    have hneg : ¬ ((i : Int) < 0) := by omega
    have hcast : ((i : Nat) : Int) + 1 = ((i + 1 : Nat) : Int) := by push_cast; rfl
    rw [List.range'_succ, List.map_cons]
    simp only [componentsLoop, Int.ofNat_eq_coe, hneg, if_false, Int.toNat_ofNat]
    cases hb : vis[i] with
    | true =>
      have hm : Marked vis (i : Int) :=
        ⟨by omega, by rw [Int.toNat_ofNat, List.getElem?_eq_getElem hlt, hb]⟩
      have h1 := compInv_skip h hm
      rw [hcast] at h1
      rw [List.getElem?_eq_getElem hlt, hb]
      exact ih (i + 1) comps vis (by omega) h1 hP
    | false =>
      have hnm : ¬ Marked vis (i : Int) := by
        rintro ⟨_, hm⟩
        rw [Int.toNat_ofNat, List.getElem?_eq_getElem hlt, hb] at hm
        cases hm
      obtain ⟨out, vis1, e1, e2⟩ :=
        compInv_step hwf hsymm h (by omega) (by rw [Int.toNat_ofNat]; exact hin) hnm fuel hfuel
      rw [Int.toNat_ofNat] at e1
      rw [hcast] at e2
      rw [List.getElem?_eq_getElem hlt, hb]
      simp only [e1]
      refine ih (i + 1) (comps ++ [out]) vis1 (by omega) e2 ?_
      intro c hc
      rcases List.mem_append.mp hc with hc | hc
      · exact hP c hc
      · simp only [List.mem_singleton] at hc
        subst hc
        obtain ⟨t, ht⟩ := bfsLoop_seed_head _ _ _ _ _ _ e1
        have hag : AgreeOff (Marked vis) (vis.set i true)
            ((List.replicate n false).set i true) := by
          refine ⟨by simp [h.len], ?_⟩
          intro v hv hD
          rw [List.getElem?_set, List.getElem?_set, h.len, List.length_replicate]
          by_cases hiv : i = v.toNat
          · simp [hiv]
          · simp only [hiv, if_false]
            rw [List.getElem?_replicate]
            by_cases hvn : v.toNat < n
            · have hvl : v.toNat < vis.length := by rw [h.len]; exact hvn
              rw [if_pos hvn]
              cases hbv : vis[v.toNat]? with
              | none => exact absurd (List.getElem?_eq_none_iff.mp hbv) (by omega)
              | some b =>
                cases b with
                | false => rfl
                | true => exact absurd ⟨hv, hbv⟩ hD
            · rw [if_neg hvn]
              exact List.getElem?_eq_none_iff.mpr (by rw [h.len]; omega)
        obtain ⟨vb1, e3⟩ := bfsLoop_agree adjList (Marked vis)
          (fun x w hs hw => h.closed w x hw (hsymm x w hs)) fuel [] _ _ [(i : Int)] c vis1 hag
          (by
            intro q hq
            simp only [List.mem_singleton] at hq
            subst hq; exact hnm) e1
        refine ⟨(i : Int), t, ht, by omega, by rw [Int.toNat_ofNat]; exact hin, ?_⟩
        rw [Int.toNat_ofNat, e3]; rfl

/-- C24. Each component is a BFS result: for every reachable graph,
`getConnectedComponents()` returns (fuel `n` suffices) and every list `c` of
its result is non-empty and equals, as a sequence, `breadthFirstSearch(s)` for
its first element `s`: the inlined per-component search over the shared
`visited` array agrees with the stand-alone search over a fresh array. -/
theorem components_are_bfs (n : Int) (calls : List (Int × Int)) (fuel : Nat)
    (hn : 0 ≤ n) (hfuel : n.toNat ≤ fuel) :
    ∃ comps, getConnectedComponents fuel (buildGraph n calls) = some comps ∧
      ∀ c ∈ comps, ∃ s t, c = s :: t ∧
        breadthFirstSearch fuel (buildGraph n calls) s = some c := by
  have hinv := graphInv_buildGraph n calls hn
  have hnv := buildGraph_numVertices n calls
  have hinit := compInv_init (buildGraph n calls).adjList (buildGraph n calls).numVertices.toNat
  obtain ⟨comps, e1, e2⟩ :=
    componentsLoop_bfs hinv.adjWF hinv.adjStep_symm fuel (by rw [hnv]; exact hfuel)
      (buildGraph n calls).numVertices.toNat 0 []
      (List.replicate (buildGraph n calls).numVertices.toNat false) (by omega)
      hinit (by simp)
  refine ⟨comps, ?_, ?_⟩
  · unfold getConnectedComponents
    rw [List.range_eq_range']
    exact e1
  · intro c hc
    obtain ⟨s, t, hst, hs0, hsn, hb⟩ := e2 c hc
    refine ⟨s, t, hst, ?_⟩
    unfold breadthFirstSearch
    have hcond : ¬ (s < 0 ∨
        s ≥ ((List.replicate (buildGraph n calls).numVertices.toNat false).length : Int)) := by
      rw [List.length_replicate]; omega
    simp only [hcond, if_false]
    exact hb

theorem components_are_bfs_witness :
    (0 : Int) ≤ 5 ∧ (5 : Int).toNat ≤ 5 ∧
      ∃ comps, getConnectedComponents 5 (buildGraph 5 [(3, 1), (0, 4), (4, 2)]) = some comps ∧
        ∀ c ∈ comps, ∃ s t, c = s :: t ∧
          breadthFirstSearch 5 (buildGraph 5 [(3, 1), (0, 4), (4, 2)]) s = some c :=
  ⟨by decide, by decide,
    components_are_bfs 5 [(3, 1), (0, 4), (4, 2)] 5 (by decide) (by decide)⟩

theorem dfsRuns_nil (adjList : List (List Int)) (st : List Int × List Bool) :
    DfsRuns adjList [] st st := ⟨0, by simp [dfsLoop]⟩

theorem dfsRuns_skip (adjList : List (List Int)) (x : Int) (ys : List Int)
    (st r : List Int × List Bool) (hx : 0 ≤ x) (hv : st.2[x.toNat]? = some true)
    (h : DfsRuns adjList ys st r) : DfsRuns adjList (x :: ys) st r := by
  obtain ⟨fuel, hf⟩ := h
  refine ⟨fuel + 1, ?_⟩
  have hneg : ¬ x < 0 := by omega
  simp only [dfsLoop, hneg, if_false, hv]
  exact hf

theorem dfsRuns_visit (adjList : List (List Int)) (x : Int) (ys : List Int)
    (st r : List Int × List Bool) (row stack1 : List Int)
    (hx : 0 ≤ x) (hv : st.2[x.toNat]? = some false) (hrow : adjList[x.toNat]? = some row)
    (hp : pushNeighbors row.reverse (st.2.set x.toNat true) ys = some stack1)
    (h : DfsRuns adjList stack1 (st.1 ++ [x], st.2.set x.toNat true) r) :
    DfsRuns adjList (x :: ys) st r := by
  obtain ⟨fuel, hf⟩ := h
  refine ⟨fuel + 1, ?_⟩
  have hneg : ¬ x < 0 := by omega
  simp only [dfsLoop, hneg, if_false, hv, hrow, hp]
  exact hf

theorem pushNeighbors_eq (vis : List Bool) (nbrs : List Int) :
    ∀ (stack : List Int),
      (∀ w ∈ nbrs, 0 ≤ w ∧ w.toNat < vis.length) →
      pushNeighbors nbrs vis stack
        = some ((nbrs.filter (fun w => vis[w.toNat]? == some false)).reverse ++ stack) := by
  induction nbrs with
  | nil => intro stack _; simp [pushNeighbors]
  | cons w rest ih =>
    intro stack hr
    have hw := hr w (List.mem_cons_self _ _)
    have hrest : ∀ x ∈ rest, 0 ≤ x ∧ x.toNat < vis.length :=
      fun x hx => hr x (List.mem_cons_of_mem _ hx)
    have hneg : ¬ w < 0 := by omega
    simp only [pushNeighbors, hneg, if_false]
    rw [List.getElem?_eq_getElem hw.2]
    cases hb : vis[w.toNat] with
    | true =>
      simp only
      rw [ih stack hrest, List.filter_cons]
      simp [List.getElem?_eq_getElem hw.2, hb]
    | false =>
      simp only
      rw [ih (w :: stack) hrest, List.filter_cons]
      simp [List.getElem?_eq_getElem hw.2, hb]

theorem recursiveVisitRow_runs (adjList : List (List Int)) (n : Nat)
    (visit : Int → List Int × List Bool → Option (List Int × List Bool))
    (hvisit : ∀ (x : Int) (st st1 : List Int × List Bool), 0 ≤ x → st.2.length = n →
      st.2[x.toNat]? = some false → visit x st = some st1 →
      st1.2.length = n ∧ (∀ w, Marked st.2 w → Marked st1.2 w) ∧
        ∀ ys r, DfsRuns adjList ys st1 r → DfsRuns adjList (x :: ys) st r)
    (p : Int → Bool) (l : List Int) :
    ∀ (st st1 : List Int × List Bool), st.2.length = n →
      (∀ w ∈ l, p w = false → Marked st.2 w) →
      recursiveVisitRow visit l st = some st1 →
      st1.2.length = n ∧ (∀ w, Marked st.2 w → Marked st1.2 w) ∧
        ∀ ys r, DfsRuns adjList ys st1 r → DfsRuns adjList (l.filter p ++ ys) st r := by
  induction l with
  | nil =>
    intro st st1 hlen _ h
    simp only [recursiveVisitRow, Option.some.injEq] at h
    subst h
    exact ⟨hlen, fun w hw => hw, fun ys r hr => by simpa using hr⟩
  | cons w rest ih =>
    intro st st1 hlen hp h
    have hrest : ∀ x ∈ rest, p x = false → Marked st.2 x :=
      fun x hx => hp x (List.mem_cons_of_mem _ hx)
    by_cases hneg : w < 0
    · simp [recursiveVisitRow, hneg] at h
    · simp only [recursiveVisitRow, hneg, if_false] at h
      cases hget : st.2[w.toNat]? with
      | none => rw [hget] at h; simp at h
      | some b =>
        rw [hget] at h
        cases b with
        | true =>
          simp only at h
          obtain ⟨e1, e2, e3⟩ := ih st st1 hlen hrest h
          refine ⟨e1, e2, fun ys r hr => ?_⟩
          rw [List.filter_cons]
          cases hpw : p w with
          | true =>
            simp only [if_true, List.cons_append]
            exact dfsRuns_skip adjList w _ st r (by omega) hget (e3 ys r hr)
          | false =>
            simp only [Bool.false_eq_true, if_false]
            exact e3 ys r hr
        | false =>
          simp only at h
          have hpw : p w = true := by
            cases hpw : p w with
            | true => rfl
            | false =>
              have := (hp w (List.mem_cons_self _ _) hpw).2
              rw [hget] at this; cases this
          cases hvis : visit w st with
          | none => rw [hvis] at h; simp at h
          | some st2 =>
            rw [hvis] at h
            simp only at h
            obtain ⟨f1, f2, f3⟩ := hvisit w st st2 (by omega) hlen hget hvis
            obtain ⟨e1, e2, e3⟩ := ih st2 st1 f1 (fun x hx hpx => f2 x (hrest x hx hpx)) h
            refine ⟨e1, fun x hx => e2 x (f2 x hx), fun ys r hr => ?_⟩
            rw [List.filter_cons, hpw]
            simp only [if_true, List.cons_append]
            exact f3 _ r (e3 ys r hr)

theorem recursiveVisit_runs (adjList : List (List Int)) (n : Nat) (hwf : AdjWF adjList n) :
    ∀ (depth : Nat) (x : Int) (st st1 : List Int × List Bool), 0 ≤ x → st.2.length = n →
      st.2[x.toNat]? = some false → recursiveVisit adjList depth x st = some st1 →
      st1.2.length = n ∧ (∀ w, Marked st.2 w → Marked st1.2 w) ∧
        ∀ ys r, DfsRuns adjList ys st1 r → DfsRuns adjList (x :: ys) st r := by
  intro depth
  induction depth with
  | zero => intro x st st1 _ _ _ h; simp [recursiveVisit] at h
  | succ depth ih =>
    intro x st st1 hx hlen hget h
    have hneg : ¬ x < 0 := by omega
    simp only [recursiveVisit, hneg, if_false] at h
    cases hrow : adjList[x.toNat]? with
    | none => rw [hrow] at h; simp at h
    | some row =>
      rw [hrow] at h
      simp only at h
      have hxl : x.toNat < st.2.length := (List.getElem?_eq_some_iff.mp hget).1
      have hlen1 : (st.2.set x.toNat true).length = n := by simp [hlen]
      have hrange : ∀ w ∈ row, 0 ≤ w ∧ w.toNat < (st.2.set x.toNat true).length := by
        intro w hw
        rw [hlen1]
        exact hwf.range row (List.getElem?_mem hrow) w hw
      have hp : ∀ w ∈ row,
          ((st.2.set x.toNat true)[w.toNat]? == some false) = false →
          Marked (st.2.set x.toNat true) w := by
        intro w hw hpw
        have hr := hrange w hw
        refine ⟨hr.1, ?_⟩
        rw [List.getElem?_eq_getElem hr.2] at hpw ⊢
        cases hb : (st.2.set x.toNat true)[w.toNat] with
        | true => rfl
        | false => rw [hb] at hpw; simp at hpw
      obtain ⟨e1, e2, e3⟩ := recursiveVisitRow_runs adjList n (recursiveVisit adjList depth) ih
        (fun w => (st.2.set x.toNat true)[w.toNat]? == some false) row
        (st.1 ++ [x], st.2.set x.toNat true) st1 hlen1 hp h
      refine ⟨e1, fun w hw => e2 w ((marked_set st.2 x w hx hxl).mpr (Or.inl hw)),
        fun ys r hr => ?_⟩
      have hpush := pushNeighbors_eq (st.2.set x.toNat true) row.reverse ys
        (fun w hw => hrange w (List.mem_reverse.mp hw))
      rw [List.filter_reverse, List.reverse_reverse] at hpush
      exact dfsRuns_visit adjList x ys st r row _ hx hget hrow hpush (e3 ys r hr)

theorem recursiveVisitRow_terminates (n depth : Nat)
    (visit : Int → List Int × List Bool → Option (List Int × List Bool))
    (hvisit : ∀ (x : Int) (st : List Int × List Bool), 0 ≤ x → st.2.length = n →
      st.2[x.toNat]? = some false → st.2.count false ≤ depth →
      ∃ st1, visit x st = some st1 ∧ st1.2.length = n ∧ st1.2.count false < st.2.count false)
    (l : List Int) :
    ∀ (st : List Int × List Bool), (∀ w ∈ l, 0 ≤ w ∧ w.toNat < n) → st.2.length = n →
      st.2.count false ≤ depth →
      ∃ st1, recursiveVisitRow visit l st = some st1 ∧ st1.2.length = n ∧
        st1.2.count false ≤ st.2.count false := by
  induction l with
  | nil => intro st _ hlen _; exact ⟨st, by simp [recursiveVisitRow], hlen, le_refl _⟩
  | cons w rest ih =>
    intro st hr hlen hc
    have hw := hr w (List.mem_cons_self _ _)
    have hrest : ∀ x ∈ rest, 0 ≤ x ∧ x.toNat < n :=
      fun x hx => hr x (List.mem_cons_of_mem _ hx)
    have hneg : ¬ w < 0 := by omega
    have hwl : w.toNat < st.2.length := by rw [hlen]; exact hw.2
    simp only [recursiveVisitRow, hneg, if_false]
    cases hget : st.2[w.toNat]? with
    | none => exact absurd (List.getElem?_eq_none_iff.mp hget) (by omega)
    | some b =>
      cases b with
      | true => exact ih st hrest hlen hc
      | false =>
        obtain ⟨st2, f1, f2, f3⟩ := hvisit w st hw.1 hlen hget hc
        obtain ⟨st1, e1, e2, e3⟩ := ih st2 hrest f2 (by omega)
        simp only [f1]
        exact ⟨st1, e1, e2, by omega⟩

theorem recursiveVisit_terminates (adjList : List (List Int)) (n : Nat) (hwf : AdjWF adjList n) :
    ∀ (depth : Nat) (x : Int) (st : List Int × List Bool), 0 ≤ x → st.2.length = n →
      st.2[x.toNat]? = some false → st.2.count false ≤ depth →
      ∃ st1, recursiveVisit adjList depth x st = some st1 ∧ st1.2.length = n ∧
        st1.2.count false < st.2.count false := by
  intro depth
  induction depth with
  | zero =>
    intro x st _ _ hget hc
    have := count_false_set st.2 x.toNat hget
    omega
  | succ depth ih =>
    intro x st hx hlen hget hc
    have hneg : ¬ x < 0 := by omega
    have hxl : x.toNat < st.2.length := (List.getElem?_eq_some_iff.mp hget).1
    have hcount := count_false_set st.2 x.toNat hget
    simp only [recursiveVisit, hneg, if_false]
    cases hrow : adjList[x.toNat]? with
    | none =>
      exact absurd (List.getElem?_eq_none_iff.mp hrow) (by rw [hwf.size]; omega)
    | some row =>
      simp only
      obtain ⟨st1, e1, e2, e3⟩ := recursiveVisitRow_terminates n depth
        (recursiveVisit adjList depth) ih row (st.1 ++ [x], st.2.set x.toNat true)
        (hwf.range row (List.getElem?_mem hrow)) (by simp [hlen]) (by simp only; omega)
      exact ⟨st1, e1, e2, by simp only at e3; omega⟩

/-- C23. Iterative DFS equals recursive preorder DFS: for every reachable
graph and every `start` of `[0, n)`, `depthFirstSearch(start)` (explicit stack,
neighbours pushed in reverse adjacency order, marked when popped) returns,
given enough fuel, exactly the sequence produced by the textbook recursive
search `recursiveDFS`, which emits a vertex on first entry and recurses into
its unvisited neighbours in adjacency insertion order; a recursion depth of
`n` suffices for the latter. -/
theorem dfs_iterative_eq_recursive (n : Int) (calls : List (Int × Int)) (start : Int)
    (fuel depth : Nat) (hs0 : 0 ≤ start) (hs : start < n)
    (hfuel : dfsFuel (buildGraph n calls) ≤ fuel) (hdepth : n.toNat ≤ depth) :
    ∃ r, depthFirstSearch fuel (buildGraph n calls) start = some r ∧
      recursiveDFS depth (buildGraph n calls) start = some r := by
  have hn : 0 ≤ n := by omega
  have hinv := graphInv_buildGraph n calls hn
  have hnv := buildGraph_numVertices n calls
  have hwf := hinv.adjWF
  have hs' : start < (buildGraph n calls).numVertices := by rw [hnv]; exact hs
  have hltn : start.toNat < (buildGraph n calls).numVertices.toNat := by omega
  have hget : (List.replicate (buildGraph n calls).numVertices.toNat false)[start.toNat]?
      = some false := by
    rw [List.getElem?_replicate, if_pos hltn]
  obtain ⟨st1, e1, e2, e3⟩ := recursiveVisit_terminates _ _ hwf depth start
    ([], List.replicate (buildGraph n calls).numVertices.toNat false) hs0 (by simp) hget
    (by simp only [List.count_replicate_self]; rw [hnv]; exact hdepth)
  obtain ⟨f1, f2, f3⟩ := recursiveVisit_runs _ _ hwf depth start _ st1 hs0 (by simp) hget e1
  obtain ⟨fuel0, hrun⟩ := f3 [] st1 (dfsRuns_nil _ st1)
  simp only at hrun
  obtain ⟨r, g1, _⟩ := depthFirstSearch_spec (buildGraph n calls) hwf start hs0 hs' fuel hfuel
  have h1 := depthFirstSearch_fuel_mono _ start fuel fuel0 r g1
  have h2 : depthFirstSearch (fuel0 + fuel) (buildGraph n calls) start = some st1.1 := by
    unfold depthFirstSearch
    rw [dfsLoop_fuel_mono _ fuel0 fuel _ _ _ st1 hrun]; rfl
  rw [Nat.add_comm] at h2
  rw [h1] at h2
  refine ⟨r, g1, ?_⟩
  have hcond : ¬ (start < 0 ∨ start ≥ (buildGraph n calls).numVertices) := by omega
  simp only [recursiveDFS, hcond, if_false, e1, Option.map_some']
  exact h2.symm

theorem dfs_iterative_eq_recursive_witness :
    (0 : Int) ≤ 0 ∧ (0 : Int) < 5 ∧
      dfsFuel (buildGraph 5 [(0, 2), (0, 1), (1, 3), (2, 3), (3, 4)]) ≤ 11 ∧
      (5 : Int).toNat ≤ 5 ∧
      ∃ r, depthFirstSearch 11 (buildGraph 5 [(0, 2), (0, 1), (1, 3), (2, 3), (3, 4)]) 0
          = some r ∧
        recursiveDFS 5 (buildGraph 5 [(0, 2), (0, 1), (1, 3), (2, 3), (3, 4)]) 0 = some r :=
  ⟨by decide, by decide, by decide, by decide,
    dfs_iterative_eq_recursive 5 [(0, 2), (0, 1), (1, 3), (2, 3), (3, 4)] 0 11 5
      (by decide) (by decide) (by decide) (by decide)⟩

theorem foldl_add_range {F : Type} [LinearOrderedField F] (g : Nat → F) (m : Nat) (a : F) :
    (List.range m).foldl (fun c (i : Nat) => c + g i) a = a + ((List.range m).map g).sum := by
  induction m with
  | zero => simp
  | succ m ih =>
    rw [List.range_succ, List.foldl_append, List.foldl_cons, List.foldl_nil, ih,
      List.map_append, List.sum_append]
    simp [add_assoc]

theorem foldl_vertexAt_sum {F : Type} [LinearOrderedField F] (f : VertexRaylib F → F)
    (vs : List (VertexRaylib F)) :
    (List.range vs.length).foldl (fun c (i : Nat) => c + f (vertexAt vs i)) 0
      = (vs.map f).sum := by
  rw [foldl_add_range (fun (i : Nat) => f (vertexAt vs i)), zero_add]
  have h := congrArg List.sum (map_getD_range f (⟨0, 0, 0, 0⟩ : VertexRaylib F) vs)
  simpa [vertexAt] using h

theorem sum_map_translate {F : Type} [LinearOrderedField F] (offset : F × F)
    (vs : List (VertexRaylib F)) :
    ((vs.map (translate offset)).map fun v => v.x).sum
        = (vs.map fun v => v.x).sum + (vs.length : F) * offset.1 ∧
      ((vs.map (translate offset)).map fun v => v.y).sum
        = (vs.map fun v => v.y).sum + (vs.length : F) * offset.2 := by
  induction vs with
  | nil => simp
  | cons v rest ih =>
    simp only [List.map_cons, List.sum_cons, ih.1, ih.2, List.length_cons, Nat.cast_succ,
      translate]
    constructor <;> ring

theorem centerGraph_eq {F : Type} [LinearOrderedField F] (s : GraphVisualizerRaylib F)
    (hsize : s.vertices.length = s.graph.numVertices.toNat) (hn : 1 ≤ s.graph.numVertices) :
    centerGraph s
      = { s with
          vertices := s.vertices.map
            (translate ((windowCenter s).1 - (centroid s.vertices).1,
              (windowCenter s).2 - (centroid s.vertices).2)) } := by
  have hn0 : ¬ s.graph.numVertices = 0 := by omega
  have hcast : ((s.vertices.length : Nat) : F) = ((s.graph.numVertices : Int) : F) := by
    rw [hsize, ← Int.cast_natCast, Int.toNat_of_nonneg (by omega)]
  simp only [centerGraph, hn0, if_false, ← hsize, foldl_vertexAt_sum]
  rw [foldl_modify_range_eq_map _ _ _ (le_refl _)]
  simp only [translate, windowCenter, centroid, hcast]
  rfl

theorem foldl_modify_range_idx {α : Type} (f : Nat → α → α) (n : Nat) (l : List α) (k : Nat) :
    ((List.range n).foldl (fun l (i : Nat) => List.modify (f i) i l) l)[k]?
      = (l[k]?).map (fun v => if k < n then f k v else v) := by
  induction n with
  | zero => simp
  | succ n ih =>
    rw [List.range_succ, List.foldl_append, List.foldl_cons, List.foldl_nil,
      List.getElem?_modify, ih]
    cases l[k]? with
    | none => rfl
    | some v =>
      simp only [Option.map_some', Option.some.injEq]
      by_cases h1 : n = k
      · subst h1; simp
      · by_cases h2 : k < n
        · have h3 : k < n + 1 := by omega
          simp [h1, h2, h3]
        · have h3 : ¬ k < n + 1 := by omega
          simp [h1, h2, h3]

theorem foldl_modify_range_eq_mapIdx {α : Type} (f : Nat → α → α) (n : Nat) (l : List α)
    (hlen : l.length ≤ n) :
    (List.range n).foldl (fun l (i : Nat) => List.modify (f i) i l) l = l.mapIdx f := by
  apply List.ext_getElem?
  intro k
  rw [foldl_modify_range_idx, List.getElem?_mapIdx]
  cases h : l[k]? with
  | none => rfl
  | some v =>
    have hk : k < l.length := (List.getElem?_eq_some_iff.mp h).1
    have : k < n := by omega
    simp [this]

theorem initializePositions_eq {F : Type} [LinearOrderedField F] (cos sin : F → F) (pi : F)
    (s : GraphVisualizerRaylib F)
    (hsize : s.vertices.length = s.graph.numVertices.toNat) (hn : s.graph.numVertices ≠ 0) :
    initializePositions cos sin pi s
      = { s with
          vertices := s.vertices.mapIdx fun (i : Nat) _ =>
            { x := (windowCenter s).1
                + layoutRadius s * cos (2 * pi * (i : F) / (s.graph.numVertices : F))
              y := (windowCenter s).2
                + layoutRadius s * sin (2 * pi * (i : F) / (s.graph.numVertices : F))
              vx := 0
              vy := 0 } } := by
  simp only [initializePositions, hn, if_false]
  rw [foldl_modify_range_eq_mapIdx _ _ _ (le_of_eq hsize)]
  rfl

/-- C21. `centerGraph()` is a translation onto the window centre: on every
engine state holding one vertex record per graph vertex, for `n >= 1` every
vertex is moved by the same offset `(windowWidth/2 - mean x, windowHeight/2 -
mean y)` and nothing else changes, so in exact arithmetic the centroid
afterwards is exactly `(windowWidth/2, windowHeight/2)`, all pairwise position
differences and all velocities are unchanged; for `n = 0` the state is
unchanged. -/
theorem centerGraph_translation {F : Type} [LinearOrderedField F]
    (s : GraphVisualizerRaylib F)
    (hsize : s.vertices.length = s.graph.numVertices.toNat) :
    (s.graph.numVertices = 0 → centerGraph s = s) ∧
      (1 ≤ s.graph.numVertices →
        centerGraph s
          = { s with
              vertices := s.vertices.map
                (translate ((s.windowWidth : F) / 2 - (centroid s.vertices).1,
                  (s.windowHeight : F) / 2 - (centroid s.vertices).2)) } ∧
        centroid (centerGraph s).vertices
          = ((s.windowWidth : F) / 2, (s.windowHeight : F) / 2) ∧
        (∀ i j : Int, 0 ≤ i → i < s.graph.numVertices → 0 ≤ j → j < s.graph.numVertices →
          positionAt (centerGraph s).vertices i - positionAt (centerGraph s).vertices j
            = positionAt s.vertices i - positionAt s.vertices j) ∧
        (centerGraph s).vertices.map (fun v => (v.vx, v.vy))
          = s.vertices.map (fun v => (v.vx, v.vy))) := by
  constructor
  · intro h0
    simp [centerGraph, h0]
  · intro hn
    have heq := centerGraph_eq s hsize hn
    simp only [windowCenter] at heq
    refine ⟨heq, ?_, ?_, ?_⟩
    · rw [heq]
      have hlen : ((s.vertices.length : Nat) : F) ≠ 0 := by
        have : 0 < s.vertices.length := by omega
        exact_mod_cast this.ne'
      simp only [centroid, List.length_map, (sum_map_translate _ s.vertices).1,
        (sum_map_translate _ s.vertices).2]
      ext
      · simp only; field_simp; ring
      · simp only; field_simp; ring
    · intro i j hi0 hi hj0 hj
      rw [heq]
      have hget : ∀ k : Int, 0 ≤ k → k < s.graph.numVertices →
          ∃ v, s.vertices[k.toNat]? = some v := by
        intro k hk0 hk
        have : k.toNat < s.vertices.length := by omega
        exact ⟨_, List.getElem?_eq_getElem this⟩
      obtain ⟨vi, hvi⟩ := hget i hi0 hi
      obtain ⟨vj, hvj⟩ := hget j hj0 hj
      simp only [positionAt, vertexAt, List.getD_eq_getElem?_getD, List.getElem?_map, hvi, hvj,
        Option.map_some', Option.getD_some, translate]
      ext <;> simp
    · rw [heq]
      simp only [List.map_map]
      rfl

theorem centerGraph_translation_witness :
    (offCentre ℚ).vertices.length = (offCentre ℚ).graph.numVertices.toNat ∧
      (1 : Int) ≤ (offCentre ℚ).graph.numVertices ∧
      centroid (centerGraph (offCentre ℚ)).vertices = (600, 400) ∧
      (centerGraph (offCentre ℚ)).vertices = [⟨500, 350, 1, 2⟩, ⟨700, 450, 3, 4⟩] := by
  have h := (centerGraph_translation (offCentre ℚ) rfl).2 (by decide)
  refine ⟨rfl, by decide, ?_, ?_⟩
  · rw [h.2.1]
    simp only [offCentre, engineWith]
    norm_num
  · rw [h.1]
    simp only [offCentre, engineWith, centroid, translate, List.map_cons, List.map_nil,
      List.sum_cons, List.sum_nil, List.length_cons, List.length_nil]
    norm_num

theorem circle_distance (c : ℝ × ℝ) (r a : ℝ) :
    distanceBetween Real.sqrt c (c.1 + r * Real.cos a, c.2 + r * Real.sin a) = |r| := by
  have h : (c.1 + r * Real.cos a - c.1) * (c.1 + r * Real.cos a - c.1)
      + (c.2 + r * Real.sin a - c.2) * (c.2 + r * Real.sin a - c.2) = r * r := by
    have := Real.cos_sq_add_sin_sq a
    nlinarith [this]
  simp only [distanceBetween, magnitude]
  rw [h, Real.sqrt_mul_self_eq_abs]

/-- C22 (amended). `initializePositions()` circle placement, over the reals
with `cos`, `sin` and `pi` exact: on every engine state holding one vertex
record per graph vertex, for `n >= 1` and every `i` of `[0, n)`, vertex `i` is
placed at `(W/2 + r*cos(2*pi*i/n), H/2 + r*sin(2*pi*i/n))` with
`r = 0.35 * min(W, H)`, hence at distance exactly `|r|` from the window
centre, which is `r` whenever `W >= 0` and `H >= 0`; vertex 0 is placed at
`(W/2 + r, H/2)`; every velocity is set to zero and the graph is kept; for
`n = 0` the state is unchanged. -/
theorem initializePositions_circle (s : GraphVisualizerRaylib ℝ)
    (hsize : s.vertices.length = s.graph.numVertices.toNat) :
    (s.graph.numVertices = 0 → initializePositions Real.cos Real.sin Real.pi s = s) ∧
      (1 ≤ s.graph.numVertices →
        (initializePositions Real.cos Real.sin Real.pi s).graph = s.graph ∧
        (∀ i : Nat, (i : Int) < s.graph.numVertices →
          (initializePositions Real.cos Real.sin Real.pi s).vertices[i]?
              = some
                { x := (s.windowWidth : ℝ) / 2 + layoutRadius s
                    * Real.cos (2 * Real.pi * (i : ℝ) / (s.graph.numVertices : ℝ))
                  y := (s.windowHeight : ℝ) / 2 + layoutRadius s
                    * Real.sin (2 * Real.pi * (i : ℝ) / (s.graph.numVertices : ℝ))
                  vx := 0
                  vy := 0 } ∧
            distanceBetween Real.sqrt (windowCenter s)
              (positionAt (initializePositions Real.cos Real.sin Real.pi s).vertices i)
              = |layoutRadius s| ∧
            (0 ≤ s.windowWidth → 0 ≤ s.windowHeight →
              distanceBetween Real.sqrt (windowCenter s)
                (positionAt (initializePositions Real.cos Real.sin Real.pi s).vertices i)
                = layoutRadius s)) ∧
        positionAt (initializePositions Real.cos Real.sin Real.pi s).vertices 0
          = ((s.windowWidth : ℝ) / 2 + layoutRadius s, (s.windowHeight : ℝ) / 2)) := by
  constructor
  · intro h0
    simp [initializePositions, h0]
  · intro hn
    have heq := initializePositions_eq Real.cos Real.sin Real.pi s hsize (by omega)
    have hget : ∀ i : Nat, (i : Int) < s.graph.numVertices →
        (initializePositions Real.cos Real.sin Real.pi s).vertices[i]?
          = some
            { x := (s.windowWidth : ℝ) / 2 + layoutRadius s
                * Real.cos (2 * Real.pi * (i : ℝ) / (s.graph.numVertices : ℝ))
              y := (s.windowHeight : ℝ) / 2 + layoutRadius s
                * Real.sin (2 * Real.pi * (i : ℝ) / (s.graph.numVertices : ℝ))
              vx := 0
              vy := 0 } := by
      intro i hi
      have hlt : i < s.vertices.length := by omega
      rw [heq]
      simp only [List.getElem?_mapIdx, List.getElem?_eq_getElem hlt, Option.map_some',
        windowCenter]
    have hpos : ∀ i : Nat, (i : Int) < s.graph.numVertices →
        positionAt (initializePositions Real.cos Real.sin Real.pi s).vertices i
          = ((windowCenter s).1 + layoutRadius s
                * Real.cos (2 * Real.pi * (i : ℝ) / (s.graph.numVertices : ℝ)),
              (windowCenter s).2 + layoutRadius s
                * Real.sin (2 * Real.pi * (i : ℝ) / (s.graph.numVertices : ℝ))) := by
      intro i hi
      simp only [positionAt, vertexAt, Int.toNat_ofNat, List.getD_eq_getElem?_getD, hget i hi,
        Option.getD_some, windowCenter]
    refine ⟨by rw [heq], ?_, ?_⟩
    · intro i hi
      refine ⟨hget i hi, ?_, ?_⟩
      · rw [hpos i hi]
        exact circle_distance _ _ _
      · intro hw hh
        rw [hpos i hi, circle_distance]
        apply abs_of_nonneg
        unfold layoutRadius
        have : (0 : ℝ) ≤ ((min s.windowWidth s.windowHeight : Int) : ℝ) := by
          exact_mod_cast le_min hw hh
        positivity
    · have h0 := hpos 0 (by omega)
      simp only [Nat.cast_zero, mul_zero, zero_div, Real.cos_zero, Real.sin_zero, mul_one,
        add_zero, windowCenter] at h0
      exact_mod_cast h0

theorem initializePositions_circle_witness :
    (smallWindow ℝ).vertices.length = (smallWindow ℝ).graph.numVertices.toNat ∧
      (1 : Int) ≤ (smallWindow ℝ).graph.numVertices ∧
      positionAt (initializePositions Real.cos Real.sin Real.pi (smallWindow ℝ)).vertices 0
        = (68, 40) := by
  have h := ((initializePositions_circle (smallWindow ℝ) rfl).2 (by decide)).2.2
  refine ⟨rfl, by decide, ?_⟩
  rw [h]
  simp only [smallWindow, engineWith, layoutRadius]
  norm_num

theorem initializePositions_circle_counterexample :
    GraphVisualizerRaylib.GraphVisualizerRaylib Real.cos Real.sin Real.pi (Graph.Graph 1)
        (-100) (-100)
      = initializePositions Real.cos Real.sin Real.pi (negativeWindow ℝ) ∧
      (negativeWindow ℝ).vertices.length = (negativeWindow ℝ).graph.numVertices.toNat ∧
      (1 : Int) ≤ (negativeWindow ℝ).graph.numVertices ∧
      layoutRadius (negativeWindow ℝ) = -35 ∧
      positionAt (initializePositions Real.cos Real.sin Real.pi (negativeWindow ℝ)).vertices 0
        = (-85, -50) ∧
      distanceBetween Real.sqrt (windowCenter (negativeWindow ℝ))
        (positionAt (initializePositions Real.cos Real.sin Real.pi (negativeWindow ℝ)).vertices 0)
        = 35 ∧
      distanceBetween Real.sqrt (windowCenter (negativeWindow ℝ))
        (positionAt (initializePositions Real.cos Real.sin Real.pi (negativeWindow ℝ)).vertices 0)
        ≠ layoutRadius (negativeWindow ℝ) := by
  have hr : layoutRadius (negativeWindow ℝ) = -35 := by
    simp only [negativeWindow, engineWith, layoutRadius]
    norm_num
  have heq := initializePositions_eq Real.cos Real.sin Real.pi (negativeWindow ℝ) rfl
    (by decide)
  have hpos : positionAt
      (initializePositions Real.cos Real.sin Real.pi (negativeWindow ℝ)).vertices 0
      = (-85, -50) := by
    rw [heq, hr]
    simp only [negativeWindow, engineWith, windowCenter, positionAt, vertexAt, List.mapIdx_cons,
      List.mapIdx_nil]
    norm_num
  have hd : distanceBetween Real.sqrt (windowCenter (negativeWindow ℝ))
      (positionAt (initializePositions Real.cos Real.sin Real.pi (negativeWindow ℝ)).vertices 0)
      = 35 := by
    rw [hpos]
    simp only [distanceBetween, magnitude, windowCenter, negativeWindow, engineWith]
    have : ((-85 : ℝ) - ((-100 : Int) : ℝ) / 2) * ((-85 : ℝ) - ((-100 : Int) : ℝ) / 2)
        + ((-50 : ℝ) - ((-100 : Int) : ℝ) / 2) * ((-50 : ℝ) - ((-100 : Int) : ℝ) / 2)
        = 35 * 35 := by norm_num
    rw [this, Real.sqrt_mul_self (by norm_num)]
  refine ⟨rfl, rfl, by decide, hr, hpos, hd, ?_⟩
  rw [hd, hr]
  norm_num

theorem totalVelocity_addVelocity {F : Type} [LinearOrderedField F] (t : F × F) :
    ∀ (vs : List (VertexRaylib F)) (k : Nat), k < vs.length →
      totalVelocity (addVelocity vs k t) = totalVelocity vs + t := by
  intro vs
  induction vs with
  | nil => intro k hk; simp at hk
  | cons v rest ih =>
    intro k hk
    cases k with
    | zero =>
      simp only [addVelocity, totalVelocity, List.modify, List.modifyHead, List.map_cons,
        List.sum_cons]
      ext <;> simp <;> ring
    | succ k =>
      have h := ih k (by simpa using hk)
      simp only [addVelocity, totalVelocity, List.modify_succ_cons, List.map_cons,
        List.sum_cons, Prod.ext_iff, Prod.fst_add, Prod.snd_add] at h ⊢
      constructor
      · rw [h.1]; ring
      · rw [h.2]; ring

theorem length_addVelocity {F : Type} [LinearOrderedField F] (vs : List (VertexRaylib F))
    (k : Nat) (t : F × F) : (addVelocity vs k t).length = vs.length := by
  simp [addVelocity, List.length_modify]

theorem repulsionTerm_antisymm {F : Type} [LinearOrderedField F] (sqrt : F → F) (r : F)
    (p q : F × F) : repulsionTerm sqrt r p q + repulsionTerm sqrt r q p = 0 := by
  have hsq : (p.1 - q.1) * (p.1 - q.1) + (p.2 - q.2) * (p.2 - q.2)
      = (q.1 - p.1) * (q.1 - p.1) + (q.2 - p.2) * (q.2 - p.2) := by ring
  have h1 : p.1 - q.1 = -(q.1 - p.1) := by ring
  have h2 : p.2 - q.2 = -(q.2 - p.2) := by ring
  simp only [repulsionTerm, hsq]
  rw [h1, h2]
  ext <;> simp <;> ring

theorem attractionTerm_antisymm {F : Type} [LinearOrderedField F] (sqrt : F → F) (a opt : F)
    (p q : F × F) : attractionTerm sqrt a opt p q + attractionTerm sqrt a opt q p = 0 := by
  have hsq : (p.1 - q.1) * (p.1 - q.1) + (p.2 - q.2) * (p.2 - q.2)
      = (q.1 - p.1) * (q.1 - p.1) + (q.2 - p.2) * (q.2 - p.2) := by ring
  have h1 : p.1 - q.1 = -(q.1 - p.1) := by ring
  have h2 : p.2 - q.2 = -(q.2 - p.2) := by ring
  simp only [attractionTerm, hsq]
  rw [h1, h2]
  ext <;> simp <;> ring

theorem totalVelocity_accumulate_pairs {F : Type} [LinearOrderedField F] {β : Type}
    (term : F × F → F × F → F × F) (hanti : ∀ p q, term p q + term q p = 0)
    (a b : β → Int) (l : List β) :
    ∀ vs : List (VertexRaylib F),
      (∀ p ∈ l, (a p).toNat < vs.length ∧ (b p).toNat < vs.length) →
      totalVelocity (accumulate term vs (l.flatMap fun p => [(a p, b p), (b p, a p)]))
        = totalVelocity vs := by
  induction l with
  | nil => intro vs _; rfl
  | cons p rest ih =>
    intro vs hr
    have hp := hr p (List.mem_cons_self _ _)
    rw [List.flatMap_cons, accumulate_append]
    have hstep : accumulate term vs [(a p, b p), (b p, a p)]
        = addVelocity
            (addVelocity vs (a p).toNat (term (positionAt vs (a p)) (positionAt vs (b p))))
            (b p).toNat (term (positionAt vs (b p)) (positionAt vs (a p))) := by
      simp only [accumulate, List.foldl_cons, List.foldl_nil, positionAt_addVelocity]
    have hlen : (accumulate term vs [(a p, b p), (b p, a p)]).length = vs.length :=
      length_accumulate term _ vs
    rw [ih _ (fun x hx => by rw [hlen]; exact hr x (List.mem_cons_of_mem _ hx)), hstep,
      totalVelocity_addVelocity _ _ _ (by rw [length_addVelocity]; exact hp.2),
      totalVelocity_addVelocity _ _ _ hp.1, add_assoc, hanti, add_zero]

theorem mem_vertexPairs (n : Nat) (p : Nat × Nat) (h : p ∈ vertexPairs n) :
    p.1 < n ∧ p.2 < n := by
  simp only [vertexPairs, List.mem_flatMap, List.mem_range, List.mem_map,
    List.mem_range'_1] at h
  obtain ⟨i, hi, j, hj, rfl⟩ := h
  simp only
  omega

theorem totalVelocity_map_zero {F : Type} [LinearOrderedField F]
    (vs : List (VertexRaylib F)) :
    totalVelocity (vs.map fun v => ({ v with vx := 0, vy := 0 } : VertexRaylib F)) = 0 := by
  induction vs with
  | nil => rfl
  | cons v rest ih =>
    simp only [totalVelocity, List.map_cons, List.sum_cons, Prod.ext_iff, Prod.fst_zero,
      Prod.snd_zero, zero_add] at ih ⊢
    exact ih

theorem totalVelocity_forces {F : Type} [LinearOrderedField F] (sqrt : F → F)
    (s : GraphVisualizerRaylib F) (hwf : EngineWF s) :
    totalVelocity
        (accumulate (attractionTerm sqrt s.attractionForce s.optimalDistance)
          (accumulate (repulsionTerm sqrt s.repulsionForce)
            (s.vertices.map fun v => { v with vx := 0, vy := 0 })
            ((vertexPairs s.graph.numVertices.toNat).flatMap fun p =>
              [((p.1 : Int), (p.2 : Int)), ((p.2 : Int), (p.1 : Int))]))
          (s.graph.edges.flatMap fun e => [(e.1, e.2), (e.2, e.1)])) = 0 := by
  rw [totalVelocity_accumulate_pairs _ (attractionTerm_antisymm sqrt _ _)
      (fun e : Int × Int => e.1) (fun e : Int × Int => e.2),
    totalVelocity_accumulate_pairs _ (repulsionTerm_antisymm sqrt _)
      (fun p : Nat × Nat => (p.1 : Int)) (fun p : Nat × Nat => (p.2 : Int)),
    totalVelocity_map_zero]
  · intro p hp
    have := mem_vertexPairs _ p hp
    simp only [List.length_map, Int.toNat_ofNat, hwf.size]
    exact this
  · intro e he
    have := hwf.edges_range e he
    simp only [length_accumulate, List.length_map, hwf.size]
    omega

theorem totalVelocity_map_updateVertex {F : Type} [LinearOrderedField F]
    (s : GraphVisualizerRaylib F) (vs : List (VertexRaylib F)) :
    totalVelocity (vs.map (updateVertex s))
      = ((totalVelocity vs).1 * s.damping, (totalVelocity vs).2 * s.damping) := by
  induction vs with
  | nil => simp [totalVelocity]
  | cons v rest ih =>
    simp only [totalVelocity, List.map_cons, List.sum_cons, Prod.ext_iff] at ih ⊢
    simp only [ih.1, ih.2, updateVertex]
    constructor <;> ring

theorem sum_map_sub_list {α F : Type} [LinearOrderedField F] (f g : α → F) (l : List α) :
    (l.map fun a => f a - g a).sum = (l.map f).sum - (l.map g).sum := by
  induction l with
  | nil => simp
  | cons a rest ih =>
    simp only [List.map_cons, List.sum_cons, ih]
    ring

theorem vertexAt_eq_getElem {F : Type} [LinearOrderedField F] (vs : List (VertexRaylib F))
    (k : Nat) (hk : k < vs.length) : vertexAt vs (k : Int) = vs[k] := by
  simp [vertexAt, List.getD_eq_getElem?_getD, List.getElem?_eq_getElem hk]

theorem step_length {F : Type} [LinearOrderedField F] (sqrt : F → F)
    (s : GraphVisualizerRaylib F) (hsize : s.vertices.length = s.graph.numVertices.toNat) :
    (applyForceDirectedStep sqrt s).vertices.length = s.vertices.length := by
  rw [applyForceDirectedStep_unfold sqrt s hsize]
  simp only [List.length_map, length_accumulate]

/-- C27. Forces cancel in total (Newton's third law): for every engine state
(one vertex record per graph vertex, edge endpoints being vertex ids, any
positions, coincident vertices and self-loop edges included), in exact
arithmetic the sum over all vertices of the velocity accumulated by the
repulsion and attraction phases of one step is the zero vector; consequently a
step in which no coordinate is clamped, that is, in which every vertex ends at
its old position plus its new velocity, leaves the centroid of the positions
unchanged. -/
theorem forces_cancel {F : Type} [LinearOrderedField F] (sqrt : F → F)
    (s : GraphVisualizerRaylib F) (hwf : EngineWF s) :
    totalVelocity (attractionLoop sqrt (repulsionLoop sqrt (zeroVelocities s))).vertices = 0 ∧
      ((∀ k : Nat, k < s.graph.numVertices.toNat →
          (vertexAt (applyForceDirectedStep sqrt s).vertices k).x
            = (vertexAt s.vertices k).x + (vertexAt (applyForceDirectedStep sqrt s).vertices k).vx ∧
          (vertexAt (applyForceDirectedStep sqrt s).vertices k).y
            = (vertexAt s.vertices k).y
              + (vertexAt (applyForceDirectedStep sqrt s).vertices k).vy) →
        centroid (applyForceDirectedStep sqrt s).vertices = centroid s.vertices) := by
  have hforces := totalVelocity_forces sqrt s hwf
  constructor
  · rw [zeroVelocities_eq s hwf.size, repulsionLoop_eq, attractionLoop_eq]
    exact hforces
  · intro hfree
    have hlen := step_length sqrt s hwf.size
    have htot : totalVelocity (applyForceDirectedStep sqrt s).vertices = 0 := by
      rw [applyForceDirectedStep_unfold sqrt s hwf.size]
      simp only []
      rw [totalVelocity_map_updateVertex, hforces]
      simp
    have hx : ((applyForceDirectedStep sqrt s).vertices.map fun v => v.x - v.vx)
        = s.vertices.map fun v => v.x := by
      apply List.ext_getElem
      · simp [hlen]
      · intro k h1 h2
        simp only [List.length_map] at h1 h2
        have := (hfree k (by rw [← hwf.size]; exact h2)).1
        rw [vertexAt_eq_getElem _ k h1, vertexAt_eq_getElem _ k h2] at this
        simp only [List.getElem_map, this]
        ring
    have hy : ((applyForceDirectedStep sqrt s).vertices.map fun v => v.y - v.vy)
        = s.vertices.map fun v => v.y := by
      apply List.ext_getElem
      · simp [hlen]
      · intro k h1 h2
        simp only [List.length_map] at h1 h2
        have := (hfree k (by rw [← hwf.size]; exact h2)).2
        rw [vertexAt_eq_getElem _ k h1, vertexAt_eq_getElem _ k h2] at this
        simp only [List.getElem_map, this]
        ring
    have hsx := congrArg List.sum hx
    have hsy := congrArg List.sum hy
    rw [sum_map_sub_list] at hsx hsy
    simp only [totalVelocity, Prod.ext_iff, Prod.fst_zero, Prod.snd_zero] at htot
    rw [htot.1, sub_zero] at hsx
    rw [htot.2, sub_zero] at hsy
    simp only [centroid, hsx, hsy, hlen]

theorem repulsionTerm_horizontal (r a b y d : ℝ) (hd : |b - a| = d) (hd1 : 1 ≤ d) :
    repulsionTerm Real.sqrt r (a, y) (b, y) = (r / d ^ 3 * (a - b), 0) := by
  have h := (repulsionTerm_real r (a, y) (b, y) d (by
    simp only [distanceBetween, magnitude, sub_self, mul_zero, add_zero]
    rw [Real.sqrt_mul_self_eq_abs, hd]) hd1).1
  rw [h]
  simp

theorem attractionTerm_horizontal (c opt a b y d : ℝ) (hd : |b - a| = d) (hd1 : 1 ≤ d) :
    attractionTerm Real.sqrt c opt (a, y) (b, y) = (c * (d - opt) / d * (b - a), 0) := by
  have h := (attractionTerm_real c opt (a, y) (b, y) d (by
    simp only [distanceBetween, magnitude, sub_self, mul_zero, add_zero]
    rw [Real.sqrt_mul_self_eq_abs, hd]) hd1).1
  rw [h]
  simp

theorem twoBody_step :
    (applyForceDirectedStep Real.sqrt (twoBody ℝ)).vertices
      = [⟨450 + 85 / 100 * (3 / 2 - 5 / 9), 400, 85 / 100 * (3 / 2 - 5 / 9), 0⟩,
          ⟨750 - 85 / 100 * (3 / 2 - 5 / 9), 400, -(85 / 100 * (3 / 2 - 5 / 9)), 0⟩] := by
  rw [applyForceDirectedStep_eq_stepSpec _ _ (twoBody_wf ℝ)]
  have hp : vertexPairs (twoBody ℝ).graph.numVertices.toNat = [(0, 1)] := by decide
  have he : (twoBody ℝ).graph.edges = [(0, 1)] := by decide
  have r01 := repulsionTerm_horizontal 50000 450 750 400 300 (by norm_num) (by norm_num)
  have r10 := repulsionTerm_horizontal 50000 750 450 400 300 (by norm_num) (by norm_num)
  have a01 := attractionTerm_horizontal (1 / 100) 150 450 750 400 300 (by norm_num)
    (by norm_num)
  have a10 := attractionTerm_horizontal (1 / 100) 150 750 450 400 300 (by norm_num)
    (by norm_num)
  simp only [stepSpec, netForce, hp, he]
  simp only [twoBody, engineWith, List.mapIdx_cons, List.mapIdx_nil, positionAt, vertexAt,
    List.map_cons, List.map_nil, List.sum_cons, List.sum_nil, clampCoord]
  have h1 : Int.toNat 1 = 1 := rfl
  norm_num [h1, r01, r10, a01, a10]

theorem forces_cancel_witness :
    EngineWF (twoBody ℝ) ∧
      totalVelocity
        (attractionLoop Real.sqrt (repulsionLoop Real.sqrt (zeroVelocities (twoBody ℝ)))).vertices
        = 0 ∧
      centroid (applyForceDirectedStep Real.sqrt (twoBody ℝ)).vertices
        = centroid (twoBody ℝ).vertices := by
  have h := forces_cancel Real.sqrt (twoBody ℝ) (twoBody_wf ℝ)
  refine ⟨twoBody_wf ℝ, h.1, h.2 ?_⟩
  intro k hk
  have hk2 : k < 2 := hk
  rw [twoBody_step]
  interval_cases k
  · simp only [vertexAt, twoBody, engineWith]
    norm_num
  · simp only [vertexAt, twoBody, engineWith]
    norm_num

theorem lopsided_wf (F : Type) [LinearOrderedField F] : EngineWF (lopsided F) := by
  refine ⟨rfl, ?_⟩
  intro e he
  have : (lopsided F).graph.edges = [] := rfl
  rw [this] at he
  cases he

theorem lopsided_step :
    (applyForceDirectedStep Real.sqrt (lopsided ℝ)).vertices
      = [⟨50, 400, -(85 / 100 * (20 / 441 + 5 / 121)), 0⟩,
          ⟨1083 + 17 / 441, 400, -(85 / 100 * (20 - 20 / 441)), 0⟩,
          ⟨1150, 400, 85 / 100 * (20 + 5 / 121), 0⟩] := by
  rw [applyForceDirectedStep_eq_stepSpec _ _ (lopsided_wf ℝ)]
  have hp : vertexPairs (lopsided ℝ).graph.numVertices.toNat = [(0, 1), (0, 2), (1, 2)] := by
    decide
  have he : (lopsided ℝ).graph.edges = [] := rfl
  have t01 := repulsionTerm_horizontal 50000 50 1100 400 1050 (by norm_num) (by norm_num)
  have t10 := repulsionTerm_horizontal 50000 1100 50 400 1050 (by norm_num) (by norm_num)
  have t02 := repulsionTerm_horizontal 50000 50 1150 400 1100 (by norm_num) (by norm_num)
  have t20 := repulsionTerm_horizontal 50000 1150 50 400 1100 (by norm_num) (by norm_num)
  have t12 := repulsionTerm_horizontal 50000 1100 1150 400 50 (by norm_num) (by norm_num)
  have t21 := repulsionTerm_horizontal 50000 1150 1100 400 50 (by norm_num) (by norm_num)
  simp only [stepSpec, netForce, hp, he]
  simp only [lopsided, engineWith, List.mapIdx_cons, List.mapIdx_nil, positionAt, vertexAt,
    List.map_cons, List.map_nil, List.sum_cons, List.sum_nil, clampCoord]
  have h2 : Int.toNat 2 = 2 := rfl
  norm_num [h2, t01, t10, t02, t20, t12, t21]

theorem step_frame {F : Type} [LinearOrderedField F] (sqrt : F → F)
    (s : GraphVisualizerRaylib F) (hsize : s.vertices.length = s.graph.numVertices.toNat) :
    (applyForceDirectedStep sqrt s).graph = s.graph ∧
      (applyForceDirectedStep sqrt s).windowWidth = s.windowWidth ∧
      (applyForceDirectedStep sqrt s).windowHeight = s.windowHeight ∧
      (applyForceDirectedStep sqrt s).vertexRadius = s.vertexRadius ∧
      (applyForceDirectedStep sqrt s).vertices.length = s.vertices.length := by
  refine ⟨?_, ?_, ?_, ?_, step_length sqrt s hsize⟩ <;>
    rw [applyForceDirectedStep_unfold sqrt s hsize]

theorem iterate_frame {F : Type} [LinearOrderedField F] (sqrt : F → F)
    (s : GraphVisualizerRaylib F) (hsize : s.vertices.length = s.graph.numVertices.toNat) :
    ∀ k : Nat,
      ((applyForceDirectedStep sqrt)^[k] s).graph = s.graph ∧
        ((applyForceDirectedStep sqrt)^[k] s).windowWidth = s.windowWidth ∧
        ((applyForceDirectedStep sqrt)^[k] s).windowHeight = s.windowHeight ∧
        ((applyForceDirectedStep sqrt)^[k] s).vertexRadius = s.vertexRadius ∧
        ((applyForceDirectedStep sqrt)^[k] s).vertices.length = s.vertices.length := by
  intro k
  induction k with
  | zero => exact ⟨rfl, rfl, rfl, rfl, rfl⟩
  | succ k ih =>
    rw [Function.iterate_succ_apply']
    obtain ⟨h1, h2, h3, h4, h5⟩ := ih
    obtain ⟨g1, g2, g3, g4, g5⟩ := step_frame sqrt ((applyForceDirectedStep sqrt)^[k] s)
      (by rw [h5, h1]; exact hsize)
    exact ⟨g1.trans h1, g2.trans h2, g3.trans h3, g4.trans h4, g5.trans h5⟩

theorem iterate_bounds {F : Type} [LinearOrderedField F] (sqrt : F → F)
    (s : GraphVisualizerRaylib F) (hsize : s.vertices.length = s.graph.numVertices.toNat)
    (k : Nat) (hk : 1 ≤ k)
    (hW : 2 * s.vertexRadius ≤ (s.windowWidth : F) - 2 * s.vertexRadius)
    (hH : 2 * s.vertexRadius ≤ (s.windowHeight : F) - 2 * s.vertexRadius) :
    ∀ v ∈ ((applyForceDirectedStep sqrt)^[k] s).vertices,
      2 * s.vertexRadius ≤ v.x ∧ v.x ≤ (s.windowWidth : F) - 2 * s.vertexRadius ∧
        2 * s.vertexRadius ≤ v.y ∧ v.y ≤ (s.windowHeight : F) - 2 * s.vertexRadius := by
  obtain ⟨m, rfl⟩ : ∃ m, k = m + 1 := ⟨k - 1, by omega⟩
  obtain ⟨h1, h2, h3, h4, h5⟩ := iterate_frame sqrt s hsize m
  rw [Function.iterate_succ_apply',
    applyForceDirectedStep_unfold sqrt _ (by rw [h5, h1]; exact hsize)]
  intro v hv
  simp only [List.mem_map] at hv
  obtain ⟨w, _, rfl⟩ := hv
  have hb := updateVertex_bounds ((applyForceDirectedStep sqrt)^[m] s) w
  rw [h2, h3, h4] at hb
  exact ⟨hb.1, hb.2.2.1 hW, hb.2.1, hb.2.2.2 hH⟩

theorem lopsided_optimize :
    (optimize Real.sqrt (lopsided ℝ) 1).vertices
      = [⟨-(111 + 17 / 1323), 400, -(85 / 100 * (20 / 441 + 5 / 121)), 0⟩,
          ⟨922 + 34 / 1323, 400, -(85 / 100 * (20 - 20 / 441)), 0⟩,
          ⟨989 - 17 / 1323, 400, 85 / 100 * (20 + 5 / 121), 0⟩] := by
  have hopt : optimize Real.sqrt (lopsided ℝ) 1
      = centerGraph (applyForceDirectedStep Real.sqrt (lopsided ℝ)) := rfl
  obtain ⟨h1, h2, h3, h4, h5⟩ := step_frame Real.sqrt (lopsided ℝ) rfl
  have hg : (applyForceDirectedStep Real.sqrt (lopsided ℝ)).graph.numVertices = 3 := by
    rw [h1]; rfl
  rw [hopt, centerGraph_eq _ (by rw [h5, h1]; rfl) (by rw [hg]; decide)]
  simp only [windowCenter, h2, h3, lopsided_step]
  simp only [lopsided, engineWith, centroid, translate, List.map_cons, List.map_nil,
    List.sum_cons, List.sum_nil, List.length_cons, List.length_nil]
  norm_num

/-- C28 (amended). Bounds around `optimize`: for every engine state holding
one vertex record per graph vertex, with `2*vertexRadius <= windowWidth -
2*vertexRadius` and `2*vertexRadius <= windowHeight - 2*vertexRadius`, and
every `iterations >= 1`, after the steps of `optimize(iterations)` and before
its final `centerGraph` translation every vertex coordinate lies in
`[2*vertexRadius, dimension - 2*vertexRadius]`; after the translation every
coordinate lies in that interval shifted by the offset of the translation,
`dimension/2` minus the mean of that coordinate over the clamped positions. -/
theorem optimize_bounds {F : Type} [LinearOrderedField F] (sqrt : F → F)
    (s : GraphVisualizerRaylib F) (iterations : Int)
    (hsize : s.vertices.length = s.graph.numVertices.toNat)
    (hW : 2 * s.vertexRadius ≤ (s.windowWidth : F) - 2 * s.vertexRadius)
    (hH : 2 * s.vertexRadius ≤ (s.windowHeight : F) - 2 * s.vertexRadius)
    (hit : 1 ≤ iterations) :
    (∀ v ∈ ((applyForceDirectedStep sqrt)^[iterations.toNat] s).vertices,
      2 * s.vertexRadius ≤ v.x ∧ v.x ≤ (s.windowWidth : F) - 2 * s.vertexRadius ∧
        2 * s.vertexRadius ≤ v.y ∧ v.y ≤ (s.windowHeight : F) - 2 * s.vertexRadius) ∧
      optimize sqrt s iterations
        = centerGraph ((applyForceDirectedStep sqrt)^[iterations.toNat] s) ∧
      ∀ v ∈ (optimize sqrt s iterations).vertices,
        2 * s.vertexRadius ≤ v.x - ((s.windowWidth : F) / 2
            - (centroid ((applyForceDirectedStep sqrt)^[iterations.toNat] s).vertices).1) ∧
          v.x - ((s.windowWidth : F) / 2
            - (centroid ((applyForceDirectedStep sqrt)^[iterations.toNat] s).vertices).1)
            ≤ (s.windowWidth : F) - 2 * s.vertexRadius ∧
          2 * s.vertexRadius ≤ v.y - ((s.windowHeight : F) / 2
            - (centroid ((applyForceDirectedStep sqrt)^[iterations.toNat] s).vertices).2) ∧
          v.y - ((s.windowHeight : F) / 2
            - (centroid ((applyForceDirectedStep sqrt)^[iterations.toNat] s).vertices).2)
            ≤ (s.windowHeight : F) - 2 * s.vertexRadius := by
  have hb := iterate_bounds sqrt s hsize iterations.toNat (by omega) hW hH
  have hopt : optimize sqrt s iterations
      = centerGraph ((applyForceDirectedStep sqrt)^[iterations.toNat] s) := by
    unfold optimize
    rw [iterate_eq_foldl_range]
  obtain ⟨h1, h2, h3, h4, h5⟩ := iterate_frame sqrt s hsize iterations.toNat
  refine ⟨hb, hopt, ?_⟩
  intro v hv
  rw [hopt] at hv
  by_cases hn : 1 ≤ s.graph.numVertices
  · rw [centerGraph_eq _ (by rw [h5, h1]; exact hsize) (by rw [h1]; exact hn)] at hv
    simp only [List.mem_map] at hv
    obtain ⟨w, hw, rfl⟩ := hv
    have := hb w hw
    simp only [translate, windowCenter, h2, h3, add_sub_cancel_right]
    exact this
  · have hlen : ((applyForceDirectedStep sqrt)^[iterations.toNat] s).vertices.length = 0 := by
      rw [h5, hsize]; omega
    have hnil := List.length_eq_zero.mp hlen
    have hnat : ((applyForceDirectedStep sqrt)^[iterations.toNat] s).graph.numVertices.toNat
        = 0 := by
      rw [h1]; omega
    have hc : (centerGraph ((applyForceDirectedStep sqrt)^[iterations.toNat] s)).vertices
        = [] := by
      unfold centerGraph
      simp only []
      split
      · exact hnil
      · simp only [hnat, List.range_zero, List.foldl_nil]
        exact hnil
    rw [hc] at hv
    cases hv

theorem optimize_bounds_witness :
    (twoBody ℝ).vertices.length = (twoBody ℝ).graph.numVertices.toNat ∧
      (1 : Int) ≤ 3 ∧
      ∀ v ∈ ((applyForceDirectedStep Real.sqrt)^[(3 : Int).toNat] (twoBody ℝ)).vertices,
        2 * (twoBody ℝ).vertexRadius ≤ v.x ∧
          v.x ≤ ((twoBody ℝ).windowWidth : ℝ) - 2 * (twoBody ℝ).vertexRadius ∧
          2 * (twoBody ℝ).vertexRadius ≤ v.y ∧
          v.y ≤ ((twoBody ℝ).windowHeight : ℝ) - 2 * (twoBody ℝ).vertexRadius :=
  ⟨rfl, by decide,
    (optimize_bounds Real.sqrt (twoBody ℝ) 3 rfl
      (by simp only [twoBody, engineWith]; norm_num)
      (by simp only [twoBody, engineWith]; norm_num) (by decide)).1⟩

theorem repulsionTerm_fst_sign (r : ℝ) (hr : 0 ≤ r) (p q : ℝ × ℝ) :
    (q.1 ≤ p.1 → 0 ≤ (repulsionTerm Real.sqrt r p q).1) ∧
      (p.1 ≤ q.1 → (repulsionTerm Real.sqrt r p q).1 ≤ 0) := by
  simp only [repulsionTerm]
  generalize hD : (if (q.1 - p.1) * (q.1 - p.1) + (q.2 - p.2) * (q.2 - p.2) < 1 then (1 : ℝ)
    else (q.1 - p.1) * (q.1 - p.1) + (q.2 - p.2) * (q.2 - p.2)) = D
  have hDpos : 0 < D := by
    rw [← hD]
    split
    · norm_num
    · rename_i h; linarith [not_lt.mp h]
  have hs : 0 ≤ Real.sqrt D := Real.sqrt_nonneg _
  have hf : 0 ≤ r / D := div_nonneg hr hDpos.le
  constructor
  · intro h
    have h1 : (q.1 - p.1) / Real.sqrt D ≤ 0 :=
      div_nonpos_of_nonpos_of_nonneg (by linarith) hs
    exact neg_nonneg.mpr (mul_nonpos_of_nonpos_of_nonneg h1 hf)
  · intro h
    have h1 : 0 ≤ (q.1 - p.1) / Real.sqrt D := div_nonneg (by linarith) hs
    exact neg_nonpos.mpr (mul_nonneg h1 hf)

theorem smallSquare_wf (F : Type) [LinearOrderedField F] (y0 y1 y2 : F) :
    EngineWF (smallSquare F y0 y1 y2) := by
  refine ⟨rfl, ?_⟩
  intro e he
  have : (smallSquare F y0 y1 y2).graph.edges = [] := rfl
  rw [this] at he
  cases he

theorem smallSquare_optimize (y0 y1 y2 : ℝ) :
    150 + 20 / 3 ≤ (vertexAt (optimize Real.sqrt (smallSquare ℝ y0 y1 y2) 1).vertices 0).x := by
  have hopt : optimize Real.sqrt (smallSquare ℝ y0 y1 y2) 1
      = centerGraph (applyForceDirectedStep Real.sqrt (smallSquare ℝ y0 y1 y2)) := rfl
  obtain ⟨h1, h2, h3, h4, h5⟩ := step_frame Real.sqrt (smallSquare ℝ y0 y1 y2) rfl
  have hg : (applyForceDirectedStep Real.sqrt (smallSquare ℝ y0 y1 y2)).graph.numVertices
      = 3 := by
    rw [h1]; rfl
  have hp3 : vertexPairs 3 = [(0, 1), (0, 2), (1, 2)] := by decide
  have hp : vertexPairs (smallSquare ℝ y0 y1 y2).graph.numVertices.toNat
      = [(0, 1), (0, 2), (1, 2)] := hp3
  have he : (smallSquare ℝ y0 y1 y2).graph.edges = [] := rfl
  have hr : (0 : ℝ) ≤ 50000 := by norm_num
  have i2 : Int.toNat 2 = 2 := rfl
  have i1 : Int.toNat 1 = 1 := rfl
  have hF0 : 0 ≤ (netForce Real.sqrt (smallSquare ℝ y0 y1 y2) 0).1 := by
    simp only [netForce, hp, he]
    simp [smallSquare, engineWith, positionAt, vertexAt, i1, i2]
    exact add_nonneg
      ((repulsionTerm_fst_sign 50000 hr (170, y0) (65, y1)).1 (by norm_num))
      ((repulsionTerm_fst_sign 50000 hr (170, y0) (65, y2)).1 (by norm_num))
  have hF1 : (netForce Real.sqrt (smallSquare ℝ y0 y1 y2) 1).1 ≤ 0 := by
    simp only [netForce, hp, he]
    simp [smallSquare, engineWith, positionAt, vertexAt, i1, i2]
    exact add_nonpos
      ((repulsionTerm_fst_sign 50000 hr (65, y1) (170, y0)).2 (by norm_num))
      ((repulsionTerm_fst_sign 50000 hr (65, y1) (65, y2)).2 (by norm_num))
  have hF2 : (netForce Real.sqrt (smallSquare ℝ y0 y1 y2) 2).1 ≤ 0 := by
    simp only [netForce, hp, he]
    simp [smallSquare, engineWith, positionAt, vertexAt, i1, i2]
    exact add_nonpos
      ((repulsionTerm_fst_sign 50000 hr (65, y2) (170, y0)).2 (by norm_num))
      ((repulsionTerm_fst_sign 50000 hr (65, y2) (65, y1)).2 (by norm_num))
  rw [hopt, centerGraph_eq _ (by rw [h5, h1]; rfl) (by rw [hg]; decide)]
  simp only [windowCenter, h2, h3]
  rw [applyForceDirectedStep_eq_stepSpec _ _ (smallSquare_wf ℝ y0 y1 y2)]
  have hv : (smallSquare ℝ y0 y1 y2).vertices
      = [⟨170, y0, 0, 0⟩, ⟨65, y1, 0, 0⟩, ⟨65, y2, 0, 0⟩] := rfl
  have hW : (smallSquare ℝ y0 y1 y2).windowWidth = 200 := rfl
  have hH : (smallSquare ℝ y0 y1 y2).windowHeight = 200 := rfl
  have hR : (smallSquare ℝ y0 y1 y2).vertexRadius = 25 := rfl
  have hd : (smallSquare ℝ y0 y1 y2).damping = 85 / 100 := rfl
  simp only [stepSpec, hv, hW, hH, hR, hd, List.mapIdx_cons, List.mapIdx_nil]
  generalize netForce Real.sqrt (smallSquare ℝ y0 y1 y2) 0 = F0 at hF0 ⊢
  generalize netForce Real.sqrt (smallSquare ℝ y0 y1 y2) 1 = F1 at hF1 ⊢
  generalize netForce Real.sqrt (smallSquare ℝ y0 y1 y2) 2 = F2 at hF2 ⊢
  have e1 : (25 : ℝ) * 2 = 50 := by norm_num
  have e2 : (((200 : Int) : ℝ)) - 50 = 150 := by norm_num
  have hA : clampCoord (25 : ℝ) 200 (170 + 85 / 100 * F0.1) = 150 := by
    simp only [clampCoord, e1, e2]
    rw [min_eq_left (by linarith), max_eq_right (by norm_num)]
  have hB : clampCoord (25 : ℝ) 200 (65 + 85 / 100 * F1.1) ≤ 65 := by
    simp only [clampCoord, e1, e2]
    exact max_le (by norm_num) ((min_le_right _ _).trans (by linarith))
  have hC : clampCoord (25 : ℝ) 200 (65 + 85 / 100 * F2.1) ≤ 65 := by
    simp only [clampCoord, e1, e2]
    exact max_le (by norm_num) ((min_le_right _ _).trans (by linarith))
  rw [hA]
  generalize clampCoord (25 : ℝ) 200 (65 + 85 / 100 * F1.1) = b at hB ⊢
  generalize clampCoord (25 : ℝ) 200 (65 + 85 / 100 * F2.1) = c at hC ⊢
  simp only [centroid, translate, vertexAt, List.map_cons, List.map_nil, List.sum_cons,
    List.sum_nil, List.length_cons, List.length_nil, Int.toNat_zero, List.getD_cons_zero]
  norm_num
  linarith

theorem squareEngine_eq :
    squareEngine Real.cos Real.sin Real.pi
      = smallSquare ℝ (100 + 70 * Real.sin (2 * Real.pi * 0 / 3))
          (100 + 70 * Real.sin (2 * Real.pi * 1 / 3))
          (100 + 70 * Real.sin (2 * Real.pi * 2 / 3)) := by
  have hc1 : Real.cos (2 * Real.pi * 1 / 3) = -(1 / 2) := by
    rw [show 2 * Real.pi * 1 / 3 = Real.pi - Real.pi / 3 by ring, Real.cos_pi_sub,
      Real.cos_pi_div_three]
  have hc2 : Real.cos (2 * Real.pi * 2 / 3) = -(1 / 2) := by
    rw [show 2 * Real.pi * 2 / 3 = Real.pi / 3 + Real.pi by ring, Real.cos_add_pi,
      Real.cos_pi_div_three]
  have hc1' : Real.cos (2 * Real.pi / 3) = -(1 / 2) := by
    rw [← hc1]; congr 1; ring
  have hstate : engineWith ℝ (Graph.Graph 3) 200 200
      (List.replicate (Graph.Graph 3).numVertices.toNat ⟨0, 0, 0, 0⟩)
      = engineWith ℝ (Graph.Graph 3) 200 200 [⟨0, 0, 0, 0⟩, ⟨0, 0, 0, 0⟩, ⟨0, 0, 0, 0⟩] := rfl
  have hr : layoutRadius (engineWith ℝ (Graph.Graph 3) 200 200
      [⟨0, 0, 0, 0⟩, ⟨0, 0, 0, 0⟩, ⟨0, 0, 0, 0⟩]) = 70 := by
    simp only [layoutRadius, engineWith]
    norm_num
  unfold squareEngine GraphVisualizerRaylib.GraphVisualizerRaylib
  rw [hstate, initializePositions_eq Real.cos Real.sin Real.pi
    (engineWith ℝ (Graph.Graph 3) 200 200 [⟨0, 0, 0, 0⟩, ⟨0, 0, 0, 0⟩, ⟨0, 0, 0, 0⟩]) rfl
    (by decide)]
  simp only [hr, windowCenter]
  simp only [engineWith, smallSquare, List.mapIdx_cons, List.mapIdx_nil, Graph.Graph]
  norm_num [hc1', hc2]

theorem optimize_bounds_counterexample :
    (squareEngine Real.cos Real.sin Real.pi).vertices.length
        = (squareEngine Real.cos Real.sin Real.pi).graph.numVertices.toNat ∧
      2 * (squareEngine Real.cos Real.sin Real.pi).vertexRadius
        ≤ ((squareEngine Real.cos Real.sin Real.pi).windowWidth : ℝ)
          - 2 * (squareEngine Real.cos Real.sin Real.pi).vertexRadius ∧
      2 * (squareEngine Real.cos Real.sin Real.pi).vertexRadius
        ≤ ((squareEngine Real.cos Real.sin Real.pi).windowHeight : ℝ)
          - 2 * (squareEngine Real.cos Real.sin Real.pi).vertexRadius ∧
      ((squareEngine Real.cos Real.sin Real.pi).windowWidth : ℝ)
          - 2 * (squareEngine Real.cos Real.sin Real.pi).vertexRadius
        < (vertexAt (optimize Real.sqrt (squareEngine Real.cos Real.sin Real.pi) 1).vertices 0).x ∧
      (lopsided ℝ).vertices.length = (lopsided ℝ).graph.numVertices.toNat ∧
      2 * (lopsided ℝ).vertexRadius
        ≤ ((lopsided ℝ).windowWidth : ℝ) - 2 * (lopsided ℝ).vertexRadius ∧
      2 * (lopsided ℝ).vertexRadius
        ≤ ((lopsided ℝ).windowHeight : ℝ) - 2 * (lopsided ℝ).vertexRadius ∧
      (vertexAt (optimize Real.sqrt (lopsided ℝ) 1).vertices 0).x = -(111 + 17 / 1323) ∧
      ¬ (∀ v ∈ (optimize Real.sqrt (lopsided ℝ) 1).vertices,
        2 * (lopsided ℝ).vertexRadius ≤ v.x ∧
          v.x ≤ ((lopsided ℝ).windowWidth : ℝ) - 2 * (lopsided ℝ).vertexRadius ∧
          2 * (lopsided ℝ).vertexRadius ≤ v.y ∧
          v.y ≤ ((lopsided ℝ).windowHeight : ℝ) - 2 * (lopsided ℝ).vertexRadius) := by
  have hsq := smallSquare_optimize (100 + 70 * Real.sin (2 * Real.pi * 0 / 3))
    (100 + 70 * Real.sin (2 * Real.pi * 1 / 3)) (100 + 70 * Real.sin (2 * Real.pi * 2 / 3))
  rw [← squareEngine_eq] at hsq
  have hW : ((squareEngine Real.cos Real.sin Real.pi).windowWidth : ℝ)
      - 2 * (squareEngine Real.cos Real.sin Real.pi).vertexRadius = 150 := by
    rw [squareEngine_eq]
    simp only [smallSquare, engineWith]
    norm_num
  have hH : ((squareEngine Real.cos Real.sin Real.pi).windowHeight : ℝ)
      - 2 * (squareEngine Real.cos Real.sin Real.pi).vertexRadius = 150 := by
    rw [squareEngine_eq]
    simp only [smallSquare, engineWith]
    norm_num
  have hR : 2 * (squareEngine Real.cos Real.sin Real.pi).vertexRadius = 50 := by
    rw [squareEngine_eq]
    simp only [smallSquare, engineWith]
    norm_num
  refine ⟨by rw [squareEngine_eq]; rfl, by rw [hW, hR]; norm_num, by rw [hH, hR]; norm_num,
    by rw [hW]; linarith, rfl, by simp only [lopsided, engineWith]; norm_num,
    by simp only [lopsided, engineWith]; norm_num, ?_, ?_⟩
  · rw [lopsided_optimize]
    simp [vertexAt]
  · intro h
    rw [lopsided_optimize] at h
    have h0 := (h _ (List.mem_cons_self _ _)).1
    simp only [lopsided, engineWith] at h0
    norm_num at h0

end GraphLab
